import Mathlib

/-!
# Verification of `rapid::AVLTree` (Core/AVLTree.h)

`AVLTree<T>` keeps its nodes in a `BinaryTree<T>` member and drives it through
node pointers.  `Core/AVLTree.h` is embedded function by function below.  The
header `BinaryTree.h` it includes is not among the sources, so the node
substrate (shape of a node, height, rotations, attaching a leaf, physical
removal of a node) is modelled from the specification; every such definition
says so in its doc comment.

Representation of pointers.  A `TreeNode *` that is not null is a `Loc`: the
node it points to (left subtree, payload, right subtree) together with the
chain of its ancestors `up`, nearest first.  Following `parent` is popping the
first `Step` of that chain, following a child link is pushing one.  The null
pointer is `none`, or the `absent` subtree where a loop variable walks down
child links.  An `iterator` is the path of child links that leads from the
root to the node.

Payloads are taken from a type that `<` orders linearly, as `int` in the test
driver is; `Compare` is the default comparator of the class.  `_F_insert` is
given for any comparator (the template parameter `_CompareType`), and used with
`Compare_on key` where payloads that compare equal may differ: there the
payload write of the overwrite shows.  A tree object is
called counted when its stored count is the number of its nodes; `empty()`
reads the stored count, so the operations are stated for counted trees.

The parent back-reference is a stored field of the nodes of `BinaryTree.h`.
The section "Nodes with stored links" gives the primitives of the substrate
with that field written, and `Core/AVLTree.h` over them a second time; without
the stored links those functions are the ones over the zipper.

`Stack<T>` of `MyStack/Stack.h`, which the tree does not use, is embedded in a
section of its own.
-/

namespace rapid

/-- The ways an operation can fail.  `NotFound` and `InvalidRotation`
are the failures named by the specification; `NullDereference` is the access
`node->data()` (or a child access) through a null `TreeNode *`, and
`OutOfBounds` the read `*it` at `arg_list.end()`. -/
inductive Fault where
  | NotFound
  | InvalidRotation
  | NullDereference
  | OutOfBounds
  deriving DecidableEq

/-- `Compare<T>::operator()` (AVLTree.h 10-19). -/
def Compare {α : Type} [LinearOrder α] (arg1 arg2 : α) : Int :=
  if arg1 < arg2 then 1
  else if arg2 < arg1 then -1
  else 0

/-- Modelled from the spec: the node of `BinaryTree.h` (spec section 3, "Node"):
a payload and two exclusively owned child slots, each of which may be absent.
The parent back-reference is the `up` chain of a `Loc`. -/
inductive TreeNode (α : Type) where
  | absent : TreeNode α
  | node (left : TreeNode α) (data : α) (right : TreeNode α) : TreeNode α
  deriving DecidableEq

/-- A child link. -/
inductive Dir where
  | L
  | R
  deriving DecidableEq

/-- The child links leading from a node down to one of its descendants. -/
abbrev Path := List Dir

/-- An iterator of the tree: the path from the root to the node it refers to. -/
abbrev iterator := Path

/-- One parent link: `Step.left x r` says "I am the left child of the node with
payload `x` and right subtree `r`", `Step.right l x` says "I am the right child
of the node with left subtree `l` and payload `x`". -/
inductive Step (α : Type) where
  | left (data : α) (right : TreeNode α) : Step α
  | right (left : TreeNode α) (data : α) : Step α
  deriving DecidableEq

/-- A non-null `TreeNode *`: the node and the chain of its ancestors. -/
structure Loc (α : Type) where
  left : TreeNode α
  data : α
  right : TreeNode α
  up : List (Step α)
  deriving DecidableEq

/-- Modelled from the spec: the tree object of `BinaryTree.h` (spec section 3,
"Tree"): the root and the stored count of live nodes. -/
structure BinaryTree (α : Type) where
  root : TreeNode α
  count : Nat
  deriving DecidableEq

variable {α : Type}

/-- In-order traversal: left subtree, node, right subtree (spec section 4.2). -/
def TreeNode.inorder : TreeNode α → List α
  | .absent => []
  | .node l x r => l.inorder ++ x :: r.inorder

/-- Number of nodes reachable from a node. -/
def TreeNode.nodes : TreeNode α → Nat
  | .absent => 0
  | .node l _ r => l.nodes + 1 + r.nodes

/-- Modelled from the spec: `BinaryTree::depth(TreeNode *)`, spec section 4.1
`height(node)`: 0 for absent, else 1 + max(height(left), height(right)). -/
def depth : TreeNode α → Nat
  | .absent => 0
  | .node l _ r => 1 + max (depth l) (depth r)

/-- The subtree in which a child sits, seen from the child. -/
def Step.attach : Step α → TreeNode α → TreeNode α
  | .left x r, c => .node c x r
  | .right l x, c => .node l x c

/-- The child link a parent link is the reverse of. -/
def Step.dir : Step α → Dir
  | .left _ _ => Dir.L
  | .right _ _ => Dir.R

/-- The parent a parent link leads to, as a pointer, when the child slot holds `c`. -/
def Step.parent : Step α → TreeNode α → List (Step α) → Loc α
  | .left x r, c, up => ⟨c, x, r, up⟩
  | .right l x, c, up => ⟨l, x, c, up⟩

/-- The whole tree around a subtree: follow the parent links up to the root. -/
def rebuild : TreeNode α → List (Step α) → TreeNode α
  | sub, [] => sub
  | sub, s :: up => rebuild (s.attach sub) up

/-- The node a pointer points to, with its subtrees. -/
def Loc.sub (n : Loc α) : TreeNode α := .node n.left n.data n.right

/-- The tree a pointer points into. -/
def Loc.rebuild (n : Loc α) : TreeNode α := rapid.rebuild n.sub n.up

/-- The iterator of a pointer: the child links from the root, outermost first. -/
def path_of : List (Step α) → Path
  | [] => []
  | s :: up => path_of up ++ [s.dir]

/-- Modelled from the spec: `BinaryTree::tree_node(iterator)`: the node an
iterator refers to in the tree below `sub` (whose ancestors are `up`), null
when the path leaves the tree. -/
def tree_node : TreeNode α → iterator → List (Step α) → Option (Loc α)
  | .absent, _, _ => none
  | .node l x r, [], up => some ⟨l, x, r, up⟩
  | .node l x r, Dir.L :: p, up => tree_node l p (Step.left x r :: up)
  | .node l x r, Dir.R :: p, up => tree_node r p (Step.right l x :: up)

/-- Modelled from the spec: `BinaryTree::size()`, the stored count of live nodes. -/
def BinaryTree.size (t : BinaryTree α) : Nat := t.count

/-- Modelled from the spec: `BinaryTree::left_rotate` (spec section 4.1
`rotate_left(x)`): requires `x.right` present; with `y = x.right`, `y` takes the
position of `x`, `x` becomes the left child of `y`, and the former left subtree of
`y` becomes the right subtree of `x`.  The result is the subtree now hanging at
the position, whose root is the returned node `y`. -/
def left_rotate : TreeNode α → Except Fault (TreeNode α)
  | .node a x (.node b y c) => .ok (.node (.node a x b) y c)
  | _ => .error Fault.InvalidRotation

/-- Modelled from the spec: `BinaryTree::right_rotate` (spec section 4.1
`rotate_right(x)`), the mirror image of `left_rotate`; requires `x.left` present. -/
def right_rotate : TreeNode α → Except Fault (TreeNode α)
  | .node (.node a y b) x c => .ok (.node a y (.node b x c))
  | _ => .error Fault.InvalidRotation

/-- Where `left_rotate` leaves a node of the rotated subtree: the path from the
position to the node, before and after. -/
def left_rotate.moved : Path → Path
  | [] => [Dir.L]
  | [Dir.R] => []
  | Dir.R :: Dir.L :: p => Dir.L :: Dir.R :: p
  | Dir.R :: Dir.R :: p => Dir.R :: p
  | Dir.L :: p => Dir.L :: Dir.L :: p

/-- Where `right_rotate` leaves a node of the rotated subtree. -/
def right_rotate.moved : Path → Path
  | [] => [Dir.R]
  | [Dir.L] => []
  | Dir.L :: Dir.R :: p => Dir.R :: Dir.L :: p
  | Dir.L :: Dir.L :: p => Dir.L :: p
  | Dir.R :: p => Dir.R :: Dir.R :: p

/-- A rotation at the child in direction `d` moves the nodes below that child only. -/
def moved_below (d : Dir) (f : Path → Path) : Path → Path
  | [] => []
  | e :: p => if e = d then e :: f p else e :: p

/-- Modelled from the spec: `BinaryTree::append_root`: the new node becomes the
root (spec section 4.2, insert step 1); the count of live nodes grows by one. -/
def BinaryTree.append_root (t : BinaryTree α) (arg : α) : BinaryTree α × Loc α :=
  ({ root := .node .absent arg .absent, count := t.count + 1 }, ⟨.absent, arg, .absent, []⟩)

/-- Modelled from the spec: `BinaryTree::append_left` (spec section 4.1
`attach_left`): a new leaf becomes the left child of `node`, replacing any
previous child; returns the new leaf. -/
def BinaryTree.append_left (t : BinaryTree α) (node : Loc α) (arg : α) :
    BinaryTree α × Loc α :=
  let leaf : Loc α := ⟨.absent, arg, .absent, Step.left node.data node.right :: node.up⟩
  ({ root := leaf.rebuild, count := t.count + 1 }, leaf)

/-- Modelled from the spec: `BinaryTree::append_right` (spec section 4.1
`attach_right`), the mirror image of `append_left`. -/
def BinaryTree.append_right (t : BinaryTree α) (node : Loc α) (arg : α) :
    BinaryTree α × Loc α :=
  let leaf : Loc α := ⟨.absent, arg, .absent, Step.right node.left node.data :: node.up⟩
  ({ root := leaf.rebuild, count := t.count + 1 }, leaf)

/-- Modelled from the spec: `structural_successor` of a node with a right child
(spec section 4.1): the leftmost node of the subtree `sub`, null when `sub` is
absent. -/
def leftmost : TreeNode α → List (Step α) → Option (Loc α)
  | .absent, _ => none
  | .node l x r, up =>
    match leftmost l (Step.left x r :: up) with
    | some m => some m
    | none => some ⟨l, x, r, up⟩

/-- Modelled from the spec: the zero-child and one-child cases of erase (spec
section 4.2): the subtree `c` (absent, or the only child) is spliced into the
position of the removed node, whose ancestors are `up`; the count of live nodes
drops by one; the result is the new tree and the former parent of the removed
node, null when the removed node was the root. -/
def BinaryTree.splice (t : BinaryTree α) (c : TreeNode α) :
    List (Step α) → BinaryTree α × Option (Loc α)
  | [] => ({ root := c, count := t.count - 1 }, none)
  | s :: up =>
    let p := s.parent c up
    ({ root := p.rebuild, count := t.count - 1 }, some p)

/-- Modelled from the spec: `BinaryTree::erase(TreeNode *)` (spec section 4.2,
erase): with at most one child the node is spliced out; with two children the
payload of the structural successor is copied into the node and the successor,
which has no left child, is spliced out instead.  Returns the node at which the
rebalance walk starts. -/
def BinaryTree.erase (t : BinaryTree α) (node : Loc α) : BinaryTree α × Option (Loc α) :=
  match node.left, node.right with
  | .absent, r => t.splice r node.up
  | .node a y b, .absent => t.splice (.node a y b) node.up
  | .node a y b, .node c z d =>
    match leftmost (.node c z d) [] with
    | none => (t, none)
    | some s => t.splice s.right (s.up ++ Step.right (.node a y b) s.data :: node.up)

namespace AVLTree

/-- `AVLTree::size` (AVLTree.h 84-85). -/
def size (t : BinaryTree α) : Nat := t.size

/-- `AVLTree::empty` (AVLTree.h 86-87). -/
def empty (t : BinaryTree α) : Bool := size t == 0

/-- `AVLTree::depth` (AVLTree.h 88-89), with `BinaryTree::depth()` the height
of the whole tree. -/
def depth (t : BinaryTree α) : Nat := rapid.depth t.root

/-- The body of the loop of `_F_adjust` (AVLTree.h 131-150) at the node `visit`
points to, given as the subtree hanging there.  The result is the subtree that
hangs at the same position afterwards (its root is the new `visit`) and the new
place, below the position, of the node that was at path `p` below it. -/
def _F_adjust.visit : TreeNode α → Path → Except Fault (TreeNode α × Path)
  | .absent, _ => .error Fault.NullDereference
  | .node l x r, p =>
    let left_dep := rapid.depth l
    let right_dep := rapid.depth r
    if left_dep > right_dep ∧ left_dep - right_dep > 1 then
      match l with
      | .absent => .error Fault.NullDereference
      | .node tl ty tr =>
        if rapid.depth tl < rapid.depth tr then
          left_rotate (.node tl ty tr) >>= fun temp =>
          right_rotate (.node temp x r) >>= fun v =>
          pure (v, right_rotate.moved (moved_below Dir.L left_rotate.moved p))
        else
          right_rotate (.node (.node tl ty tr) x r) >>= fun v =>
          pure (v, right_rotate.moved p)
    else if right_dep > left_dep ∧ right_dep - left_dep > 1 then
      match r with
      | .absent => .error Fault.NullDereference
      | .node tl ty tr =>
        if rapid.depth tr < rapid.depth tl then
          right_rotate (.node tl ty tr) >>= fun temp =>
          left_rotate (.node l x temp) >>= fun v =>
          pure (v, left_rotate.moved (moved_below Dir.R right_rotate.moved p))
        else
          left_rotate (.node l x (.node tl ty tr)) >>= fun v =>
          pure (v, left_rotate.moved p)
    else
      pure (.node l x r, p)

/-- The loop of `_F_adjust` (AVLTree.h 129-152): `visit` is the subtree at the
visited node, `up` its ancestors.  After the body, `visit = parent(visit)`
re-attaches the subtree under the nearest ancestor; the loop ends when there is
none.  Returns the root and the path from the root to the tracked node. -/
def _F_adjust.loop : TreeNode α → Path → List (Step α) → Except Fault (TreeNode α × Path)
  | visit, p, [] => _F_adjust.visit visit p
  | visit, p, s :: up =>
    _F_adjust.visit visit p >>= fun v =>
    _F_adjust.loop (s.attach v.1) (s.dir :: v.2) up

/-- `AVLTree::_F_adjust` (AVLTree.h 125-153).  The second component is the
iterator under which `node` is found in the adjusted tree. -/
def _F_adjust (t : BinaryTree α) (node : Option (Loc α)) :
    Except Fault (BinaryTree α × iterator) :=
  match node with
  | none => pure (t, [])
  | some n =>
    _F_adjust.loop n.sub [] n.up >>= fun v =>
    pure ({ t with root := v.1 }, v.2)

/-- The loop of `_F_find` (AVLTree.h 161-176); `node` is the subtree the
pointer `node` points to, absent for the null pointer. -/
def _F_find.loop [LinearOrder α] (arg : α) : TreeNode α → Except Fault iterator
  | .absent => .error Fault.NullDereference
  | .node l x r =>
    let res := Compare arg x
    if res = 0 then pure []
    else if res > 0 then _F_find.loop arg l >>= fun it => pure (Dir.L :: it)
    else _F_find.loop arg r >>= fun it => pure (Dir.R :: it)

/-- `AVLTree::_F_find` (AVLTree.h 155-178). -/
def _F_find [LinearOrder α] (t : BinaryTree α) (arg : α) : Except Fault iterator :=
  _F_find.loop arg t.root

/-- `AVLTree::find` (AVLTree.h 91-94). -/
def find [LinearOrder α] (t : BinaryTree α) (arg : α) : Except Fault iterator :=
  _F_find t arg

/-- The loop of `_F_insert` and what follows it (AVLTree.h 190-218), for any
comparator: `cmp` is the call `CompareType()(arg1, arg2)` of the template
parameter `_CompareType` (AVLTree.h 21). `node` is given as the subtree it
points to and the chain `up` of its ancestors. -/
def _F_insert_by.loop (cmp : α → α → Int) (t : BinaryTree α) (arg : α) :
    TreeNode α → List (Step α) → Except Fault (BinaryTree α × iterator)
  | .absent, _ => .error Fault.NullDereference
  | .node l x r, up =>
    let res := cmp arg x
    if res = 0 then
      pure ({ t with root := rebuild (.node l arg r) up }, path_of up)
    else if res > 0 then
      match l with
      | .absent =>
        let a := t.append_left ⟨l, x, r, up⟩ arg
        _F_adjust a.1 (some a.2)
      | .node _ _ _ => _F_insert_by.loop cmp t arg l (Step.left x r :: up)
    else
      match r with
      | .absent =>
        let a := t.append_right ⟨l, x, r, up⟩ arg
        _F_adjust a.1 (some a.2)
      | .node _ _ _ => _F_insert_by.loop cmp t arg r (Step.right l x :: up)

/-- `AVLTree::_F_insert` (AVLTree.h 180-219) for any comparator `cmp`. -/
def _F_insert_by (cmp : α → α → Int) (t : BinaryTree α) (arg : α) :
    Except Fault (BinaryTree α × iterator) :=
  if empty t then
    pure ((t.append_root arg).1, [])
  else
    _F_insert_by.loop cmp t arg t.root []

/-- `AVLTree::insert(ConstReference)` (AVLTree.h 108-111) for any comparator. -/
def insert_by (cmp : α → α → Int) (t : BinaryTree α) (arg : α) :
    Except Fault (BinaryTree α × iterator) :=
  _F_insert_by cmp t arg

/-- The loop of `_F_insert` with the default comparator `Compare<_DataType>`
(AVLTree.h 21). -/
def _F_insert.loop [LinearOrder α] (t : BinaryTree α) (arg : α) :
    TreeNode α → List (Step α) → Except Fault (BinaryTree α × iterator) :=
  _F_insert_by.loop Compare t arg

/-- `AVLTree::_F_insert` (AVLTree.h 180-219) with the default comparator. -/
def _F_insert [LinearOrder α] (t : BinaryTree α) (arg : α) :
    Except Fault (BinaryTree α × iterator) :=
  _F_insert_by Compare t arg

/-- `AVLTree::insert(ConstReference)` (AVLTree.h 108-111). -/
def insert [LinearOrder α] (t : BinaryTree α) (arg : α) :
    Except Fault (BinaryTree α × iterator) :=
  _F_insert t arg

/-- `AVLTree::insert(std::initializer_list)` (AVLTree.h 96-107): the element is
read before the end of the list is tested. -/
def insert_list [LinearOrder α] (t : BinaryTree α) :
    List α → Except Fault (BinaryTree α × iterator)
  | [] => .error Fault.OutOfBounds
  | [x] => _F_insert t x
  | x :: y :: rest => _F_insert t x >>= fun r => insert_list r.1 (y :: rest)

/-- `AVLTree::_F_erase` (AVLTree.h 46-47). -/
def _F_erase (t : BinaryTree α) (node : Loc α) : Except Fault (BinaryTree α) :=
  let e := t.erase node
  _F_adjust e.1 e.2 >>= fun r => pure r.1

/-- `AVLTree::erase(iterator)` (AVLTree.h 116-117). -/
def erase_at (t : BinaryTree α) (it : iterator) : Except Fault (BinaryTree α) :=
  match tree_node t.root it [] with
  | none => .error Fault.NullDereference
  | some n => _F_erase t n

/-- `AVLTree::erase(ConstReference)` (AVLTree.h 112-115): `erase(find(arg))`. -/
def erase [LinearOrder α] (t : BinaryTree α) (arg : α) : Except Fault (BinaryTree α) :=
  find t arg >>= fun it => erase_at t it

/-- Modelled from the spec: the default-constructed `BinaryTree` member of
`AVLTree::AVLTree()` (AVLTree.h 49): the root is null and there is no live
node (spec section 3, "Tree"). -/
def new : BinaryTree α := { root := .absent, count := 0 }

/-- Single-key inserts, one after the other, from first to last. -/
def insert_each [LinearOrder α] (t : BinaryTree α) : List α → Except Fault (BinaryTree α)
  | [] => pure t
  | x :: rest => insert t x >>= fun r => insert_each r.1 rest

end AVLTree


/-! ## Invariants -/

/-- The AVL invariant (spec section 3): at every node the heights of the two
subtrees differ by at most one. -/
def Balanced : TreeNode α → Prop
  | .absent => True
  | .node l _ r => Balanced l ∧ Balanced r ∧ depth l ≤ depth r + 1 ∧ depth r ≤ depth l + 1

/-- The ordering invariant (spec section 3): at every node, every payload of the
left subtree orders strictly before the payload of the node and every payload of
the right subtree strictly after it. -/
def Ordered [LinearOrder α] : TreeNode α → Prop
  | .absent => True
  | .node l x r =>
    Ordered l ∧ Ordered r ∧ (∀ y ∈ l.inorder, y < x) ∧ (∀ y ∈ r.inorder, x < y)

/-- The stored count is the number of nodes reachable from the root (spec
section 3, "Tree"). -/
def Counted (t : BinaryTree α) : Prop := t.count = t.root.nodes

/-- Deciding the AVL invariant. -/
def Balanced.dec : (t : TreeNode α) → Decidable (Balanced t)
  | .absent => isTrue trivial
  | .node l _ r =>
    match Balanced.dec l, Balanced.dec r with
    | isTrue hl, isTrue hr =>
      if h : depth l ≤ depth r + 1 ∧ depth r ≤ depth l + 1 then isTrue ⟨hl, hr, h.1, h.2⟩
      else isFalse (fun hb => h ⟨hb.2.2.1, hb.2.2.2⟩)
    | isFalse hl, _ => isFalse (fun hb => hl hb.1)
    | _, isFalse hr => isFalse (fun hb => hr hb.2.1)

instance (t : TreeNode α) : Decidable (Balanced t) := Balanced.dec t

/-- Deciding the ordering invariant. -/
def Ordered.dec [LinearOrder α] : (t : TreeNode α) → Decidable (Ordered t)
  | .absent => isTrue trivial
  | .node l x r =>
    match Ordered.dec l, Ordered.dec r with
    | isTrue hl, isTrue hr =>
      if h : (∀ y ∈ l.inorder, y < x) ∧ (∀ y ∈ r.inorder, x < y) then
        isTrue ⟨hl, hr, h.1, h.2⟩
      else isFalse (fun hb => h ⟨hb.2.2.1, hb.2.2.2⟩)
    | isFalse hl, _ => isFalse (fun hb => hl hb.1)
    | _, isFalse hr => isFalse (fun hb => hr hb.2.1)

instance [LinearOrder α] (t : TreeNode α) : Decidable (Ordered t) := Ordered.dec t

instance (t : BinaryTree α) : Decidable (Counted t) := by
  unfold Counted; infer_instance


/-! ## Contexts -/

/-- The payloads that come before the subtree in the in-order traversal of the
whole tree, read off the chain of ancestors. -/
def before : List (Step α) → List α
  | [] => []
  | .left _ _ :: up => before up
  | .right l x :: up => before up ++ (l.inorder ++ [x])

/-- The payloads that come after the subtree in the in-order traversal of the
whole tree. -/
def after : List (Step α) → List α
  | [] => []
  | .left x r :: up => x :: r.inorder ++ after up
  | .right _ _ :: up => after up

/-- The number of nodes outside the subtree. -/
def outside : List (Step α) → Nat
  | [] => 0
  | .left _ r :: up => 1 + r.nodes + outside up
  | .right l _ :: up => l.nodes + 1 + outside up

/-- The chain of ancestors fits a subtree of height `h` in the AVL sense: at
every ancestor the sibling subtree is balanced and its height differs by at most
one from the height on the side of the chain. -/
def FitsHeight : Nat → List (Step α) → Prop
  | _, [] => True
  | h, .left _ r :: up =>
    Balanced r ∧ h ≤ depth r + 1 ∧ depth r ≤ h + 1 ∧ FitsHeight (1 + max h (depth r)) up
  | h, .right l _ :: up =>
    Balanced l ∧ depth l ≤ h + 1 ∧ h ≤ depth l + 1 ∧ FitsHeight (1 + max (depth l) h) up


/-- The sorted sequence `L` with the key `k` put at its place: the keys before
`k`, then `k`, then the keys after `k`. -/
def put [LinearOrder α] (k : α) (L : List α) : List α :=
  L.filter (fun y => y < k) ++ k :: L.filter (fun y => k < y)


/-- A parent link that the descent for the key `k` follows: to the left child
when `k` orders before the payload of the parent, to the right child when it
orders after it. -/
def Step.toward [LinearOrder α] (k : α) : Step α → Prop
  | .left x _ => k < x
  | .right _ x => x < k

/-- The sequence is strictly increasing under the comparator: of any two
payloads, the earlier one compares as "before" the later one (`Compare` returns
a positive value, the test on which the descents go left). -/
def StrictlyIncreasing [LinearOrder α] (L : List α) : Prop :=
  L.Pairwise (fun a b => Compare a b > 0)

instance [LinearOrder α] (L : List α) : Decidable (StrictlyIncreasing L) := by
  unfold StrictlyIncreasing; infer_instance

/-- The tree built from a list of keys of the test driver (Test/TestAVLTree.cpp
8-10), inserted one at a time into an empty tree; the empty tree if an insert
fails. -/
def built (keys : List Int) : BinaryTree Int :=
  match AVLTree.insert_each AVLTree.new keys with
  | .ok t => t
  | .error _ => AVLTree.new

/-- The tree after the keys are erased one after the other (Test/TestAVLTree.cpp
37 and 57); the tree reached so far if an erase fails. -/
def erased (t : BinaryTree Int) : List Int → BinaryTree Int
  | [] => t
  | k :: rest =>
    match AVLTree.erase t k with
    | .ok t2 => erased t2 rest
    | .error _ => t

/-- The first twelve keys of the test driver (Test/TestAVLTree.cpp 9). -/
def keys12 : List Int := [50, 45, 40, 48, 39, 43, 47, 49, 38, 42, 44, 46]

/-- All twenty-four keys of the test driver (Test/TestAVLTree.cpp 9-10). -/
def keys24 : List Int :=
  keys12 ++ [100, 90, 200, 60, 95, 199, 202, 80, 94, 96, 201, 300]

/-! ## Traversals, operations and reachable states -/

/-- Modelled from the spec: the pre-order traversal `fbegin()..fend()` of
`BinaryTree.h` (spec section 4.2, "pre-order"): node, then left subtree, then
right subtree. -/
def TreeNode.preorder : TreeNode α → List α
  | .absent => []
  | .node l x r => x :: (l.preorder ++ r.preorder)

/-- Modelled from the spec: the post-order traversal `abegin()..aend()` of
`BinaryTree.h` (spec section 4.2, "post-order"): left subtree, then right
subtree, then node. -/
def TreeNode.postorder : TreeNode α → List α
  | .absent => []
  | .node l x r => l.postorder ++ (r.postorder ++ [x])

/-- Modelled from the spec: the nodes in the order in which the pre-order
iterator visits them, each given by its iterator. -/
def former_order : TreeNode α → List iterator
  | .absent => []
  | .node l _ r =>
    [] :: ((former_order l).map (fun p => Dir.L :: p) ++
      (former_order r).map (fun p => Dir.R :: p))

/-- Modelled from the spec: the nodes in the order in which the in-order
iterator `begin()..end()` visits them, each given by its iterator. -/
def middle_order : TreeNode α → List iterator
  | .absent => []
  | .node l _ r =>
    (middle_order l).map (fun p => Dir.L :: p) ++
      [] :: (middle_order r).map (fun p => Dir.R :: p)

/-- Modelled from the spec: the nodes in the order in which the post-order
iterator visits them, each given by its iterator. -/
def after_order : TreeNode α → List iterator
  | .absent => []
  | .node l _ r =>
    (after_order l).map (fun p => Dir.L :: p) ++
      ((after_order r).map (fun p => Dir.R :: p) ++ [[]])

/-- The payload of the node an iterator refers to (`*it`), none when the path
leaves the tree. -/
def payload_at : TreeNode α → iterator → Option α
  | .absent, _ => none
  | .node _ x _, [] => some x
  | .node l _ _, Dir.L :: p => payload_at l p
  | .node _ _ r, Dir.R :: p => payload_at r p

/-- The payloads a sequence of iterators yields. -/
def payloads (t : TreeNode α) (its : List iterator) : List α :=
  its.filterMap (payload_at t)

/-- A call of the public interface that changes the tree. -/
inductive Op (α : Type) where
  | insert (arg : α) : Op α
  | erase (arg : α) : Op α
  | erase_at (it : iterator) : Op α

/-- One call of the public interface. -/
def Op.apply [LinearOrder α] (t : BinaryTree α) : Op α → Except Fault (BinaryTree α)
  | .insert arg => AVLTree.insert t arg >>= fun r => pure r.1
  | .erase arg => AVLTree.erase t arg
  | .erase_at it => AVLTree.erase_at t it

/-- A sequence of calls, each on the tree the one before left. -/
def run [LinearOrder α] (t : BinaryTree α) : List (Op α) → Except Fault (BinaryTree α)
  | [] => pure t
  | op :: rest => op.apply t >>= fun t2 => run t2 rest

/-- The states reachable from the empty tree by insert and erase calls that
return. -/
def Reachable [LinearOrder α] (t : BinaryTree α) : Prop :=
  ∃ ops : List (Op α), run AVLTree.new ops = .ok t

namespace AVLTree

/-- `AVLTree::AVLTree(std::initializer_list)` (AVLTree.h 54-55): the batch
insert into the freshly constructed tree. -/
def from_list [LinearOrder α] (arg_list : List α) : Except Fault (BinaryTree α) :=
  insert_list (new : BinaryTree α) arg_list >>= fun r => pure r.1

end AVLTree

/-- A tree in which the left subtree of the root is two levels higher than the
right one, its taller grandchild being the inner one (the "left-right" case). -/
def leftRightCase : TreeNode Int :=
  .node (.node (.node .absent 1 .absent) 2 (.node (.node .absent 3 .absent) 4 .absent)) 5
    (.node .absent 6 .absent)

/-- Deciding whether two results of an operation are the same. -/
def decEqResult {β : Type} [DecidableEq β] : (a b : Except Fault β) → Decidable (a = b)
  | .ok x, .ok y =>
    if h : x = y then isTrue (congrArg Except.ok h)
    else isFalse (fun e => h (Except.ok.inj e))
  | .error x, .error y =>
    if h : x = y then isTrue (congrArg Except.error h)
    else isFalse (fun e => h (Except.error.inj e))
  | .ok _, .error _ => isFalse (fun e => Except.noConfusion e)
  | .error _, .ok _ => isFalse (fun e => Except.noConfusion e)

instance {β : Type} [DecidableEq β] : DecidableEq (Except Fault β) := decEqResult

/-! ## Node links, the in-order step, the walk as a loop -/

/-- Modelled from the spec: `BinaryTree::parent(TreeNode *)`, the node the
parent back-reference of `node` leads to (spec section 3), null for the root. -/
def parent (node : Loc α) : Option (Loc α) :=
  match node.up with
  | [] => none
  | s :: up => some (s.parent node.sub up)

/-- Modelled from the spec: `BinaryTree::left_child(TreeNode *)`, null when the
left child is absent. -/
def left_child (node : Loc α) : Option (Loc α) :=
  match node.left with
  | .absent => none
  | .node a y b => some ⟨a, y, b, Step.left node.data node.right :: node.up⟩

/-- Modelled from the spec: `BinaryTree::right_child(TreeNode *)`, null when the
right child is absent. -/
def right_child (node : Loc α) : Option (Loc α) :=
  match node.right with
  | .absent => none
  | .node a y b => some ⟨a, y, b, Step.right node.left node.data :: node.up⟩

/-- The iterator of a node: the child links from the root down to it. -/
def Loc.path (node : Loc α) : iterator := path_of node.up

/-- Modelled from the spec: the second case of `structural_successor` (spec
section 4.1): the nearest ancestor for which the node lies in the left subtree;
`c` is the subtree the climb comes from, `up` the ancestors still above it. -/
def climb : TreeNode α → List (Step α) → Option (Loc α)
  | _, [] => none
  | c, .left x r :: up => some ⟨c, x, r, up⟩
  | c, .right l x :: up => climb (.node l x c) up

/-- Modelled from the spec: `structural_successor(node)` (spec section 4.1), the
forward step of the in-order iterator (spec section 4.2): the leftmost node of
the right subtree if there is one, else the nearest ancestor reached from its
left child, else the end (null). -/
def structural_successor (node : Loc α) : Option (Loc α) :=
  match node.right with
  | .absent => climb node.sub node.up
  | .node a y b => leftmost (.node a y b) (Step.right node.left node.data :: node.up)

/-- Modelled from the spec: `BinaryTree::begin()`, the in-order iterator at the
first node, the leftmost one; the end (null) on the empty tree. -/
def BinaryTree.begin (t : BinaryTree α) : Option (Loc α) := leftmost t.root []

/-- The in-order iterator after `k` forward steps (`++it`), the end staying the
end. -/
def advance : Nat → Option (Loc α) → Option (Loc α)
  | 0, it => it
  | _ + 1, none => none
  | k + 1, some n => advance k (structural_successor n)

/-- The payloads `for(it = ...; it != end(); ++it)` yields, at most `k` of
them. -/
def collect : Nat → Option (Loc α) → List α
  | 0, _ => []
  | _ + 1, none => []
  | k + 1, some n => n.data :: collect k (structural_successor n)

namespace AVLTree

/-- One pass through the body of the `while` loop of `_F_adjust` (AVLTree.h
131-151) with `visit` not null: the new value of `visit` after
`visit = parent(visit)` and the root of the tree. -/
def _F_adjust.iteration (visit : Loc α) : Except Fault (Option (Loc α) × TreeNode α) :=
  _F_adjust.visit visit.sub [] >>= fun v =>
  match visit.up with
  | [] => pure (none, v.1)
  | s :: up => pure (some (s.parent v.1 up), rebuild (s.attach v.1) up)

/-- The `while(visit != nullptr)` loop of `_F_adjust` (AVLTree.h 129-152) run
for at most `fuel` passes: `visit` and the root of the tree afterwards. -/
def _F_adjust.passes : Nat → Option (Loc α) → TreeNode α →
    Except Fault (Option (Loc α) × TreeNode α)
  | 0, visit, root => pure (visit, root)
  | _ + 1, none, root => pure (none, root)
  | fuel + 1, some visit, _ =>
    _F_adjust.iteration visit >>= fun s => _F_adjust.passes fuel s.1 s.2

/-- Follows the spec, not the source: the descent of insert (spec section 4.2,
insert step 3) that attaches the new leaf and begins the rebalance walk at the
parent of the new leaf. -/
def insert_from_parent.loop [LinearOrder α] (t : BinaryTree α) (arg : α) :
    TreeNode α → List (Step α) → Except Fault (BinaryTree α × iterator)
  | .absent, _ => .error Fault.NullDereference
  | .node l x r, up =>
    let res := Compare arg x
    if res = 0 then
      pure ({ t with root := rebuild (.node l arg r) up }, path_of up)
    else if res > 0 then
      match l with
      | .absent =>
        let a := t.append_left ⟨l, x, r, up⟩ arg
        _F_adjust a.1 (parent a.2)
      | .node _ _ _ => insert_from_parent.loop t arg l (Step.left x r :: up)
    else
      match r with
      | .absent =>
        let a := t.append_right ⟨l, x, r, up⟩ arg
        _F_adjust a.1 (parent a.2)
      | .node _ _ _ => insert_from_parent.loop t arg r (Step.right l x :: up)

/-- Follows the spec, not the source: insert as spec section 4.2 words it, the
rebalance walk starting at the parent of the new leaf. -/
def insert_from_parent [LinearOrder α] (t : BinaryTree α) (arg : α) :
    Except Fault (BinaryTree α × iterator) :=
  if empty t then
    pure ((t.append_root arg).1, [])
  else
    insert_from_parent.loop t arg t.root []

end AVLTree

/-! ## Unsigned arithmetic of `SizeType` -/

/-- The subtraction of two `SizeType` values of `w` bits: the difference modulo
`2 ^ w`.  The width is the one of `size_type`, whose declaration (Core/Version.h)
is not among the sources. -/
def usub (w a b : Nat) : Nat := (a + 2 ^ w - b) % 2 ^ w

/-- The test `left_dep > right_dep && left_dep - right_dep > 1` of `_F_adjust`
(AVLTree.h 133) on `SizeType` values of `w` bits. -/
def left_heavy (w left_dep right_dep : Nat) : Bool :=
  decide (left_dep > right_dep) && decide (usub w left_dep right_dep > 1)

/-- The test `right_dep > left_dep && right_dep - left_dep > 1` of `_F_adjust`
(AVLTree.h 142) on `SizeType` values of `w` bits. -/
def right_heavy (w left_dep right_dep : Nat) : Bool :=
  decide (right_dep > left_dep) && decide (usub w right_dep left_dep > 1)

/-! ## `Stack` (MyStack/Stack.h) -/

/-- `Stack<T>` (Stack.h 12-17, declared at global scope): the counter `number`,
an `unsigned int`, and the linked nodes from `topNode` on, given by their
payloads, the top first. -/
structure Stack (α : Type) where
  number : Nat
  topNode : List α
  deriving DecidableEq

namespace Stack

/-- The implicit constructor of `Stack` (Stack.h 16-17): `topNode` has the
initializer `nullptr`, `number` has none and keeps whatever value `garbage` its
storage holds. -/
def new (garbage : Nat) : Stack α := { number := garbage % 2 ^ 32, topNode := [] }

/-- `Stack::size` (Stack.h 19). -/
def size (s : Stack α) : Nat := s.number

/-- `Stack::empty` (Stack.h 20). -/
def empty (s : Stack α) : Bool := if s.number > 0 then false else true

/-- `Stack::pop` (Stack.h 21-28); `number--` is taken modulo `2 ^ 32`. -/
def pop (s : Stack α) : Stack α :=
  match s.topNode with
  | [] => s
  | _ :: rest => { number := (s.number + 2 ^ 32 - 1) % 2 ^ 32, topNode := rest }

/-- `Stack::push` (Stack.h 29-36); `number++` is taken modulo `2 ^ 32`. -/
def push (s : Stack α) (arg : α) : Stack α :=
  { number := (s.number + 1) % 2 ^ 32, topNode := arg :: s.topNode }

/-- `Stack::top` (Stack.h 37-42); `T()` is the default value of the type. -/
def top [Inhabited α] (s : Stack α) : α :=
  match s.topNode with
  | [] => default
  | x :: _ => x

/-- A call that changes a stack. -/
inductive Call (α : Type) where
  | push (arg : α) : Call α
  | pop : Call α

/-- A sequence of `push` and `pop` calls, from first to last. -/
def calls (s : Stack α) : List (Call α) → Stack α
  | [] => s
  | .push x :: rest => calls (s.push x) rest
  | .pop :: rest => calls s.pop rest

end Stack

/-- The payloads the in-order traversal of the whole tree yields before a
node. -/
def Loc.earlier (n : Loc α) : List α := before n.up ++ n.left.inorder

/-- The payloads the in-order traversal of the whole tree yields after a
node. -/
def Loc.later (n : Loc α) : List α := n.right.inorder ++ after n.up

/-- The node holding 43 in the tree built from the first twelve keys of the
test: the right child of the left child of the root. -/
def node43 : Loc Int :=
  ⟨.node .absent 42 .absent, 43, .node .absent 44 .absent,
    [Step.right (.node (.node .absent 38 .absent) 39 .absent) 40,
     Step.left 45 (.node (.node (.node .absent 46 .absent) 47 .absent) 48
       (.node (.node .absent 49 .absent) 50 .absent))]⟩

/-! ## Payloads that carry a key -/

/-- The same tree with `f` applied to every payload. -/
def TreeNode.map {β : Type} (f : α → β) : TreeNode α → TreeNode β
  | .absent => .absent
  | .node l x r => .node (l.map f) (f x) (r.map f)

/-- The same parent link with `f` applied to every payload. -/
def Step.map {β : Type} (f : α → β) : Step α → Step β
  | .left x r => .left (f x) (r.map f)
  | .right l x => .right (l.map f) (f x)

/-- `Compare<T>::operator()` (AVLTree.h 10-19) on a payload type `T` whose
`operator<` compares the keys of the two payloads and nothing else; `key` gives
the key of a payload.  Two payloads with the same key compare equal (0) whatever
else they hold. -/
def Compare_on {κ : Type} [LinearOrder κ] (key : α → κ) (arg1 arg2 : α) : Int :=
  if key arg1 < key arg2 then 1
  else if key arg2 < key arg1 then -1
  else 0

/-- The ordering invariant (spec section 3) under a comparator `cmp`: at every
node, every payload of the left subtree compares as before the payload of the
node (`cmp` returns a positive value) and the payload of the node compares as
before every payload of the right subtree. -/
def OrderedBy (cmp : α → α → Int) : TreeNode α → Prop
  | .absent => True
  | .node l x r =>
    OrderedBy cmp l ∧ OrderedBy cmp r ∧
      (∀ y ∈ l.inorder, cmp y x > 0) ∧ (∀ y ∈ r.inorder, cmp x y > 0)

/-- Deciding the ordering invariant under a comparator. -/
def OrderedBy.dec (cmp : α → α → Int) : (t : TreeNode α) → Decidable (OrderedBy cmp t)
  | .absent => isTrue trivial
  | .node l x r =>
    match OrderedBy.dec cmp l, OrderedBy.dec cmp r with
    | isTrue hl, isTrue hr =>
      if h : (∀ y ∈ l.inorder, cmp y x > 0) ∧ (∀ y ∈ r.inorder, cmp x y > 0) then
        isTrue ⟨hl, hr, h.1, h.2⟩
      else isFalse (fun hb => h ⟨hb.2.2.1, hb.2.2.2⟩)
    | isFalse hl, _ => isFalse (fun hb => hl hb.1)
    | _, isFalse hr => isFalse (fun hb => hr hb.2.1)

instance (cmp : α → α → Int) (t : TreeNode α) : Decidable (OrderedBy cmp t) :=
  OrderedBy.dec cmp t

/-- The tree of the test driver with a second component, 0, stored next to each
of the twenty-four keys: payloads of which the first component is the key. -/
def keyed24 : BinaryTree (Int × Int) :=
  { root := (built keys24).root.map (fun k => (k, 0)), count := (built keys24).count }

/-- The same tree object with `f` applied to every payload. -/
def BinaryTree.map {β : Type} (f : α → β) (t : BinaryTree α) : BinaryTree β :=
  { root := t.root.map f, count := t.count }

/-! ## Nodes with stored links

The zipper keeps no parent field: the parent of a node is read off the chain
`up`.  To follow the parent back-references through the operations, the
functions are given a second time on nodes that store their links.  The child
links of a node are its two owned subtrees, as before; the parent
back-reference is a stored field, which every primitive that moves a node has
to write.  `Core/AVLTree.h` is embedded over these primitives as it is over the
ones above. -/

/-- Modelled from the spec: what a node of `BinaryTree.h` holds besides its two
owned child slots (spec section 3, "Node"): the payload and the parent
back-reference, a plain reference to the parent node that owns nothing, null at
the root.  A node is referred to by its address `addr`, which it keeps from its
creation to its destruction. -/
structure Cell (α : Type) where
  data : α
  addr : Nat
  parent : Option Nat
  deriving DecidableEq

/-- Modelled from the spec: the tree object of `BinaryTree.h` over nodes with
stored links: the root, the stored count of live nodes, and the address the
next node created will get. -/
structure LinkedTree (α : Type) where
  root : TreeNode (Cell α)
  count : Nat
  fresh : Nat
  deriving DecidableEq

/-- The tree object without the stored links: payloads and shape. -/
def LinkedTree.plain (t : LinkedTree α) : BinaryTree α :=
  { root := t.root.map Cell.data, count := t.count }

/-- The same pointer with `f` applied to every payload. -/
def Loc.map {β : Type} (f : α → β) (n : Loc α) : Loc β :=
  ⟨n.left.map f, f n.data, n.right.map f, n.up.map (Step.map f)⟩

/-- The node a parent link leads to. -/
def Step.cell : Step α → α
  | .left x _ => x
  | .right _ x => x

/-- The other child of the node a parent link leads to. -/
def Step.sibling : Step α → TreeNode α
  | .left _ r => r
  | .right l _ => l

namespace Linked

/-- Modelled from the spec: the write `node->parent = p` of a parent
back-reference (spec section 4.1, `attach_left`, `attach_right`: "set the link
and the child's parent back-reference"); nothing to write when the child is
absent. -/
def reparent (p : Option Nat) : TreeNode (Cell α) → TreeNode (Cell α)
  | .absent => .absent
  | .node l c r => .node l { c with parent := p } r

/-- Modelled from the spec: `BinaryTree::left_rotate` (spec section 4.1
`rotate_left(x)`) with the links written: requires `x.right` present; with
`y = x.right`, the former left subtree `b` of `y` becomes the right subtree of
`x` (its parent back-reference is set to `x`), `x` becomes the left child of `y`
(its parent back-reference is set to `y`), and `y` takes the position of `x`,
reparented to the former parent of `x`.  The child link of that parent is the
slot the result is put into. -/
def left_rotate : TreeNode (Cell α) → Except Fault (TreeNode (Cell α))
  | .node a x (.node b y c) =>
    .ok (.node (.node a { x with parent := some y.addr } (reparent (some x.addr) b))
      { y with parent := x.parent } c)
  | _ => .error Fault.InvalidRotation

/-- Modelled from the spec: `BinaryTree::right_rotate` (spec section 4.1
`rotate_right(x)`) with the links written, the mirror image of `left_rotate`. -/
def right_rotate : TreeNode (Cell α) → Except Fault (TreeNode (Cell α))
  | .node (.node a y b) x c =>
    .ok (.node a { y with parent := x.parent }
      (.node (reparent (some x.addr) b) { x with parent := some y.addr } c))
  | _ => .error Fault.InvalidRotation

/-- Modelled from the spec: `BinaryTree::append_root`: the new node, which has
no parent, becomes the root. -/
def append_root (t : LinkedTree α) (arg : α) : LinkedTree α × Loc (Cell α) :=
  ({ root := .node .absent ⟨arg, t.fresh, none⟩ .absent, count := t.count + 1,
     fresh := t.fresh + 1 },
   ⟨.absent, ⟨arg, t.fresh, none⟩, .absent, []⟩)

/-- Modelled from the spec: `BinaryTree::append_left` (spec section 4.1
`attach_left`): a new leaf becomes the left child of `node` and its parent
back-reference is set to `node`. -/
def append_left (t : LinkedTree α) (node : Loc (Cell α)) (arg : α) :
    LinkedTree α × Loc (Cell α) :=
  let leaf : Loc (Cell α) :=
    ⟨.absent, ⟨arg, t.fresh, some node.data.addr⟩, .absent,
      Step.left node.data node.right :: node.up⟩
  ({ root := leaf.rebuild, count := t.count + 1, fresh := t.fresh + 1 }, leaf)

/-- Modelled from the spec: `BinaryTree::append_right` (spec section 4.1
`attach_right`), the mirror image of `append_left`. -/
def append_right (t : LinkedTree α) (node : Loc (Cell α)) (arg : α) :
    LinkedTree α × Loc (Cell α) :=
  let leaf : Loc (Cell α) :=
    ⟨.absent, ⟨arg, t.fresh, some node.data.addr⟩, .absent,
      Step.right node.left node.data :: node.up⟩
  ({ root := leaf.rebuild, count := t.count + 1, fresh := t.fresh + 1 }, leaf)

/-- Modelled from the spec: the zero-child and one-child cases of erase (spec
section 4.2: "splice its child (or nothing) into its parent's link"): the
subtree `c` is put into the position of the removed node, whose ancestors are
`up`, and its parent back-reference is set to `p`, the one the removed node
held. -/
def splice (t : LinkedTree α) (c : TreeNode (Cell α)) (p : Option Nat) :
    List (Step (Cell α)) → LinkedTree α × Option (Loc (Cell α))
  | [] => ({ t with root := reparent p c, count := t.count - 1 }, none)
  | s :: up =>
    let q := s.parent (reparent p c) up
    ({ t with root := q.rebuild, count := t.count - 1 }, some q)

/-- Modelled from the spec: `BinaryTree::erase(TreeNode *)` (spec section 4.2,
erase) with the links written.  With two children the node keeps its address
and its links and takes the payload of the structural successor, which is
spliced out. -/
def erase (t : LinkedTree α) (node : Loc (Cell α)) :
    LinkedTree α × Option (Loc (Cell α)) :=
  match node.left, node.right with
  | .absent, r => splice t r node.data.parent node.up
  | .node a y b, .absent => splice t (.node a y b) node.data.parent node.up
  | .node a y b, .node c z d =>
    match leftmost (.node c z d) [] with
    | none => (t, none)
    | some s =>
      splice t s.right s.data.parent
        (s.up ++ Step.right (.node a y b) { node.data with data := s.data.data } :: node.up)

/-- `AVLTree::empty` (AVLTree.h 86-87) on the tree with stored links. -/
def empty (t : LinkedTree α) : Bool := t.count == 0

/-- The body of the loop of `_F_adjust` (AVLTree.h 131-150) over the rotations
that write the links. -/
def _F_adjust.visit : TreeNode (Cell α) → Path → Except Fault (TreeNode (Cell α) × Path)
  | .absent, _ => .error Fault.NullDereference
  | .node l x r, p =>
    let left_dep := rapid.depth l
    let right_dep := rapid.depth r
    if left_dep > right_dep ∧ left_dep - right_dep > 1 then
      match l with
      | .absent => .error Fault.NullDereference
      | .node tl ty tr =>
        if rapid.depth tl < rapid.depth tr then
          Linked.left_rotate (.node tl ty tr) >>= fun temp =>
          Linked.right_rotate (.node temp x r) >>= fun v =>
          pure (v, rapid.right_rotate.moved (moved_below Dir.L rapid.left_rotate.moved p))
        else
          Linked.right_rotate (.node (.node tl ty tr) x r) >>= fun v =>
          pure (v, rapid.right_rotate.moved p)
    else if right_dep > left_dep ∧ right_dep - left_dep > 1 then
      match r with
      | .absent => .error Fault.NullDereference
      | .node tl ty tr =>
        if rapid.depth tr < rapid.depth tl then
          Linked.right_rotate (.node tl ty tr) >>= fun temp =>
          Linked.left_rotate (.node l x temp) >>= fun v =>
          pure (v, rapid.left_rotate.moved (moved_below Dir.R rapid.right_rotate.moved p))
        else
          Linked.left_rotate (.node l x (.node tl ty tr)) >>= fun v =>
          pure (v, rapid.left_rotate.moved p)
    else
      pure (.node l x r, p)

/-- The loop of `_F_adjust` (AVLTree.h 129-152) over nodes with stored links.
`visit = parent(visit)` puts the subtree into the child slot of the nearest
ancestor. -/
def _F_adjust.loop :
    TreeNode (Cell α) → Path → List (Step (Cell α)) → Except Fault (TreeNode (Cell α) × Path)
  | visit, p, [] => _F_adjust.visit visit p
  | visit, p, s :: up =>
    _F_adjust.visit visit p >>= fun v =>
    _F_adjust.loop (s.attach v.1) (s.dir :: v.2) up

/-- `AVLTree::_F_adjust` (AVLTree.h 125-153) over nodes with stored links. -/
def _F_adjust (t : LinkedTree α) (node : Option (Loc (Cell α))) :
    Except Fault (LinkedTree α × iterator) :=
  match node with
  | none => pure (t, [])
  | some n =>
    _F_adjust.loop n.sub [] n.up >>= fun v =>
    pure ({ t with root := v.1 }, v.2)

/-- The loop of `_F_find` (AVLTree.h 161-176) over nodes with stored links. -/
def _F_find.loop [LinearOrder α] (arg : α) : TreeNode (Cell α) → Except Fault iterator
  | .absent => .error Fault.NullDereference
  | .node l x r =>
    let res := Compare arg x.data
    if res = 0 then pure []
    else if res > 0 then _F_find.loop arg l >>= fun it => pure (Dir.L :: it)
    else _F_find.loop arg r >>= fun it => pure (Dir.R :: it)

/-- `AVLTree::find` (AVLTree.h 91-94, 155-178) over nodes with stored links. -/
def find [LinearOrder α] (t : LinkedTree α) (arg : α) : Except Fault iterator :=
  _F_find.loop arg t.root

/-- The loop of `_F_insert` and what follows it (AVLTree.h 190-218) over nodes
with stored links; `node->data() = arg` writes the payload and no link. -/
def _F_insert.loop [LinearOrder α] (t : LinkedTree α) (arg : α) :
    TreeNode (Cell α) → List (Step (Cell α)) → Except Fault (LinkedTree α × iterator)
  | .absent, _ => .error Fault.NullDereference
  | .node l x r, up =>
    let res := Compare arg x.data
    if res = 0 then
      pure ({ t with root := rebuild (.node l { x with data := arg } r) up }, path_of up)
    else if res > 0 then
      match l with
      | .absent =>
        let a := append_left t ⟨l, x, r, up⟩ arg
        _F_adjust a.1 (some a.2)
      | .node _ _ _ => _F_insert.loop t arg l (Step.left x r :: up)
    else
      match r with
      | .absent =>
        let a := append_right t ⟨l, x, r, up⟩ arg
        _F_adjust a.1 (some a.2)
      | .node _ _ _ => _F_insert.loop t arg r (Step.right l x :: up)

/-- `AVLTree::insert(ConstReference)` (AVLTree.h 108-111, 180-219) over nodes
with stored links. -/
def insert [LinearOrder α] (t : LinkedTree α) (arg : α) :
    Except Fault (LinkedTree α × iterator) :=
  if empty t then
    pure ((append_root t arg).1, [])
  else
    _F_insert.loop t arg t.root []

/-- `AVLTree::_F_erase` (AVLTree.h 46-47) over nodes with stored links. -/
def _F_erase (t : LinkedTree α) (node : Loc (Cell α)) : Except Fault (LinkedTree α) :=
  let e := erase t node
  _F_adjust e.1 e.2 >>= fun r => pure r.1

/-- `AVLTree::erase(iterator)` (AVLTree.h 116-117) over nodes with stored
links. -/
def erase_at (t : LinkedTree α) (it : iterator) : Except Fault (LinkedTree α) :=
  match tree_node t.root it [] with
  | none => .error Fault.NullDereference
  | some n => _F_erase t n

/-- `AVLTree::erase(ConstReference)` (AVLTree.h 112-115) over nodes with stored
links. -/
def erase_key [LinearOrder α] (t : LinkedTree α) (arg : α) : Except Fault (LinkedTree α) :=
  find t arg >>= fun it => erase_at t it

/-- Modelled from the spec: the empty tree (AVLTree.h 49): no root, no live
node, no address handed out. -/
def new : LinkedTree α := { root := .absent, count := 0, fresh := 0 }

/-- One call of the public interface. -/
def apply [LinearOrder α] (t : LinkedTree α) : Op α → Except Fault (LinkedTree α)
  | .insert arg => insert t arg >>= fun r => pure r.1
  | .erase arg => erase_key t arg
  | .erase_at it => erase_at t it

/-- A sequence of calls, each on the tree the one before left. -/
def run [LinearOrder α] (t : LinkedTree α) : List (Op α) → Except Fault (LinkedTree α)
  | [] => pure t
  | op :: rest => apply t op >>= fun t2 => run t2 rest

/-- The stored parent back-references agree with the child links in the subtree
below a position whose parent node has the address `p` (none: the position of
the root): the node at the position stores `p`, and each child of a node stores
the address of that node. -/
def Below (p : Option Nat) : TreeNode (Cell α) → Prop
  | .absent => True
  | .node l c r => c.parent = p ∧ Below (some c.addr) l ∧ Below (some c.addr) r

/-- Deciding `Below`. -/
def Below.dec : (p : Option Nat) → (t : TreeNode (Cell α)) → Decidable (Below p t)
  | _, .absent => isTrue trivial
  | p, .node l c r =>
    match Below.dec (some c.addr) l, Below.dec (some c.addr) r with
    | isTrue hl, isTrue hr =>
      if h : c.parent = p then isTrue ⟨h, hl, hr⟩
      else isFalse (fun hb => h hb.1)
    | isFalse hl, _ => isFalse (fun hb => hl hb.2.1)
    | _, isFalse hr => isFalse (fun hb => hr hb.2.2)

instance (p : Option Nat) (t : TreeNode (Cell α)) : Decidable (Below p t) := Below.dec p t

/-- The address of the node a position hangs under: the nearest ancestor, or
`p` when the chain of ancestors is empty. -/
def top (p : Option Nat) : List (Step (Cell α)) → Option Nat
  | [] => p
  | s :: _ => some s.cell.addr

/-- The stored parent back-references agree with the child links along a chain
of ancestors and in the subtrees that hang off it. -/
def Above (p : Option Nat) : List (Step (Cell α)) → Prop
  | [] => True
  | s :: up => s.cell.parent = top p up ∧ Below (some s.cell.addr) s.sibling ∧ Above p up

/-- The addresses of the nodes of a subtree, in in-order. -/
def addrs (t : TreeNode (Cell α)) : List Nat := t.inorder.map Cell.addr

end Linked

/-- The calls of the test driver that change the tree (Test/TestAVLTree.cpp
8-10, 37, 57): the twenty-four inserts, then `erase(100)` and `erase(48)`. -/
def test_calls : List (Op Int) :=
  keys24.map Op.insert ++ [Op.erase 100, Op.erase 48]

/-- No two nodes of the tree have the same address, and every address in use
was handed out before. -/
def Linked.Distinct (t : LinkedTree α) : Prop :=
  (Linked.addrs t.root).Nodup ∧ ∀ a ∈ Linked.addrs t.root, a < t.fresh

/-- Three nodes in a row, each the right child of the one before, with their
parent back-references right. -/
def threeCells : TreeNode (Cell Int) :=
  .node .absent ⟨1, 0, none⟩ (.node .absent ⟨2, 1, some 0⟩ (.node .absent ⟨3, 2, some 1⟩ .absent))

/-! # Theorems -/

/-! ## Traversal and size of a tree seen from one of its nodes -/

theorem inorder_rebuild (up : List (Step α)) (sub : TreeNode α) :
    (rebuild sub up).inorder = before up ++ (sub.inorder ++ after up) := by
  induction up generalizing sub with
  | nil => simp [rebuild, before, after]
  | cons s up ih =>
    cases s <;> simp [rebuild, before, after, Step.attach, ih, TreeNode.inorder]

theorem nodes_rebuild (up : List (Step α)) (sub : TreeNode α) :
    (rebuild sub up).nodes = sub.nodes + outside up := by
  induction up generalizing sub with
  | nil => simp [rebuild, outside]
  | cons s up ih =>
    cases s <;> simp [rebuild, outside, Step.attach, ih, TreeNode.nodes] <;> omega

theorem length_inorder (t : TreeNode α) : t.inorder.length = t.nodes := by
  induction t with
  | absent => rfl
  | node l x r ihl ihr => simp [TreeNode.inorder, TreeNode.nodes, ihl, ihr]; omega

theorem balanced_rebuild (up : List (Step α)) (sub : TreeNode α) :
    Balanced (rebuild sub up) ↔ Balanced sub ∧ FitsHeight (depth sub) up := by
  induction up generalizing sub with
  | nil => simp [rebuild, FitsHeight]
  | cons s up ih =>
    cases s <;> simp only [rebuild, FitsHeight, Step.attach, ih, Balanced, depth] <;> tauto

theorem before_append (a b : List (Step α)) : before (a ++ b) = before b ++ before a := by
  induction a with
  | nil => simp [before]
  | cons s a ih => cases s <;> simp [before, ih]

theorem after_append (a b : List (Step α)) : after (a ++ b) = after a ++ after b := by
  induction a with
  | nil => simp [after]
  | cons s a ih => cases s <;> simp [after, ih]

theorem outside_append (a b : List (Step α)) : outside (a ++ b) = outside a + outside b := by
  induction a with
  | nil => simp [outside]
  | cons s a ih => cases s <;> simp [outside, ih] <;> omega

theorem rebuild_append (a b : List (Step α)) (sub : TreeNode α) :
    rebuild sub (a ++ b) = rebuild (rebuild sub a) b := by
  induction a generalizing sub with
  | nil => rfl
  | cons s a ih => simp [rebuild, ih]

theorem depth_pos_iff (t : TreeNode α) : 0 < depth t ↔ t ≠ .absent := by
  cases t <;> simp [depth]

/-! ## Rotations and the body of the rebalance walk -/

/-- What one iteration of the walk returns for a node: a subtree with the same
in-order sequence and the same nodes, one level lower at most, never higher. -/
theorem visit_total (l : TreeNode α) (x : α) (r : TreeNode α) (p : Path) :
    ∃ v q, AVLTree._F_adjust.visit (.node l x r) p = .ok (v, q) ∧
      v.inorder = (TreeNode.node l x r).inorder ∧ v.nodes = (TreeNode.node l x r).nodes ∧
      v ≠ .absent := by
  unfold AVLTree._F_adjust.visit
  simp only []
  split_ifs with h1 h2
  · -- left-heavy
    cases l with
    | absent => simp [depth] at h1
    | node tl ty tr =>
      simp only []
      split_ifs with h4
      · cases tr with
        | absent => simp [depth] at h4
        | node a z b =>
          refine ⟨_, _, rfl, ?_, ?_, by simp⟩
          · simp [TreeNode.inorder]
          · simp [TreeNode.nodes]; omega
      · refine ⟨_, _, rfl, ?_, ?_, by simp⟩
        · simp [TreeNode.inorder]
        · simp [TreeNode.nodes]; omega
  · cases r with
    | absent => simp [depth] at h2
    | node tl ty tr =>
      simp only []
      split_ifs with h4
      · cases tl with
        | absent => simp [depth] at h4
        | node a z b =>
          refine ⟨_, _, rfl, ?_, ?_, by simp⟩
          · simp [TreeNode.inorder]
          · simp [TreeNode.nodes]; omega
      · refine ⟨_, _, rfl, ?_, ?_, by simp⟩
        · simp [TreeNode.inorder]
        · simp [TreeNode.nodes]; omega
  · exact ⟨_, _, rfl, rfl, rfl, by simp⟩


/-- One iteration of the walk at a node whose subtrees are balanced and differ in
height by at most two returns a balanced subtree, of the same height when the
node was balanced already and at most one lower otherwise. -/
theorem visit_balanced (l : TreeNode α) (x : α) (r : TreeNode α) (p : Path)
    (hl : Balanced l) (hr : Balanced r)
    (h1 : depth l ≤ depth r + 2) (h2 : depth r ≤ depth l + 2) :
    ∃ v q, AVLTree._F_adjust.visit (.node l x r) p = .ok (v, q) ∧ Balanced v ∧
      depth v ≤ 1 + max (depth l) (depth r) ∧ 1 + max (depth l) (depth r) ≤ depth v + 1 ∧
      (depth l ≤ depth r + 1 → depth r ≤ depth l + 1 → v = .node l x r) := by
  unfold AVLTree._F_adjust.visit
  simp only []
  split_ifs with c1 c2
  · cases l with
    | absent => simp [depth] at c1
    | node tl ty tr =>
      simp only []
      split_ifs with c3
      · cases tr with
        | absent => simp [depth] at c3
        | node a z b =>
          refine ⟨_, _, rfl, ?_, ?_, ?_, ?_⟩ <;> simp only [Balanced, depth] at * <;>
            casesm* _ ∧ _ <;> (try constructorm* _ ∧ _) <;> first | assumption | omega
      · refine ⟨_, _, rfl, ?_, ?_, ?_, ?_⟩ <;> simp only [Balanced, depth] at * <;>
          casesm* _ ∧ _ <;> (try constructorm* _ ∧ _) <;> first | assumption | omega
  · cases r with
    | absent => simp [depth] at c2
    | node tl ty tr =>
      simp only []
      split_ifs with c3
      · cases tl with
        | absent => simp [depth] at c3
        | node a z b =>
          refine ⟨_, _, rfl, ?_, ?_, ?_, ?_⟩ <;> simp only [Balanced, depth] at * <;>
            casesm* _ ∧ _ <;> (try constructorm* _ ∧ _) <;> first | assumption | omega
      · refine ⟨_, _, rfl, ?_, ?_, ?_, ?_⟩ <;> simp only [Balanced, depth] at * <;>
          casesm* _ ∧ _ <;> (try constructorm* _ ∧ _) <;> first | assumption | omega
  · refine ⟨_, _, rfl, ⟨hl, hr, ?_, ?_⟩, ?_, ?_, fun _ _ => rfl⟩ <;>
      (try simp only [depth]) <;> omega

/-- The rebalance walk from a node up to the root, in a tree that was balanced
before a subtree on the path changed its height by one at most, ends with a
balanced tree.  `H` is the height the visited position had in the balanced
tree. -/
theorem loop_balanced (up : List (Step α)) :
    ∀ (l : TreeNode α) (x : α) (r : TreeNode α) (p : Path) (H : Nat),
      Balanced l → Balanced r → depth l ≤ depth r + 2 → depth r ≤ depth l + 2 →
      H ≤ 1 + max (depth l) (depth r) + 1 → 1 + max (depth l) (depth r) ≤ H + 1 →
      (depth r + 1 < depth l ∨ depth l + 1 < depth r → H ≤ 1 + max (depth l) (depth r)) →
      FitsHeight H up →
      ∃ root q, AVLTree._F_adjust.loop (.node l x r) p up = .ok (root, q) ∧ Balanced root := by
  induction up with
  | nil =>
    intro l x r p H hl hr h1 h2 _ _ _ _
    obtain ⟨v, q, hv, hb, _⟩ := visit_balanced l x r p hl hr h1 h2
    exact ⟨v, q, by simpa [AVLTree._F_adjust.loop] using hv, hb⟩
  | cons s up ih =>
    intro l x r p H hl hr h1 h2 h3 h4 h5 hfit
    obtain ⟨v, q, hv, hb, d1, d2, d3⟩ := visit_balanced l x r p hl hr h1 h2
    have hd : depth v ≤ H + 1 ∧ H ≤ depth v + 1 := by
      by_cases hc : depth l ≤ depth r + 1 ∧ depth r ≤ depth l + 1
      · have := d3 hc.1 hc.2
        subst this
        simp only [depth]
        omega
      · have : H ≤ 1 + max (depth l) (depth r) := h5 (by omega)
        omega
    cases s with
    | left sx sr =>
      obtain ⟨f1, f2, f3, f4⟩ := hfit
      obtain ⟨root, q2, hr2, hb2⟩ :=
        ih v sx sr (Dir.L :: q) (1 + max H (depth sr)) hb f1 (by omega) (by omega)
          (by omega) (by omega) (by omega) f4
      refine ⟨root, q2, ?_, hb2⟩
      simp only [AVLTree._F_adjust.loop, hv]
      exact hr2
    | right sl sx =>
      obtain ⟨f1, f2, f3, f4⟩ := hfit
      obtain ⟨root, q2, hr2, hb2⟩ :=
        ih sl sx v (Dir.R :: q) (1 + max (depth sl) H) f1 hb (by omega) (by omega)
          (by omega) (by omega) (by omega) f4
      refine ⟨root, q2, ?_, hb2⟩
      simp only [AVLTree._F_adjust.loop, hv]
      exact hr2

/-- The rebalance walk keeps the in-order sequence and the number of nodes, and
never fails when it starts at a node. -/
theorem loop_total (up : List (Step α)) :
    ∀ (l : TreeNode α) (x : α) (r : TreeNode α) (p : Path),
      ∃ root q, AVLTree._F_adjust.loop (.node l x r) p up = .ok (root, q) ∧
        root.inorder = (rebuild (.node l x r) up).inorder ∧
        root.nodes = (rebuild (.node l x r) up).nodes := by
  induction up with
  | nil =>
    intro l x r p
    obtain ⟨v, q, hv, h1, h2, _⟩ := visit_total l x r p
    exact ⟨v, q, by simpa [AVLTree._F_adjust.loop] using hv, by simpa [rebuild] using h1,
      by simpa [rebuild] using h2⟩
  | cons s up ih =>
    intro l x r p
    obtain ⟨v, q, hv, h1, h2, _⟩ := visit_total l x r p
    cases s with
    | left sx sr =>
      obtain ⟨root, q2, e, i1, i2⟩ := ih v sx sr (Dir.L :: q)
      refine ⟨root, q2, ?_, ?_, ?_⟩
      · simp only [AVLTree._F_adjust.loop, hv]; exact e
      · rw [i1]; simp only [rebuild, Step.attach, inorder_rebuild, TreeNode.inorder, h1]
      · rw [i2]; simp only [rebuild, Step.attach, nodes_rebuild, TreeNode.nodes, h2]
    | right sl sx =>
      obtain ⟨root, q2, e, i1, i2⟩ := ih sl sx v (Dir.R :: q)
      refine ⟨root, q2, ?_, ?_, ?_⟩
      · simp only [AVLTree._F_adjust.loop, hv]; exact e
      · rw [i1]; simp only [rebuild, Step.attach, inorder_rebuild, TreeNode.inorder, h1]
      · rw [i2]; simp only [rebuild, Step.attach, nodes_rebuild, TreeNode.nodes, h2]

theorem Compare_eq_zero [LinearOrder α] (a b : α) : Compare a b = 0 ↔ a = b := by
  unfold Compare
  split_ifs with h1 h2
  · simp; exact ne_of_lt h1
  · simp; exact ne_of_gt h2
  · simp; exact le_antisymm (not_lt.1 h2) (not_lt.1 h1)

theorem Compare_pos [LinearOrder α] (a b : α) : Compare a b > 0 ↔ a < b := by
  unfold Compare
  split_ifs with h1 h2
  · simp [h1]
  · simp [h1]
  · simp [h1]

theorem put_lt [LinearOrder α] (k x : α) (L R : List α) (h : k < x) (hR : ∀ y ∈ R, x < y) :
    put k (L ++ x :: R) = put k L ++ x :: R := by
  have e1 : R.filter (fun y => y < k) = [] := by
    simp only [List.filter_eq_nil_iff, decide_eq_true_eq, not_lt]
    intro y hy; exact le_of_lt (lt_trans h (hR y hy))
  have e2 : R.filter (fun y => k < y) = R := by
    simp only [List.filter_eq_self, decide_eq_true_eq]
    intro y hy; exact lt_trans h (hR y hy)
  simp [put, List.filter_append, List.filter_cons, h, not_lt_of_gt h, e1, e2]

theorem put_gt [LinearOrder α] (k x : α) (L R : List α) (h : x < k) (hL : ∀ y ∈ L, y < x) :
    put k (L ++ x :: R) = L ++ x :: put k R := by
  have e1 : L.filter (fun y => y < k) = L := by
    simp only [List.filter_eq_self, decide_eq_true_eq]
    intro y hy; exact lt_trans (hL y hy) h
  have e2 : L.filter (fun y => k < y) = [] := by
    simp only [List.filter_eq_nil_iff, decide_eq_true_eq, not_lt]
    intro y hy; exact le_of_lt (lt_trans (hL y hy) h)
  simp [put, List.filter_append, List.filter_cons, h, not_lt_of_gt h, e1, e2]

theorem put_eq [LinearOrder α] (k : α) (L R : List α) (hL : ∀ y ∈ L, y < k)
    (hR : ∀ y ∈ R, k < y) : put k (L ++ k :: R) = L ++ k :: R := by
  have e1 : L.filter (fun y => y < k) = L := by
    simp only [List.filter_eq_self, decide_eq_true_eq]
    intro y hy; exact hL y hy
  have e2 : L.filter (fun y => k < y) = [] := by
    simp only [List.filter_eq_nil_iff, decide_eq_true_eq, not_lt]
    intro y hy; exact le_of_lt (hL y hy)
  have e3 : R.filter (fun y => y < k) = [] := by
    simp only [List.filter_eq_nil_iff, decide_eq_true_eq, not_lt]
    intro y hy; exact le_of_lt (hR y hy)
  have e4 : R.filter (fun y => k < y) = R := by
    simp only [List.filter_eq_self, decide_eq_true_eq]
    intro y hy; exact hR y hy
  simp [put, List.filter_append, List.filter_cons, e1, e2, e3, e4]

theorem adjust_some (t : BinaryTree α) (n : Loc α) :
    ∃ root q, AVLTree._F_adjust t (some n) = .ok ({ t with root := root }, q) ∧
      AVLTree._F_adjust.loop n.sub [] n.up = .ok (root, q) := by
  obtain ⟨root, q, h, _⟩ := loop_total n.up n.left n.data n.right []
  refine ⟨root, q, ?_, h⟩
  simp only [AVLTree._F_adjust]
  rw [show n.sub = .node n.left n.data n.right from rfl, h]
  rfl


theorem mem_left_part [LinearOrder α] (k x : α) (L R : List α) (h : k < x)
    (hR : ∀ y ∈ R, x < y) : k ∈ L ++ x :: R ↔ k ∈ L := by
  simp only [List.mem_append, List.mem_cons]
  constructor
  · rintro (h1 | h1 | h1)
    · exact h1
    · exact absurd h1 (ne_of_lt h)
    · exact absurd (lt_trans h (hR k h1)) (lt_irrefl _)
  · exact fun h1 => Or.inl h1

theorem mem_right_part [LinearOrder α] (k x : α) (L R : List α) (h : x < k)
    (hL : ∀ y ∈ L, y < x) : k ∈ L ++ x :: R ↔ k ∈ R := by
  simp only [List.mem_append, List.mem_cons]
  constructor
  · rintro (h1 | h1 | h1)
    · exact absurd (lt_trans h (hL k h1)) (lt_irrefl _)
    · exact absurd h1 (ne_of_gt h)
    · exact h1
  · exact fun h1 => Or.inr (Or.inr h1)

/-- One unfolding of `_F_insert`. -/
theorem insert_unfold [LinearOrder α] (t : BinaryTree α) (k : α) :
    AVLTree._F_insert t k =
      if AVLTree.empty t then pure ((t.append_root k).1, [])
      else AVLTree._F_insert.loop t k t.root [] := rfl

theorem insert_loop_node [LinearOrder α] (t : BinaryTree α) (k : α) (l : TreeNode α) (x : α)
    (r : TreeNode α) (up : List (Step α)) :
    AVLTree._F_insert.loop t k (.node l x r) up =
      if Compare k x = 0 then
        pure ({ t with root := rebuild (.node l k r) up }, path_of up)
      else if Compare k x > 0 then
        match l with
        | .absent => AVLTree._F_adjust (t.append_left ⟨l, x, r, up⟩ k).1
            (some (t.append_left ⟨l, x, r, up⟩ k).2)
        | .node _ _ _ => AVLTree._F_insert.loop t k l (Step.left x r :: up)
      else
        match r with
        | .absent => AVLTree._F_adjust (t.append_right ⟨l, x, r, up⟩ k).1
            (some (t.append_right ⟨l, x, r, up⟩ k).2)
        | .node _ _ _ => AVLTree._F_insert.loop t k r (Step.right l x :: up) := by
  cases l <;> cases r <;> rfl

/-- Attaching a leaf below a node and walking up from the leaf: the walk
returns, the tree is balanced when the tree without the leaf was, and the
in-order sequence and node count are those of the tree with the leaf. -/
theorem adjust_leaf (t : BinaryTree α) (k : α) (up : List (Step α)) :
    ∃ root q, AVLTree._F_adjust t (some ⟨.absent, k, .absent, up⟩) =
        .ok ({ t with root := root }, q) ∧
      (Balanced (rebuild .absent up) → Balanced root) ∧
      root.inorder = before up ++ (k :: after up) ∧
      root.nodes = 1 + outside up := by
  obtain ⟨root, q, e1, e2⟩ := adjust_some t ⟨.absent, k, .absent, up⟩
  obtain ⟨root2, q2, e3, i1, i2⟩ := loop_total up .absent k .absent []
  have e4 : AVLTree._F_adjust.loop (.node .absent k .absent) [] up = .ok (root, q) := e2
  rw [e3] at e4
  simp only [Except.ok.injEq, Prod.mk.injEq] at e4
  obtain ⟨rfl, rfl⟩ := e4
  refine ⟨root2, q2, e1, ?_, ?_, ?_⟩
  · intro hb
    have hf : FitsHeight 0 up := ((balanced_rebuild up .absent).1 hb).2
    obtain ⟨root3, q3, e5, hb2⟩ :=
      loop_balanced up .absent k .absent [] 0 trivial trivial
        (by simp [depth]) (by simp [depth]) (by simp [depth]) (by simp [depth])
        (by simp [depth]) hf
    rw [e3] at e5
    simp only [Except.ok.injEq, Prod.mk.injEq] at e5
    obtain ⟨rfl, rfl⟩ := e5
    exact hb2
  · rw [i1, inorder_rebuild]; simp [TreeNode.inorder]
  · rw [i2, nodes_rebuild]; simp [TreeNode.nodes]

/-- The descent of `_F_insert` from a node: it returns, the tree it leaves is
balanced when the tree was, and when the subtree below the node is ordered the
in-order sequence of that subtree gets the key at its place and the count grows
exactly when the key was not there. -/
theorem insert_loop_spec [LinearOrder α] (t : BinaryTree α) (k : α) (sub : TreeNode α) :
    ∀ up : List (Step α), sub ≠ .absent →
      ∃ res, AVLTree._F_insert.loop t k sub up = .ok res ∧
        (Balanced (rebuild sub up) → Balanced res.1.root) ∧
        (Ordered sub →
          res.1.root.inorder = before up ++ (put k sub.inorder ++ after up)) ∧
        (Ordered sub →
          res.1.count = if k ∈ sub.inorder then t.count else t.count + 1) := by
  induction sub with
  | absent => intro up h; exact absurd rfl h
  | node l x r ihl ihr =>
    intro up _
    rw [insert_loop_node]
    by_cases c0 : Compare k x = 0
    · have hk : k = x := (Compare_eq_zero k x).1 c0
      subst hk
      rw [if_pos c0]
      refine ⟨_, rfl, fun h => h, ?_, ?_⟩
      · intro ho
        obtain ⟨_, _, o3, o4⟩ := ho
        simp only [inorder_rebuild, TreeNode.inorder]
        rw [put_eq k _ _ o3 o4]
      · intro _
        simp [TreeNode.inorder]
    · rw [if_neg c0]
      have hne : k ≠ x := fun e => c0 ((Compare_eq_zero k x).2 e)
      by_cases c1 : Compare k x > 0
      · have hlt : k < x := (Compare_pos k x).1 c1
        rw [if_pos c1]
        cases l with
        | absent =>
          obtain ⟨root, q, e1, hb, hi, _⟩ :=
            adjust_leaf { root := rebuild (.node .absent k .absent) (Step.left x r :: up),
                          count := t.count + 1 } k (Step.left x r :: up)
          refine ⟨_, e1, hb, ?_, ?_⟩
          · intro ho
            obtain ⟨_, _, _, o4⟩ := ho
            have := put_lt k x [] r.inorder hlt o4
            simp only [List.nil_append] at this
            simp only [hi, TreeNode.inorder, before, after, List.nil_append, this]
            simp [put]
          · intro ho
            obtain ⟨_, _, _, o4⟩ := ho
            have : k ∉ (TreeNode.node .absent x r).inorder := by
              simp only [TreeNode.inorder, List.nil_append, List.mem_cons, not_or]
              exact ⟨hne, fun hm => absurd (lt_trans hlt (o4 k hm)) (lt_irrefl _)⟩
            rw [if_neg this]
        | node a y b =>
          obtain ⟨res, e, hb, hi, hc⟩ := ihl (Step.left x r :: up) (by simp)
          refine ⟨res, e, hb, ?_, ?_⟩
          · intro ho
            obtain ⟨o1, _, _, o4⟩ := ho
            rw [hi o1]
            rw [show (TreeNode.node (.node a y b) x r).inorder =
              (TreeNode.node a y b).inorder ++ x :: r.inorder from rfl]
            rw [put_lt k x _ _ hlt o4]
            simp [before, after]
          · intro ho
            obtain ⟨o1, _, _, o4⟩ := ho
            rw [hc o1]
            have : k ∈ (TreeNode.node (.node a y b) x r).inorder ↔
                k ∈ (TreeNode.node a y b).inorder :=
              mem_left_part k x _ _ hlt o4
            simp only [this]
      · rw [if_neg c1]
        have hgt : x < k := by
          rcases lt_trichotomy k x with h | h | h
          · exact absurd ((Compare_pos k x).2 h) c1
          · exact absurd h hne
          · exact h
        cases r with
        | absent =>
          obtain ⟨root, q, e1, hb, hi, _⟩ :=
            adjust_leaf { root := rebuild (.node .absent k .absent) (Step.right l x :: up),
                          count := t.count + 1 } k (Step.right l x :: up)
          refine ⟨_, e1, hb, ?_, ?_⟩
          · intro ho
            obtain ⟨_, _, o3, _⟩ := ho
            have := put_gt k x l.inorder [] hgt o3
            simp only [hi, TreeNode.inorder, before, after, this]
            simp [put]
          · intro ho
            obtain ⟨_, _, o3, _⟩ := ho
            have : k ∉ (TreeNode.node l x .absent).inorder := by
              simp only [TreeNode.inorder, List.mem_append, List.mem_cons, List.not_mem_nil,
                or_false, not_or]
              exact ⟨fun hm => absurd (lt_trans hgt (o3 k hm)) (lt_irrefl _), hne⟩
            rw [if_neg this]
        | node a y b =>
          obtain ⟨res, e, hb, hi, hc⟩ := ihr (Step.right l x :: up) (by simp)
          refine ⟨res, e, hb, ?_, ?_⟩
          · intro ho
            obtain ⟨_, o2, o3, _⟩ := ho
            rw [hi o2]
            rw [show (TreeNode.node l x (.node a y b)).inorder =
              l.inorder ++ x :: (TreeNode.node a y b).inorder from rfl]
            rw [put_gt k x _ _ hgt o3]
            simp [before, after]
          · intro ho
            obtain ⟨_, o2, o3, _⟩ := ho
            rw [hc o2]
            have : k ∈ (TreeNode.node l x (.node a y b)).inorder ↔
                k ∈ (TreeNode.node a y b).inorder :=
              mem_right_part k x _ _ hgt o3
            simp only [this]


/-- The descent of `_F_insert` adds as many nodes as it adds to the count. -/
theorem insert_loop_nodes [LinearOrder α] (t : BinaryTree α) (k : α) (sub : TreeNode α) :
    ∀ (up : List (Step α)) (res : BinaryTree α × iterator),
      AVLTree._F_insert.loop t k sub up = .ok res →
      res.1.count + (rebuild sub up).nodes = res.1.root.nodes + t.count := by
  induction sub with
  | absent => intro up res h; simp [AVLTree._F_insert.loop, AVLTree._F_insert_by.loop] at h
  | node l x r ihl ihr =>
    intro up res h
    rw [insert_loop_node] at h
    by_cases c0 : Compare k x = 0
    · have hk : k = x := (Compare_eq_zero k x).1 c0
      subst hk
      rw [if_pos c0] at h
      cases h
      simp only []
      omega
    · rw [if_neg c0] at h
      by_cases c1 : Compare k x > 0
      · rw [if_pos c1] at h
        cases l with
        | absent =>
          obtain ⟨root, q, e1, _, _, hn⟩ :=
            adjust_leaf { root := rebuild (.node .absent k .absent) (Step.left x r :: up),
                          count := t.count + 1 } k (Step.left x r :: up)
          have e2 : AVLTree._F_adjust (t.append_left ⟨.absent, x, r, up⟩ k).1
              (some (t.append_left ⟨.absent, x, r, up⟩ k).2) = .ok res := h
          rw [show AVLTree._F_adjust (t.append_left ⟨.absent, x, r, up⟩ k).1
              (some (t.append_left ⟨.absent, x, r, up⟩ k).2) = _ from e1] at e2
          cases e2
          simp only [hn, nodes_rebuild, outside, TreeNode.nodes]
          omega
        | node a y b => exact ihl (Step.left x r :: up) res h
      · rw [if_neg c1] at h
        cases r with
        | absent =>
          obtain ⟨root, q, e1, _, _, hn⟩ :=
            adjust_leaf { root := rebuild (.node .absent k .absent) (Step.right l x :: up),
                          count := t.count + 1 } k (Step.right l x :: up)
          have e2 : AVLTree._F_adjust (t.append_right ⟨l, x, .absent, up⟩ k).1
              (some (t.append_right ⟨l, x, .absent, up⟩ k).2) = .ok res := h
          rw [show AVLTree._F_adjust (t.append_right ⟨l, x, .absent, up⟩ k).1
              (some (t.append_right ⟨l, x, .absent, up⟩ k).2) = _ from e1] at e2
          cases e2
          simp only [hn, nodes_rebuild, outside, TreeNode.nodes]
          omega
        | node a y b => exact ihr (Step.right l x :: up) res h

theorem ordered_iff [LinearOrder α] (t : TreeNode α) :
    Ordered t ↔ t.inorder.Pairwise (· < ·) := by
  induction t with
  | absent => simp [Ordered, TreeNode.inorder]
  | node l x r ihl ihr =>
    simp only [Ordered, TreeNode.inorder, List.pairwise_append, List.pairwise_cons, ihl, ihr,
      List.mem_cons]
    constructor
    · rintro ⟨h1, h2, h3, h4⟩
      refine ⟨h1, ⟨h4, h2⟩, ?_⟩
      rintro a ha b (rfl | hb)
      · exact h3 a ha
      · exact lt_trans (h3 a ha) (h4 b hb)
    · rintro ⟨h1, ⟨h4, h2⟩, h5⟩
      exact ⟨h1, h2, fun y hy => h5 y hy x (Or.inl rfl), h4⟩

theorem nodes_eq_zero (t : TreeNode α) : t.nodes = 0 ↔ t = .absent := by
  cases t <;> simp [TreeNode.nodes]

theorem pairwise_put [LinearOrder α] (k : α) (L : List α) (h : L.Pairwise (· < ·)) :
    (put k L).Pairwise (· < ·) := by
  unfold put
  rw [List.pairwise_append, List.pairwise_cons]
  refine ⟨h.sublist (List.filter_sublist L), ⟨?_, h.sublist (List.filter_sublist L)⟩, ?_⟩
  · intro a ha
    simpa using (List.mem_filter.1 ha).2
  · intro a ha b hb
    have h1 : a < k := by simpa using (List.mem_filter.1 ha).2
    rcases List.mem_cons.1 hb with rfl | hb
    · exact h1
    · have h2 : k < b := by simpa using (List.mem_filter.1 hb).2
      exact lt_trans h1 h2

theorem mem_put [LinearOrder α] (k y : α) (L : List α) : y ∈ put k L ↔ y = k ∨ y ∈ L := by
  unfold put
  simp only [List.mem_append, List.mem_filter, List.mem_cons, decide_eq_true_eq]
  constructor
  · rintro (⟨h, _⟩ | rfl | ⟨h, _⟩)
    · exact Or.inr h
    · exact Or.inl rfl
    · exact Or.inr h
  · rintro (rfl | h)
    · exact Or.inr (Or.inl rfl)
    · rcases lt_trichotomy y k with h1 | h1 | h1
      · exact Or.inl ⟨h, h1⟩
      · exact Or.inr (Or.inl h1)
      · exact Or.inr (Or.inr ⟨h, h1⟩)

theorem perm_put [LinearOrder α] (k : α) (L : List α) (h : k ∉ L) :
    (put k L).Perm (k :: L) := by
  unfold put
  have e : L.filter (fun y => k < y) = L.filter (fun y => !decide (y < k)) := by
    apply List.filter_congr
    intro y hy
    have : y ≠ k := fun e => h (e ▸ hy)
    rcases lt_trichotomy y k with h1 | h1 | h1
    · simp [h1, not_lt_of_gt h1]
    · exact absurd h1 this
    · simp [h1, not_lt_of_gt h1]
  rw [e]
  refine List.perm_middle.trans (List.Perm.cons k ?_)
  exact List.filter_append_perm _ L

/-- What `_F_insert` does to a tree whose stored count is right. -/
theorem insert_spec [LinearOrder α] (t : BinaryTree α) (k : α) (hc : Counted t) :
    ∃ res, AVLTree._F_insert t k = .ok res ∧ Counted res.1 ∧
      (Balanced t.root → Balanced res.1.root) ∧
      (Ordered t.root → res.1.root.inorder = put k t.root.inorder) ∧
      (Ordered t.root →
        res.1.count = if k ∈ t.root.inorder then t.count else t.count + 1) := by
  rw [insert_unfold]
  by_cases he : AVLTree.empty t = true
  · rw [if_pos he]
    have h0 : t.count = 0 := by
      simpa [AVLTree.empty, AVLTree.size, BinaryTree.size] using he
    have hr : t.root = .absent := (nodes_eq_zero _).1 (by rw [← hc, h0])
    refine ⟨_, rfl, ?_, ?_, ?_, ?_⟩
    · simp [Counted, BinaryTree.append_root, TreeNode.nodes, h0]
    · intro _; simp [BinaryTree.append_root, Balanced, depth]
    · intro _; simp [BinaryTree.append_root, TreeNode.inorder, hr, put]
    · intro _; simp [BinaryTree.append_root, TreeNode.inorder, hr]
  · rw [if_neg he]
    have h0 : t.count ≠ 0 := by
      simpa [AVLTree.empty, AVLTree.size, BinaryTree.size] using he
    have hr : t.root ≠ .absent := fun e => h0 (by rw [hc, e]; rfl)
    obtain ⟨res, e, hb, hi, hn⟩ := insert_loop_spec t k t.root [] hr
    refine ⟨res, e, ?_, hb, ?_, hn⟩
    · have := insert_loop_nodes t k t.root [] res e
      simp only [rebuild] at this
      unfold Counted at hc ⊢
      omega
    · intro ho
      simpa [before, after] using hi ho



/-! ## find -/

theorem path_of_append (a b : List (Step α)) : path_of (a ++ b) = path_of b ++ path_of a := by
  induction a with
  | nil => simp [path_of]
  | cons s a ih => simp [path_of, ih]

theorem find_loop_node [LinearOrder α] (k : α) (l : TreeNode α) (x : α) (r : TreeNode α) :
    AVLTree._F_find.loop k (.node l x r) =
      if Compare k x = 0 then pure []
      else if Compare k x > 0 then AVLTree._F_find.loop k l >>= fun it => pure (Dir.L :: it)
      else AVLTree._F_find.loop k r >>= fun it => pure (Dir.R :: it) := rfl

/-- The descent of `_F_find` for a key that is in the ordered subtree below
`node` returns the path to a node holding that key, and every link of the path
is one the descent for the key follows. -/
theorem find_loop_present [LinearOrder α] (k : α) (sub : TreeNode α) :
    Ordered sub → k ∈ sub.inorder →
      ∃ it, AVLTree._F_find.loop k sub = .ok it ∧
        ∀ up : List (Step α), ∃ l r steps,
          tree_node sub it up = some ⟨l, k, r, steps ++ up⟩ ∧
          rebuild (.node l k r) (steps ++ up) = rebuild sub up ∧
          (∀ s ∈ steps, Step.toward k s) ∧ path_of steps = it := by
  induction sub with
  | absent => intro _ h; simp [TreeNode.inorder] at h
  | node l x r ihl ihr =>
    intro ho hm
    obtain ⟨o1, o2, o3, o4⟩ := ho
    rw [find_loop_node]
    by_cases c0 : Compare k x = 0
    · have hk : k = x := (Compare_eq_zero k x).1 c0
      subst hk
      rw [if_pos c0]
      refine ⟨[], rfl, fun up => ⟨l, r, [], rfl, rfl, by simp, rfl⟩⟩
    · rw [if_neg c0]
      have hne : k ≠ x := fun e => c0 ((Compare_eq_zero k x).2 e)
      by_cases c1 : Compare k x > 0
      · have hlt : k < x := (Compare_pos k x).1 c1
        rw [if_pos c1]
        obtain ⟨it, e, h⟩ := ihl o1 ((mem_left_part k x _ _ hlt o4).1 hm)
        refine ⟨Dir.L :: it, by rw [e]; rfl, fun up => ?_⟩
        obtain ⟨l2, r2, steps, h1, h2, h3, h4⟩ := h (Step.left x r :: up)
        refine ⟨l2, r2, steps ++ [Step.left x r], ?_, ?_, ?_, ?_⟩
        · simpa [tree_node] using h1
        · simpa [rebuild, Step.attach] using h2
        · intro s hs
          rcases List.mem_append.1 hs with h5 | h5
          · exact h3 s h5
          · rw [List.mem_singleton.1 h5]; exact hlt
        · rw [← h4, path_of_append]; rfl
      · rw [if_neg c1]
        have hgt : x < k := by
          rcases lt_trichotomy k x with h | h | h
          · exact absurd ((Compare_pos k x).2 h) c1
          · exact absurd h hne
          · exact h
        obtain ⟨it, e, h⟩ := ihr o2 ((mem_right_part k x _ _ hgt o3).1 hm)
        refine ⟨Dir.R :: it, by rw [e]; rfl, fun up => ?_⟩
        obtain ⟨l2, r2, steps, h1, h2, h3, h4⟩ := h (Step.right l x :: up)
        refine ⟨l2, r2, steps ++ [Step.right l x], ?_, ?_, ?_, ?_⟩
        · simpa [tree_node] using h1
        · simpa [rebuild, Step.attach] using h2
        · intro s hs
          rcases List.mem_append.1 hs with h5 | h5
          · exact h3 s h5
          · rw [List.mem_singleton.1 h5]; exact hgt
        · rw [← h4, path_of_append]; rfl

/-- The descent of `_F_find` for a key that no node below `node` holds ends in
the access `node->data()` through the null pointer. -/
theorem find_loop_missing [LinearOrder α] (k : α) (sub : TreeNode α) :
    k ∉ sub.inorder → AVLTree._F_find.loop k sub = .error Fault.NullDereference := by
  induction sub with
  | absent => intro _; rfl
  | node l x r ihl ihr =>
    intro hm
    simp only [TreeNode.inorder, List.mem_append, List.mem_cons, not_or] at hm
    obtain ⟨h1, h2, h3⟩ := hm
    rw [find_loop_node, if_neg (fun c => h2 ((Compare_eq_zero k x).1 c)), ihl h1, ihr h3]
    split_ifs <;> rfl


/-! ## erase -/

theorem leftmost_node (l : TreeNode α) (x : α) (r : TreeNode α) (up : List (Step α)) :
    leftmost (.node l x r) up =
      match leftmost l (Step.left x r :: up) with
      | some m => some m
      | none => some ⟨l, x, r, up⟩ := rfl

/-- The leftmost node of a subtree has no left child, is reached by left links
only, and the subtree is the one rebuilt around it. -/
theorem leftmost_spec (sub : TreeNode α) :
    ∀ up : List (Step α), sub ≠ .absent →
      ∃ d c steps, leftmost sub up = some ⟨.absent, d, c, steps ++ up⟩ ∧
        rebuild (.node .absent d c) steps = sub ∧ before steps = [] := by
  induction sub with
  | absent => intro up h; exact absurd rfl h
  | node l x r ihl _ =>
    intro up _
    rw [leftmost_node]
    cases l with
    | absent => exact ⟨x, r, [], rfl, rfl, rfl⟩
    | node a y b =>
      obtain ⟨d, c, steps, h1, h2, h3⟩ := ihl (Step.left x r :: up) (by simp)
      refine ⟨d, c, steps ++ [Step.left x r], ?_, ?_, ?_⟩
      · rw [h1]; simp
      · rw [rebuild_append, h2]; rfl
      · rw [before_append, h3]; rfl

/-- Splicing the subtree `c` into the place of a node with at most one child
and walking up from the former parent: the walk returns; what is left is the
tree with `c` at that place; it is balanced when the tree was balanced with the
removed node `old`, one level higher than `c`, at that place. -/
theorem splice_spec (t : BinaryTree α) (c old : TreeNode α) (up : List (Step α)) :
    ∃ res, AVLTree._F_adjust (t.splice c up).1 (t.splice c up).2 = .ok res ∧
      res.1.root.inorder = before up ++ (c.inorder ++ after up) ∧
      res.1.root.nodes = c.nodes + outside up ∧
      res.1.count = t.count - 1 ∧
      (depth old = depth c + 1 → Balanced c → Balanced (rebuild old up) →
        Balanced res.1.root) := by
  cases up with
  | nil =>
    refine ⟨({ root := c, count := t.count - 1 }, []), rfl, ?_, ?_, rfl, fun _ hc _ => hc⟩
    · simp [before, after]
    · simp [outside]
  | cons s rest =>
    cases s with
    | left sx sr =>
      obtain ⟨root, q, e1, e2⟩ :=
        adjust_some { root := rebuild (.node c sx sr) rest, count := t.count - 1 }
          ⟨c, sx, sr, rest⟩
      obtain ⟨root2, q2, e3, i1, i2⟩ := loop_total rest c sx sr []
      have e4 : AVLTree._F_adjust.loop (.node c sx sr) [] rest = .ok (root, q) := e2
      rw [e3] at e4
      simp only [Except.ok.injEq, Prod.mk.injEq] at e4
      obtain ⟨rfl, rfl⟩ := e4
      refine ⟨_, e1, ?_, ?_, rfl, ?_⟩
      · show root2.inorder = _
        rw [i1, inorder_rebuild]
        simp [TreeNode.inorder, before, after]
      · show root2.nodes = _
        rw [i2, nodes_rebuild]
        simp only [TreeNode.nodes, outside]
        omega
      · intro hd hc hb
        have hb2 : Balanced (rebuild (.node old sx sr) rest) := hb
        obtain ⟨⟨_, b2, b3, b4⟩, hf⟩ := (balanced_rebuild rest _).1 hb2
        simp only [depth] at hf
        obtain ⟨root3, q3, e5, hb3⟩ :=
          loop_balanced rest c sx sr [] (1 + max (depth old) (depth sr)) hc b2
            (by omega) (by omega) (by omega) (by omega) (by omega) hf
        rw [e3] at e5
        simp only [Except.ok.injEq, Prod.mk.injEq] at e5
        obtain ⟨rfl, rfl⟩ := e5
        exact hb3
    | right sl sx =>
      obtain ⟨root, q, e1, e2⟩ :=
        adjust_some { root := rebuild (.node sl sx c) rest, count := t.count - 1 }
          ⟨sl, sx, c, rest⟩
      obtain ⟨root2, q2, e3, i1, i2⟩ := loop_total rest sl sx c []
      have e4 : AVLTree._F_adjust.loop (.node sl sx c) [] rest = .ok (root, q) := e2
      rw [e3] at e4
      simp only [Except.ok.injEq, Prod.mk.injEq] at e4
      obtain ⟨rfl, rfl⟩ := e4
      refine ⟨_, e1, ?_, ?_, rfl, ?_⟩
      · show root2.inorder = _
        rw [i1, inorder_rebuild]
        simp [TreeNode.inorder, before, after]
      · show root2.nodes = _
        rw [i2, nodes_rebuild]
        simp only [TreeNode.nodes, outside]
        omega
      · intro hd hc hb
        have hb2 : Balanced (rebuild (.node sl sx old) rest) := hb
        obtain ⟨⟨b1, _, b3, b4⟩, hf⟩ := (balanced_rebuild rest _).1 hb2
        simp only [depth] at hf
        obtain ⟨root3, q3, e5, hb3⟩ :=
          loop_balanced rest sl sx c [] (1 + max (depth sl) (depth old)) b1 hc
            (by omega) (by omega) (by omega) (by omega) (by omega) hf
        rw [e3] at e5
        simp only [Except.ok.injEq, Prod.mk.injEq] at e5
        obtain ⟨rfl, rfl⟩ := e5
        exact hb3

/-- What `_F_erase` does at a node: it returns; the in-order sequence loses
the payload of the node and nothing else; one node and one unit of the count
are gone; the tree stays balanced. -/
theorem erase_at_spec (t : BinaryTree α) (n : Loc α) :
    ∃ res, AVLTree._F_erase t n = .ok res ∧
      res.root.inorder =
        before n.up ++ ((n.left.inorder ++ n.right.inorder) ++ after n.up) ∧
      res.root.nodes + 1 = n.rebuild.nodes ∧
      res.count = t.count - 1 ∧
      (Balanced n.rebuild → Balanced res.root) := by
  obtain ⟨l, x, r, up⟩ := n
  have key : ∀ (c old : TreeNode α) (ctx : List (Step α)),
      t.erase ⟨l, x, r, up⟩ = t.splice c ctx →
      before ctx ++ (c.inorder ++ after ctx) = before up ++ ((l.inorder ++ r.inorder) ++ after up) →
      c.nodes + outside ctx + 1 = (rebuild (.node l x r) up).nodes →
      (Balanced (rebuild (.node l x r) up) →
        depth old = depth c + 1 ∧ Balanced c ∧ Balanced (rebuild old ctx)) →
      ∃ res, AVLTree._F_erase t ⟨l, x, r, up⟩ = .ok res ∧
        res.root.inorder = before up ++ ((l.inorder ++ r.inorder) ++ after up) ∧
        res.root.nodes + 1 = (rebuild (.node l x r) up).nodes ∧
        res.count = t.count - 1 ∧
        (Balanced (rebuild (.node l x r) up) → Balanced res.root) := by
    intro c old ctx he hi hn hb
    obtain ⟨res, e, i1, i2, i3, i4⟩ := splice_spec t c old ctx
    refine ⟨res.1, ?_, ?_, ?_, i3, ?_⟩
    · simp only [AVLTree._F_erase, he, e]; rfl
    · rw [i1, hi]
    · rw [i2, hn]
    · intro h
      obtain ⟨h1, h2, h3⟩ := hb h
      exact i4 h1 h2 h3
  cases l with
  | absent =>
    refine key r (.node .absent x r) up rfl ?_ ?_ ?_
    · simp [TreeNode.inorder]
    · simp only [nodes_rebuild, TreeNode.nodes]; omega
    · intro h
      have := ((balanced_rebuild up _).1 h).1
      exact ⟨by simp only [depth]; omega, this.2.1, h⟩
  | node a y b =>
    cases r with
    | absent =>
      refine key (.node a y b) (.node (.node a y b) x .absent) up rfl ?_ ?_ ?_
      · simp [TreeNode.inorder]
      · simp only [nodes_rebuild, TreeNode.nodes]; omega
      · intro h
        have := ((balanced_rebuild up _).1 h).1
        exact ⟨by simp only [depth]; omega, this.1, h⟩
    | node c z d =>
      obtain ⟨sd, sc, steps, h1, h2, h3⟩ := leftmost_spec (.node c z d) [] (by simp)
      simp only [List.append_nil] at h1
      refine key sc (.node .absent sd sc) (steps ++ Step.right (.node a y b) sd :: up) ?_ ?_ ?_ ?_
      · simp only [BinaryTree.erase, h1]
      · have hi : (TreeNode.node c z d).inorder = sd :: sc.inorder ++ after steps := by
          rw [← h2, inorder_rebuild, h3]; simp [TreeNode.inorder]
        rw [before_append, after_append, h3, hi]
        simp [before, after]
      · have hn : (TreeNode.node c z d).nodes = 1 + sc.nodes + outside steps := by
          rw [← h2, nodes_rebuild]; simp only [TreeNode.nodes]
        rw [outside_append, nodes_rebuild]
        rw [show (TreeNode.node (.node a y b) x (.node c z d)).nodes =
          (TreeNode.node a y b).nodes + 1 + (TreeNode.node c z d).nodes from rfl, hn]
        simp only [outside]
        omega
      · intro h
        have hb1 : Balanced (rebuild (.node .absent sd sc)
            (steps ++ Step.right (.node a y b) sd :: up)) := by
          rw [rebuild_append, h2]
          show Balanced (rebuild (.node (.node a y b) sd (.node c z d)) up)
          rw [balanced_rebuild] at h ⊢
          exact h
        have hb2 := ((balanced_rebuild _ _).1 hb1).1
        exact ⟨by simp only [depth]; omega, hb2.2.1, hb1⟩


theorem strictlyIncreasing_iff [LinearOrder α] (L : List α) :
    StrictlyIncreasing L ↔ L.Pairwise (· < ·) := by
  unfold StrictlyIncreasing
  constructor
  · exact List.Pairwise.imp (fun h => (Compare_pos _ _).1 h)
  · exact List.Pairwise.imp (fun h => (Compare_pos _ _).2 h)

theorem nodup_of_pairwise_lt [LinearOrder α] (L : List α) (h : L.Pairwise (· < ·)) :
    L.Nodup :=
  List.Pairwise.imp (fun h => ne_of_lt h) h

theorem erase_middle [LinearOrder α] (k : α) (A B : List α)
    (h : (A ++ k :: B).Pairwise (· < ·)) : (A ++ k :: B).erase k = A ++ B := by
  have hk : k ∉ A := by
    intro hm
    have := (List.pairwise_append.1 h).2.2 k hm k (List.mem_cons_self k B)
    exact lt_irrefl _ this
  rw [List.erase_append_right _ hk, List.erase_cons_head]

/-- What `erase(key)` does for a key that is in the tree. -/
theorem erase_key_spec [LinearOrder α] (t : BinaryTree α) (k : α) (hc : Counted t)
    (ho : Ordered t.root) (hk : k ∈ t.root.inorder) :
    ∃ res, AVLTree.erase t k = .ok res ∧ Counted res ∧
      (Balanced t.root → Balanced res.root) ∧
      res.root.inorder = t.root.inorder.erase k ∧
      res.count + 1 = t.count ∧ Ordered res.root ∧ k ∉ res.root.inorder := by
  obtain ⟨it, e, h⟩ := find_loop_present k t.root ho hk
  obtain ⟨l, r, steps, h1, h2, _, _⟩ := h []
  simp only [List.append_nil, rebuild] at h1 h2
  obtain ⟨res, e2, i1, i2, i3, i4⟩ := erase_at_spec t ⟨l, k, r, steps⟩
  have hroot : (⟨l, k, r, steps⟩ : Loc α).rebuild = t.root := h2
  have hin : t.root.inorder = (before steps ++ l.inorder) ++ k :: (r.inorder ++ after steps) := by
    rw [← h2, inorder_rebuild]; simp [TreeNode.inorder]
  have hp : t.root.inorder.Pairwise (· < ·) := (ordered_iff _).1 ho
  have hres : res.root.inorder = t.root.inorder.erase k := by
    rw [i1, hin, erase_middle k _ _ (hin ▸ hp)]
    simp
  have hpos : 0 < t.root.nodes := by
    rw [← length_inorder]; exact List.length_pos_of_mem hk
  have hp2 : res.root.inorder.Pairwise (· < ·) := by
    rw [hres]; exact hp.sublist (List.erase_sublist k _)
  refine ⟨res, ?_, ?_, ?_, hres, ?_, (ordered_iff _).2 hp2, ?_⟩
  · simp only [AVLTree.erase, AVLTree.find, AVLTree._F_find, e]
    show AVLTree.erase_at t it = _
    simp only [AVLTree.erase_at, h1]
    exact e2
  · unfold Counted at hc ⊢
    rw [hroot] at i2
    omega
  · intro hb
    exact i4 (hroot ▸ hb)
  · unfold Counted at hc
    omega
  · rw [hres]
    exact fun hm => (List.Nodup.mem_erase_iff (nodup_of_pairwise_lt _ hp)).1 hm |>.1 rfl

/-- Single-key inserts one after the other: every one returns, and the count,
the balance and the order are kept; the tree holds the old keys and the new ones. -/
theorem insert_each_spec [LinearOrder α] (ks : List α) :
    ∀ t : BinaryTree α, Counted t → Ordered t.root →
      ∃ res, AVLTree.insert_each t ks = .ok res ∧ Counted res ∧ Ordered res.root ∧
        (Balanced t.root → Balanced res.root) ∧
        (ks.Nodup → (∀ k ∈ ks, k ∉ t.root.inorder) →
          res.root.inorder.Perm (ks ++ t.root.inorder) ∧
          res.count = t.count + ks.length) := by
  induction ks with
  | nil =>
    intro t hc ho
    exact ⟨t, rfl, hc, ho, fun h => h, fun _ _ => ⟨by simp, by simp⟩⟩
  | cons k ks ih =>
    intro t hc ho
    obtain ⟨r1, e1, c1, b1, i1, n1⟩ := insert_spec t k hc
    have hp1 : r1.1.root.inorder.Pairwise (· < ·) := by
      rw [i1 ho]; exact pairwise_put k _ ((ordered_iff _).1 ho)
    have o1 : Ordered r1.1.root := (ordered_iff _).2 hp1
    obtain ⟨res, e2, c2, o2, b2, p2⟩ := ih r1.1 c1 o1
    refine ⟨res, ?_, c2, o2, fun hb => b2 (b1 hb), ?_⟩
    · simp only [AVLTree.insert_each, AVLTree.insert, e1]
      exact e2
    · intro hnd hfresh
      have hk : k ∉ t.root.inorder := hfresh k (List.mem_cons_self k ks)
      have hnd2 := List.nodup_cons.1 hnd
      have hfresh2 : ∀ y ∈ ks, y ∉ r1.1.root.inorder := by
        intro y hy hm
        rw [i1 ho, mem_put] at hm
        rcases hm with rfl | hm
        · exact hnd2.1 hy
        · exact hfresh y (List.mem_cons_of_mem k hy) hm
      obtain ⟨p3, n3⟩ := p2 hnd2.2 hfresh2
      constructor
      · refine p3.trans ?_
        rw [i1 ho]
        refine (List.Perm.append_left ks (perm_put k _ hk)).trans ?_
        simp
      · rw [n3, n1 ho, if_neg hk]
        simp only [List.length_cons]
        omega


/-! # The claims -/

/-- C1. `insert` keeps the AVL invariant: on a tree whose stored count is right
and in which every node has subtrees whose heights differ by at most one,
`insert(k)` returns and every node of the resulting tree has subtrees whose
heights differ by at most one; hence the same holds after any sequence of
inserts that starts from the empty tree.  The ordering invariant is not needed
for this. -/
theorem insert_keeps_balance [LinearOrder α] (t : BinaryTree α) (k : α)
    (hc : Counted t) (hb : Balanced t.root) :
    (∃ res, AVLTree.insert t k = .ok res ∧ Balanced res.1.root) ∧
    (∀ ks : List α,
      ∃ res, AVLTree.insert_each AVLTree.new ks = .ok res ∧ Balanced res.root) := by
  constructor
  · obtain ⟨res, e, _, b, _⟩ := insert_spec t k hc
    exact ⟨res, e, b hb⟩
  · intro ks
    obtain ⟨res, e, _, _, b, _⟩ := insert_each_spec ks (AVLTree.new : BinaryTree α) rfl trivial
    exact ⟨res, e, b trivial⟩

theorem insert_keeps_balance_witness :
    Counted (built keys12) ∧ Balanced (built keys12).root ∧
    ((∃ res, AVLTree.insert (built keys12) 41 = .ok res ∧ Balanced res.1.root) ∧
     (∀ ks : List Int,
        ∃ res, AVLTree.insert_each AVLTree.new ks = .ok res ∧ Balanced res.root)) :=
  ⟨by decide, by decide, insert_keeps_balance (built keys12) 41 (by decide) (by decide)⟩

/-- C2. `erase` keeps the AVL invariant: on a balanced, ordered tree whose
stored count is right, `erase(k)` for a key `k` of the tree returns and every
node of the resulting tree has subtrees whose heights differ by at most one,
whether the removed node had zero, one or two children. -/
theorem erase_keeps_balance [LinearOrder α] (t : BinaryTree α) (k : α)
    (hc : Counted t) (hb : Balanced t.root) (ho : Ordered t.root)
    (hk : k ∈ t.root.inorder) :
    ∃ res, AVLTree.erase t k = .ok res ∧ Balanced res.root := by
  obtain ⟨res, e, _, b, _⟩ := erase_key_spec t k hc ho hk
  exact ⟨res, e, b hb⟩

theorem erase_keeps_balance_witness :
    (Counted (built keys24) ∧ Balanced (built keys24).root ∧ Ordered (built keys24).root ∧
      (100 : Int) ∈ (built keys24).root.inorder) ∧
    ∃ res, AVLTree.erase (built keys24) 100 = .ok res ∧ Balanced res.root :=
  ⟨by decide, erase_keeps_balance (built keys24) 100 (by decide) (by decide) (by decide)
    (by decide)⟩

/-- C3. The ordering invariant is kept by `insert` and by `erase`: when the
in-order traversal of a tree (with the right stored count) is strictly increasing
under the comparator, so is the in-order traversal after `insert(k)`, for any `k`,
and after `erase(k)`, for any `k` of the tree; both return; and in the resulting
trees no key is stored twice. -/
theorem order_kept [LinearOrder α] (t : BinaryTree α) (k : α) (hc : Counted t)
    (hs : StrictlyIncreasing t.root.inorder) :
    (∃ res, AVLTree.insert t k = .ok res ∧ StrictlyIncreasing res.1.root.inorder ∧
      res.1.root.inorder.Nodup) ∧
    (k ∈ t.root.inorder →
      ∃ res, AVLTree.erase t k = .ok res ∧ StrictlyIncreasing res.root.inorder ∧
        res.root.inorder.Nodup) := by
  have hp : t.root.inorder.Pairwise (· < ·) := (strictlyIncreasing_iff _).1 hs
  have ho : Ordered t.root := (ordered_iff _).2 hp
  constructor
  · obtain ⟨res, e, _, _, i, _⟩ := insert_spec t k hc
    have hp2 : res.1.root.inorder.Pairwise (· < ·) := by
      rw [i ho]; exact pairwise_put k _ hp
    exact ⟨res, e, (strictlyIncreasing_iff _).2 hp2, nodup_of_pairwise_lt _ hp2⟩
  · intro hk
    obtain ⟨res, e, _, _, _, _, o, _⟩ := erase_key_spec t k hc ho hk
    have hp2 := (ordered_iff _).1 o
    exact ⟨res, e, (strictlyIncreasing_iff _).2 hp2, nodup_of_pairwise_lt _ hp2⟩

theorem order_kept_witness :
    (Counted (built keys24) ∧ StrictlyIncreasing (built keys24).root.inorder) ∧
    ((∃ res, AVLTree.insert (built keys24) 48 = .ok res ∧
        StrictlyIncreasing res.1.root.inorder ∧ res.1.root.inorder.Nodup) ∧
     ((48 : Int) ∈ (built keys24).root.inorder →
        ∃ res, AVLTree.erase (built keys24) 48 = .ok res ∧
          StrictlyIncreasing res.root.inorder ∧ res.root.inorder.Nodup)) :=
  ⟨by decide, order_kept (built keys24) 48 (by decide) (by decide)⟩

/-- C4. For a key that no node of the tree holds (the empty tree included),
`find` does not fail with `NotFound`: the descent reaches the null pointer and
reads `node->data()` through it. -/
theorem find_missing_key [LinearOrder α] (t : BinaryTree α) (k : α)
    (hk : k ∉ t.root.inorder) :
    AVLTree.find t k = .error Fault.NullDereference ∧
    AVLTree.find t k ≠ .error Fault.NotFound := by
  have h : AVLTree.find t k = .error Fault.NullDereference := find_loop_missing k t.root hk
  refine ⟨h, ?_⟩
  rw [h]
  intro c
  cases c

theorem find_missing_key_witness :
    ((100 : Int) ∉ (built keys12).root.inorder ∧
      AVLTree.find (built keys12) 100 = .error Fault.NullDereference ∧
      AVLTree.find (built keys12) 100 ≠ .error Fault.NotFound) ∧
    ((100 : Int) ∉ (AVLTree.new : BinaryTree Int).root.inorder ∧
      AVLTree.find (AVLTree.new : BinaryTree Int) 100 = .error Fault.NullDereference ∧
      AVLTree.find (AVLTree.new : BinaryTree Int) 100 ≠ .error Fault.NotFound) :=
  ⟨⟨by decide, find_missing_key (built keys12) 100 (by decide)⟩,
   ⟨by decide, find_missing_key AVLTree.new 100 (by decide)⟩⟩

/-- C5. In an ordered tree, `find(k)` for a key `k` of the tree returns an
iterator to a node that holds `k`; that node is in the tree, `k` occurs once in
the in-order traversal, and every link on the way from the root to the node
goes left below a payload that `k` orders before and right below one it orders
after. -/
theorem find_present_key [LinearOrder α] (t : BinaryTree α) (k : α)
    (ho : Ordered t.root) (hk : k ∈ t.root.inorder) :
    ∃ it l r up, AVLTree.find t k = .ok it ∧
      tree_node t.root it [] = some ⟨l, k, r, up⟩ ∧
      Loc.rebuild ⟨l, k, r, up⟩ = t.root ∧ path_of up = it ∧
      (∀ s ∈ up, Step.toward k s) ∧ t.root.inorder.count k = 1 := by
  obtain ⟨it, e, h⟩ := find_loop_present k t.root ho hk
  obtain ⟨l, r, steps, h1, h2, h3, h4⟩ := h []
  simp only [List.append_nil] at h1 h2
  refine ⟨it, l, r, steps, e, h1, h2, h4, h3, ?_⟩
  exact List.count_eq_one_of_mem (nodup_of_pairwise_lt _ ((ordered_iff _).1 ho)) hk

theorem find_present_key_witness :
    (Ordered (built keys24).root ∧ (47 : Int) ∈ (built keys24).root.inorder) ∧
    ∃ it l r up, AVLTree.find (built keys24) 47 = .ok it ∧
      tree_node (built keys24).root it [] = some ⟨l, 47, r, up⟩ ∧
      Loc.rebuild ⟨l, 47, r, up⟩ = (built keys24).root ∧ path_of up = it ∧
      (∀ s ∈ up, Step.toward 47 s) ∧ (built keys24).root.inorder.count 47 = 1 :=
  ⟨by decide, find_present_key (built keys24) 47 (by decide) (by decide)⟩

/-- C6. Insert then find: on an ordered tree with the right stored count,
`insert(v)` returns, and `find(v)` on the resulting tree returns an iterator to a
node of that tree whose payload is `v`, whether `v` was new or already there and
whether or not the insert rotated. -/
theorem insert_then_find [LinearOrder α] (t : BinaryTree α) (v : α)
    (hc : Counted t) (ho : Ordered t.root) :
    ∃ res it l r up, AVLTree.insert t v = .ok res ∧ AVLTree.find res.1 v = .ok it ∧
      tree_node res.1.root it [] = some ⟨l, v, r, up⟩ ∧
      Loc.rebuild ⟨l, v, r, up⟩ = res.1.root := by
  obtain ⟨res, e, _, _, i, _⟩ := insert_spec t v hc
  have hp : res.1.root.inorder.Pairwise (· < ·) := by
    rw [i ho]; exact pairwise_put v _ ((ordered_iff _).1 ho)
  have hm : v ∈ res.1.root.inorder := by
    rw [i ho, mem_put]; exact Or.inl rfl
  obtain ⟨it, e2, h⟩ := find_loop_present v res.1.root ((ordered_iff _).2 hp) hm
  obtain ⟨l, r, steps, h1, h2, _, _⟩ := h []
  simp only [List.append_nil] at h1 h2
  exact ⟨res, it, l, r, steps, e, e2, h1, h2⟩

theorem insert_then_find_witness :
    (Counted (built keys12) ∧ Ordered (built keys12).root) ∧
    ∃ res it l r up, AVLTree.insert (built keys12) 41 = .ok res ∧
      AVLTree.find res.1 41 = .ok it ∧
      tree_node res.1.root it [] = some ⟨l, 41, r, up⟩ ∧
      Loc.rebuild ⟨l, 41, r, up⟩ = res.1.root :=
  ⟨by decide, insert_then_find (built keys12) 41 (by decide) (by decide)⟩

/-- C7. Erase then find: on an ordered tree with the right stored count,
`erase(k)` for a key `k` of the tree returns a tree that does not hold `k`, and
`find(k)` on it does not fail with `NotFound` but reads through the null
pointer. -/
theorem erase_then_find [LinearOrder α] (t : BinaryTree α) (k : α)
    (hc : Counted t) (ho : Ordered t.root) (hk : k ∈ t.root.inorder) :
    ∃ res, AVLTree.erase t k = .ok res ∧ k ∉ res.root.inorder ∧
      AVLTree.find res k = .error Fault.NullDereference := by
  obtain ⟨res, e, _, _, _, _, _, hn⟩ := erase_key_spec t k hc ho hk
  exact ⟨res, e, hn, find_loop_missing k res.root hn⟩

theorem erase_then_find_witness :
    (Counted (built keys24) ∧ Ordered (built keys24).root ∧
      (100 : Int) ∈ (built keys24).root.inorder) ∧
    ∃ res, AVLTree.erase (built keys24) 100 = .ok res ∧ (100 : Int) ∉ res.root.inorder ∧
      AVLTree.find res 100 = .error Fault.NullDereference :=
  ⟨by decide, erase_then_find (built keys24) 100 (by decide) (by decide) (by decide)⟩

/-- C8. For a key that no node of the tree holds, `erase(key)` does not fail
with `NotFound`: it is `erase(find(key))`, and `find` reads through the null
pointer, so no tree is returned at all. -/
theorem erase_missing_key [LinearOrder α] (t : BinaryTree α) (k : α)
    (hk : k ∉ t.root.inorder) :
    AVLTree.erase t k = .error Fault.NullDereference := by
  have h : AVLTree.find t k = .error Fault.NullDereference := find_loop_missing k t.root hk
  simp only [AVLTree.erase, h]
  rfl

theorem erase_missing_key_witness :
    (100 : Int) ∉ (built keys12).root.inorder ∧
    AVLTree.erase (built keys12) 100 = .error Fault.NullDereference :=
  ⟨by decide, erase_missing_key (built keys12) 100 (by decide)⟩

/-- C9. On an ordered tree with the right stored count, `erase(k)` for a key `k`
of the tree returns; the in-order traversal afterwards is the one before with
`k` removed, every other payload kept and none added; and `size()` is one less
than before. -/
theorem erase_removes_key [LinearOrder α] (t : BinaryTree α) (k : α)
    (hc : Counted t) (ho : Ordered t.root) (hk : k ∈ t.root.inorder) :
    ∃ res, AVLTree.erase t k = .ok res ∧
      res.root.inorder = t.root.inorder.erase k ∧
      AVLTree.size res + 1 = AVLTree.size t := by
  obtain ⟨res, e, _, _, i, n, _⟩ := erase_key_spec t k hc ho hk
  exact ⟨res, e, i, n⟩

theorem erase_removes_key_witness :
    ((Counted (built keys24) ∧ Ordered (built keys24).root ∧
        (100 : Int) ∈ (built keys24).root.inorder) ∧
      ∃ res, AVLTree.erase (built keys24) 100 = .ok res ∧
        res.root.inorder = (built keys24).root.inorder.erase 100 ∧
        AVLTree.size res + 1 = AVLTree.size (built keys24)) ∧
    ((Counted (erased (built keys24) [100]) ∧ Ordered (erased (built keys24) [100]).root ∧
        (48 : Int) ∈ (erased (built keys24) [100]).root.inorder) ∧
      ∃ res, AVLTree.erase (erased (built keys24) [100]) 48 = .ok res ∧
        res.root.inorder = (erased (built keys24) [100]).root.inorder.erase 48 ∧
        AVLTree.size res + 1 = AVLTree.size (erased (built keys24) [100])) :=
  ⟨⟨by decide, erase_removes_key (built keys24) 100 (by decide) (by decide) (by decide)⟩,
   ⟨by decide, erase_removes_key (erased (built keys24) [100]) 48 (by decide) (by decide)
      (by decide)⟩⟩

/-- C10. Pairwise distinct keys inserted one at a time into an empty tree: every
insert returns, the in-order traversal of the resulting tree is the list of
keys sorted in increasing order, and `size()` is the length of the list. -/
theorem insert_each_sorted [LinearOrder α] (ks : List α) (hd : ks.Nodup) :
    ∃ res, AVLTree.insert_each AVLTree.new ks = .ok res ∧
      res.root.inorder = ks.insertionSort (· ≤ ·) ∧
      AVLTree.size res = ks.length := by
  obtain ⟨res, e, _, o, _, p⟩ := insert_each_spec ks (AVLTree.new : BinaryTree α) rfl trivial
  obtain ⟨p1, n1⟩ := p hd (fun k _ hm => by simp [AVLTree.new, TreeNode.inorder] at hm)
  refine ⟨res, e, ?_, ?_⟩
  · have hs : res.root.inorder.Sorted (· ≤ ·) :=
      List.Pairwise.imp (fun h => le_of_lt h) ((ordered_iff _).1 o)
    have hp : res.root.inorder.Perm (ks.insertionSort (· ≤ ·)) := by
      refine p1.trans ?_
      simpa [AVLTree.new, TreeNode.inorder] using (List.perm_insertionSort (· ≤ ·) ks).symm
    exact List.eq_of_perm_of_sorted hp hs (List.sorted_insertionSort (· ≤ ·) ks)
  · simpa [AVLTree.new, AVLTree.size, BinaryTree.size] using n1

theorem insert_each_sorted_witness :
    keys12.Nodup ∧
    ∃ res, AVLTree.insert_each AVLTree.new keys12 = .ok res ∧
      res.root.inorder = keys12.insertionSort (· ≤ ·) ∧
      AVLTree.size res = keys12.length :=
  ⟨by decide, insert_each_sorted keys12 (by decide)⟩


/-! ## Batch insert, height, one step of the walk, rotations -/

theorem insert_list_cons [LinearOrder α] (t : BinaryTree α) (x : α) (l : List α)
    (h : l ≠ []) :
    AVLTree.insert_list t (x :: l) =
      AVLTree._F_insert t x >>= fun r => AVLTree.insert_list r.1 l := by
  cases l with
  | nil => exact absurd rfl h
  | cons y rest => rfl

theorem insert_list_snoc [LinearOrder α] (ks : List α) :
    ∀ (t : BinaryTree α) (x : α), AVLTree.insert_list t (ks ++ [x]) =
      AVLTree.insert_each t ks >>= fun t2 => AVLTree.insert t2 x := by
  induction ks with
  | nil => intro t x; rfl
  | cons k ks ih =>
    intro t x
    rw [List.cons_append, insert_list_cons t k (ks ++ [x]) (by simp)]
    simp only [AVLTree.insert_each, AVLTree.insert]
    cases h : AVLTree._F_insert t k with
    | error e => rfl
    | ok r => exact ih r.1 x

/-- C16. Batch insert.  For a list with at least one key, `insert(list)` is the
single-key inserts of all keys but the last, from first to last, followed by the
single-key insert of the last key, whose tree and iterator it returns; the
constructor from a list builds the same tree.  For the empty list it does not
do so: `*it` is read at `arg_list.end()` before the end of the list is tested. -/
theorem batch_insert [LinearOrder α] (t : BinaryTree α) :
    AVLTree.insert_list t ([] : List α) = .error Fault.OutOfBounds ∧
    AVLTree.from_list ([] : List α) = .error Fault.OutOfBounds ∧
    AVLTree.insert_each t ([] : List α) = .ok t ∧
    (∀ (ks : List α) (x : α),
      AVLTree.insert_list t (ks ++ [x]) =
        AVLTree.insert_each t ks >>= fun t2 => AVLTree.insert t2 x) ∧
    (∀ (ks : List α) (x : α),
      AVLTree.from_list (ks ++ [x]) = AVLTree.insert_each AVLTree.new (ks ++ [x])) := by
  refine ⟨rfl, rfl, rfl, fun ks x => insert_list_snoc ks t x, fun ks x => ?_⟩
  have e : ∀ (ks : List α) (t : BinaryTree α), AVLTree.insert_each t (ks ++ [x]) =
      AVLTree.insert_each t ks >>= fun t2 => AVLTree.insert t2 x >>= fun r => pure r.1 := by
    intro ks
    induction ks with
    | nil =>
      intro t
      rfl
    | cons k ks ih =>
      intro t
      simp only [List.cons_append, AVLTree.insert_each]
      cases AVLTree.insert t k with
      | error e => rfl
      | ok r => exact ih r.1
  rw [e, AVLTree.from_list, insert_list_snoc]
  cases AVLTree.insert_each (AVLTree.new : BinaryTree α) ks <;> rfl

/-- C17. `depth()` is the height of the root, with height 0 for an absent node
and one more than the larger of the heights of the two subtrees for a node; on a
tree whose stored count is right, `depth()` is 0 exactly when `empty()` is true,
which is exactly when `size()` is 0. -/
theorem depth_is_height (t : BinaryTree α) (hc : Counted t) :
    AVLTree.depth t = depth t.root ∧
    depth (TreeNode.absent : TreeNode α) = 0 ∧
    (∀ (l : TreeNode α) (x : α) (r : TreeNode α),
      depth (.node l x r) = 1 + max (depth l) (depth r)) ∧
    (AVLTree.depth t = 0 ↔ AVLTree.empty t = true) ∧
    (AVLTree.empty t = true ↔ AVLTree.size t = 0) := by
  refine ⟨rfl, rfl, fun _ _ _ => rfl, ?_, ?_⟩
  · unfold Counted at hc
    simp only [AVLTree.depth, AVLTree.empty, AVLTree.size, BinaryTree.size, beq_iff_eq, hc]
    cases t.root with
    | absent => simp [depth, TreeNode.nodes]
    | node l x r => simp only [depth, TreeNode.nodes]; omega
  · simp [AVLTree.empty]

theorem depth_is_height_witness :
    Counted (built keys12) ∧
    (AVLTree.depth (built keys12) = depth (built keys12).root ∧
    depth (TreeNode.absent : TreeNode Int) = 0 ∧
    (∀ (l : TreeNode Int) (x : Int) (r : TreeNode Int),
      depth (.node l x r) = 1 + max (depth l) (depth r)) ∧
    (AVLTree.depth (built keys12) = 0 ↔ AVLTree.empty (built keys12) = true) ∧
    (AVLTree.empty (built keys12) = true ↔ AVLTree.size (built keys12) = 0)) :=
  ⟨by decide, depth_is_height (built keys12) (by decide)⟩

theorem visit_unchanged (l : TreeNode α) (x : α) (r : TreeNode α) (p : Path)
    (h1 : depth l ≤ depth r + 1) (h2 : depth r ≤ depth l + 1) :
    AVLTree._F_adjust.visit (.node l x r) p = .ok (.node l x r, p) := by
  unfold AVLTree._F_adjust.visit
  simp only []
  rw [if_neg (by omega), if_neg (by omega)]
  rfl

theorem visit_left_heavy (tl : TreeNode α) (ty : α) (tr : TreeNode α) (x : α)
    (r : TreeNode α) (p : Path) (h : depth (.node tl ty tr) > depth r + 1) :
    AVLTree._F_adjust.visit (.node (.node tl ty tr) x r) p =
      if depth tl < depth tr then
        left_rotate (.node tl ty tr) >>= fun temp =>
        right_rotate (.node temp x r) >>= fun v =>
        pure (v, right_rotate.moved (moved_below Dir.L left_rotate.moved p))
      else
        right_rotate (.node (.node tl ty tr) x r) >>= fun v =>
        pure (v, right_rotate.moved p) := by
  unfold AVLTree._F_adjust.visit
  simp only []
  rw [if_pos (by omega)]

theorem visit_right_heavy (l : TreeNode α) (x : α) (tl : TreeNode α) (ty : α)
    (tr : TreeNode α) (p : Path) (h : depth (.node tl ty tr) > depth l + 1) :
    AVLTree._F_adjust.visit (.node l x (.node tl ty tr)) p =
      if depth tr < depth tl then
        right_rotate (.node tl ty tr) >>= fun temp =>
        left_rotate (.node l x temp) >>= fun v =>
        pure (v, left_rotate.moved (moved_below Dir.R right_rotate.moved p))
      else
        left_rotate (.node l x (.node tl ty tr)) >>= fun v =>
        pure (v, left_rotate.moved p) := by
  unfold AVLTree._F_adjust.visit
  simp only []
  rw [if_neg (by omega), if_pos (by omega)]


/-- C18. One step of the rebalance walk at a node whose two subtrees are
balanced.  When their heights differ by exactly two, the step returns a subtree
for the position of the node that is balanced at every node, has the same
in-order sequence, and is as high as the old one or one level lower; it is the
rotation of the node away from the taller child, after a rotation of that child
the other way exactly when its inner subtree is strictly taller than its outer
one.  When the heights differ by at most one the step changes nothing. -/
theorem visit_restores_balance (l : TreeNode α) (x : α) (r : TreeNode α) (p : Path)
    (hl : Balanced l) (hr : Balanced r) :
    ((depth l = depth r + 2 ∨ depth r = depth l + 2) →
      ∃ v q, AVLTree._F_adjust.visit (.node l x r) p = .ok (v, q) ∧ Balanced v ∧
        v.inorder = (TreeNode.node l x r).inorder ∧
        (depth v = depth (.node l x r) ∨ depth v + 1 = depth (.node l x r))) ∧
    (depth l = depth r + 2 → ∀ tl ty tr, l = .node tl ty tr →
      AVLTree._F_adjust.visit (.node l x r) p =
        if depth tl < depth tr then
          left_rotate l >>= fun temp =>
          right_rotate (.node temp x r) >>= fun v =>
          pure (v, right_rotate.moved (moved_below Dir.L left_rotate.moved p))
        else
          right_rotate (.node l x r) >>= fun v => pure (v, right_rotate.moved p)) ∧
    (depth r = depth l + 2 → ∀ tl ty tr, r = .node tl ty tr →
      AVLTree._F_adjust.visit (.node l x r) p =
        if depth tr < depth tl then
          right_rotate r >>= fun temp =>
          left_rotate (.node l x temp) >>= fun v =>
          pure (v, left_rotate.moved (moved_below Dir.R right_rotate.moved p))
        else
          left_rotate (.node l x r) >>= fun v => pure (v, left_rotate.moved p)) ∧
    (depth l ≤ depth r + 1 → depth r ≤ depth l + 1 →
      AVLTree._F_adjust.visit (.node l x r) p = .ok (.node l x r, p)) := by
  refine ⟨fun h => ?_, ?_, ?_, visit_unchanged l x r p⟩
  · obtain ⟨v, q, e, hb, d1, d2, _⟩ :=
      visit_balanced l x r p hl hr (by omega) (by omega)
    obtain ⟨v2, q2, e2, hi, _⟩ := visit_total l x r p
    rw [e] at e2
    simp only [Except.ok.injEq, Prod.mk.injEq] at e2
    obtain ⟨rfl, rfl⟩ := e2
    refine ⟨v, q, e, hb, hi, ?_⟩
    simp only [depth]
    omega
  · intro h tl ty tr e
    subst e
    exact visit_left_heavy tl ty tr x r p (by omega)
  · intro h tl ty tr e
    subst e
    exact visit_right_heavy l x tl ty tr p (by omega)

theorem visit_restores_balance_witness :
    (Balanced (TreeNode.node (.node .absent 1 .absent) (2 : Int)
        (.node (.node .absent 3 .absent) 4 .absent)) ∧
      Balanced (TreeNode.node .absent (6 : Int) .absent)) ∧
    ∃ v q, AVLTree._F_adjust.visit leftRightCase [] = .ok (v, q) ∧ Balanced v ∧
      v.inorder = leftRightCase.inorder ∧
      (depth v = depth leftRightCase ∨ depth v + 1 = depth leftRightCase) :=
  ⟨by decide,
   (visit_restores_balance (.node (.node .absent 1 .absent) (2 : Int)
      (.node (.node .absent 3 .absent) 4 .absent)) 5 (.node .absent 6 .absent) []
      (by decide) (by decide)).1 (Or.inl (by decide))⟩

/-- C19. Rotations.  For a node `x` with right child `y`, `left_rotate(x)` puts
`y` where `x` was, makes `x` the left child of `y` and the former left subtree of
`y` the right subtree of `x`; the in-order traversal of the whole tree around
the position does not change; `right_rotate` is the mirror image for a node with
a left child; and `right_rotate` of the result of `left_rotate` gives the
original subtree back.  Without the child the rotation is an `InvalidRotation`. -/
theorem rotation_keeps_order (a b c : TreeNode α) (x y : α) (up : List (Step α)) :
    left_rotate (.node a x (.node b y c)) = .ok (.node (.node a x b) y c) ∧
    (rebuild (.node (.node a x b) y c) up).inorder
      = (rebuild (.node a x (.node b y c)) up).inorder ∧
    right_rotate (.node (.node a y b) x c) = .ok (.node a y (.node b x c)) ∧
    (rebuild (.node a y (.node b x c)) up).inorder
      = (rebuild (.node (.node a y b) x c) up).inorder ∧
    (left_rotate (.node a x (.node b y c)) >>= right_rotate)
      = .ok (.node a x (.node b y c)) ∧
    (right_rotate (.node (.node a y b) x c) >>= left_rotate)
      = .ok (.node (.node a y b) x c) ∧
    left_rotate (.node a x .absent) = .error Fault.InvalidRotation ∧
    right_rotate (.node .absent x c) = .error Fault.InvalidRotation := by
  refine ⟨rfl, ?_, rfl, ?_, rfl, rfl, rfl, rfl⟩
  · simp [inorder_rebuild, TreeNode.inorder]
  · simp [inorder_rebuild, TreeNode.inorder]

/-- C20. The rebalance walk never meets `InvalidRotation`: from every start
node of every tree `_F_adjust` returns a tree; where an iteration rotates the
visited node to the right its left child is present, and where it first rotates
that child to the left the right child of the child is present; likewise for
the mirrored rotations. -/
theorem walk_never_invalid (t : BinaryTree α) (node : Option (Loc α)) :
    (∃ res, AVLTree._F_adjust t node = .ok res) ∧
    (∀ (l : TreeNode α) (x : α) (r : TreeNode α) (p : Path),
      ∃ v, AVLTree._F_adjust.visit (.node l x r) p = .ok v) ∧
    (∀ l r : TreeNode α, depth l > depth r ∧ depth l - depth r > 1 →
      ∃ tl ty tr, l = .node tl ty tr ∧
        (depth tl < depth tr → ∃ a z b, tr = .node a z b)) ∧
    (∀ l r : TreeNode α, depth r > depth l ∧ depth r - depth l > 1 →
      ∃ tl ty tr, r = .node tl ty tr ∧
        (depth tr < depth tl → ∃ a z b, tl = .node a z b)) := by
  refine ⟨?_, ?_, ?_, ?_⟩
  · cases node with
    | none => exact ⟨(t, []), rfl⟩
    | some n =>
      obtain ⟨root, q, e, _⟩ := adjust_some t n
      exact ⟨_, e⟩
  · intro l x r p
    obtain ⟨v, q, e, _⟩ := visit_total l x r p
    exact ⟨(v, q), e⟩
  · intro l r h
    cases l with
    | absent => simp [depth] at h
    | node tl ty tr =>
      refine ⟨tl, ty, tr, rfl, fun h2 => ?_⟩
      cases tr with
      | absent => simp [depth] at h2
      | node a z b => exact ⟨a, z, b, rfl⟩
  · intro l r h
    cases r with
    | absent => simp [depth] at h
    | node tl ty tr =>
      refine ⟨tl, ty, tr, rfl, fun h2 => ?_⟩
      cases tl with
      | absent => simp [depth] at h2
      | node a z b => exact ⟨a, z, b, rfl⟩


/-! ## Iterators returned by insert -/

theorem payload_at_tree_node (sub : TreeNode α) :
    ∀ (p : iterator) (up : List (Step α)),
      payload_at sub p = (tree_node sub p up).map Loc.data := by
  induction sub with
  | absent => intro p up; rfl
  | node l x r ihl ihr =>
    intro p up
    cases p with
    | nil => rfl
    | cons d p =>
      cases d with
      | L => exact ihl p _
      | R => exact ihr p _

theorem payload_at_rebuild (up : List (Step α)) :
    ∀ (sub : TreeNode α) (p : Path),
      payload_at (rebuild sub up) (path_of up ++ p) = payload_at sub p := by
  induction up with
  | nil => intro sub p; rfl
  | cons s up ih =>
    intro sub p
    simp only [rebuild, path_of, List.append_assoc, ih]
    cases s <;> rfl

theorem tree_node_rebuild (sub : TreeNode α) :
    ∀ (p : iterator) (up : List (Step α)) (n : Loc α),
      tree_node sub p up = some n → n.rebuild = rebuild sub up := by
  induction sub with
  | absent => intro p up n h; simp [tree_node] at h
  | node l x r ihl ihr =>
    intro p up n h
    cases p with
    | nil =>
      simp only [tree_node, Option.some.injEq] at h
      subst h
      rfl
    | cons d p =>
      cases d with
      | L => exact ihl p _ n h
      | R => exact ihr p _ n h

theorem left_rotate_moved (a b c : TreeNode α) (x y : α) (p : Path) :
    payload_at (.node (.node a x b) y c) (left_rotate.moved p) =
      payload_at (.node a x (.node b y c)) p := by
  match p with
  | [] => rfl
  | [Dir.R] => rfl
  | Dir.R :: Dir.L :: _ => rfl
  | Dir.R :: Dir.R :: _ => rfl
  | Dir.L :: _ => rfl

theorem right_rotate_moved (a b c : TreeNode α) (x y : α) (p : Path) :
    payload_at (.node a y (.node b x c)) (right_rotate.moved p) =
      payload_at (.node (.node a y b) x c) p := by
  match p with
  | [] => rfl
  | [Dir.L] => rfl
  | Dir.L :: Dir.R :: _ => rfl
  | Dir.L :: Dir.L :: _ => rfl
  | Dir.R :: _ => rfl

/-- One iteration of the walk keeps track of a node: the payload found under
the returned path in the returned subtree is the payload that was under the
given path before. -/
theorem visit_track (l : TreeNode α) (x : α) (r : TreeNode α) (p : Path)
    (v : TreeNode α) (q : Path)
    (h : AVLTree._F_adjust.visit (.node l x r) p = .ok (v, q)) :
    payload_at v q = payload_at (.node l x r) p := by
  by_cases c1 : depth l > depth r + 1
  · cases l with
    | absent => simp [depth] at c1
    | node tl ty tr =>
      rw [visit_left_heavy tl ty tr x r p c1] at h
      by_cases c3 : depth tl < depth tr
      · rw [if_pos c3] at h
        cases tr with
        | absent => simp [depth] at c3
        | node a z b =>
          simp only [left_rotate, right_rotate, bind, Except.bind, pure, Except.pure,
            Except.ok.injEq, Prod.mk.injEq] at h
          obtain ⟨rfl, rfl⟩ := h
          rw [right_rotate_moved]
          match p with
          | [] => rfl
          | Dir.R :: _ => rfl
          | Dir.L :: p2 =>
            show payload_at (.node (.node tl ty a) z b) (left_rotate.moved p2) = _
            rw [left_rotate_moved]
            rfl
      · rw [if_neg c3] at h
        simp only [right_rotate, bind, Except.bind, pure, Except.pure,
          Except.ok.injEq, Prod.mk.injEq] at h
        obtain ⟨rfl, rfl⟩ := h
        exact right_rotate_moved _ _ _ _ _ _
  · by_cases c2 : depth r > depth l + 1
    · cases r with
      | absent => simp [depth] at c2
      | node tl ty tr =>
        rw [visit_right_heavy l x tl ty tr p c2] at h
        by_cases c3 : depth tr < depth tl
        · rw [if_pos c3] at h
          cases tl with
          | absent => simp [depth] at c3
          | node a z b =>
            simp only [left_rotate, right_rotate, bind, Except.bind, pure, Except.pure,
              Except.ok.injEq, Prod.mk.injEq] at h
            obtain ⟨rfl, rfl⟩ := h
            rw [left_rotate_moved]
            match p with
            | [] => rfl
            | Dir.L :: _ => rfl
            | Dir.R :: p2 =>
              show payload_at (.node a z (.node b ty tr)) (right_rotate.moved p2) = _
              rw [right_rotate_moved]
              rfl
        · rw [if_neg c3] at h
          simp only [left_rotate, bind, Except.bind, pure, Except.pure,
            Except.ok.injEq, Prod.mk.injEq] at h
          obtain ⟨rfl, rfl⟩ := h
          exact left_rotate_moved _ _ _ _ _ _
    · rw [visit_unchanged l x r p (by omega) (by omega)] at h
      simp only [Except.ok.injEq, Prod.mk.injEq] at h
      obtain ⟨rfl, rfl⟩ := h
      rfl

/-- The whole walk keeps track of a node. -/
theorem loop_track (up : List (Step α)) :
    ∀ (l : TreeNode α) (x : α) (r : TreeNode α) (p : Path) (root : TreeNode α) (q : Path),
      AVLTree._F_adjust.loop (.node l x r) p up = .ok (root, q) →
      payload_at root q = payload_at (.node l x r) p := by
  induction up with
  | nil =>
    intro l x r p root q h
    exact visit_track l x r p root q h
  | cons s up ih =>
    intro l x r p root q h
    obtain ⟨v, q1, e, _⟩ := visit_total l x r p
    simp only [AVLTree._F_adjust.loop, e] at h
    have h2 : AVLTree._F_adjust.loop (s.attach v) (s.dir :: q1) up = .ok (root, q) := h
    have t1 := visit_track l x r p v q1 e
    cases s with
    | left sx sr =>
      rw [ih v sx sr (Dir.L :: q1) root q h2, ← t1]
      rfl
    | right sl sx =>
      rw [ih sl sx v (Dir.R :: q1) root q h2, ← t1]
      rfl

/-- The iterator returned by the descent of `_F_insert` refers to a node whose
payload is the inserted value. -/
theorem insert_loop_handle [LinearOrder α] (t : BinaryTree α) (k : α) (sub : TreeNode α) :
    ∀ (up : List (Step α)) (res : BinaryTree α × iterator),
      AVLTree._F_insert.loop t k sub up = .ok res →
      payload_at res.1.root res.2 = some k := by
  induction sub with
  | absent => intro up res h; simp [AVLTree._F_insert.loop, AVLTree._F_insert_by.loop] at h
  | node l x r ihl ihr =>
    intro up res h
    rw [insert_loop_node] at h
    have leaf : ∀ ctx : List (Step α), ∀ t2 : BinaryTree α,
        AVLTree._F_adjust t2 (some ⟨.absent, k, .absent, ctx⟩) = .ok res →
        payload_at res.1.root res.2 = some k := by
      intro ctx t2 h2
      obtain ⟨root, q, e1, e2⟩ := adjust_some t2 ⟨.absent, k, .absent, ctx⟩
      rw [e1] at h2
      cases h2
      exact loop_track ctx .absent k .absent [] root q e2
    by_cases c0 : Compare k x = 0
    · rw [if_pos c0] at h
      cases h
      have := payload_at_rebuild up (.node l k r) []
      simpa using this
    · rw [if_neg c0] at h
      by_cases c1 : Compare k x > 0
      · rw [if_pos c1] at h
        cases l with
        | absent => exact leaf _ _ h
        | node a y b => exact ihl (Step.left x r :: up) res h
      · rw [if_neg c1] at h
        cases r with
        | absent => exact leaf _ _ h
        | node a y b => exact ihr (Step.right l x :: up) res h

/-- The iterator returned by `_F_insert` refers to a node of the resulting tree
whose payload is the inserted value. -/
theorem insert_handle [LinearOrder α] (t : BinaryTree α) (k : α)
    (res : BinaryTree α × iterator) (h : AVLTree._F_insert t k = .ok res) :
    ∃ n, tree_node res.1.root res.2 [] = some n ∧ n.data = k := by
  have hp : payload_at res.1.root res.2 = some k := by
    rw [insert_unfold] at h
    by_cases he : AVLTree.empty t = true
    · rw [if_pos he] at h
      cases h
      rfl
    · rw [if_neg he] at h
      exact insert_loop_handle t k t.root [] res h
  rw [payload_at_tree_node res.1.root res.2 []] at hp
  cases hn : tree_node res.1.root res.2 [] with
  | none => rw [hn] at hp; cases hp
  | some n =>
    rw [hn] at hp
    simp only [Option.map_some', Option.some.injEq] at hp
    exact ⟨n, rfl, hp⟩


/-- The descent of `_F_insert` for a key that is in the ordered subtree below
`node` ends at the node that holds it, overwrites the payload there and returns
the iterator of that node; nothing else changes. -/
theorem insert_loop_present [LinearOrder α] (t : BinaryTree α) (k : α) (sub : TreeNode α) :
    Ordered sub → k ∈ sub.inorder →
      ∀ up : List (Step α), ∃ l r steps,
        tree_node sub (path_of steps) up = some ⟨l, k, r, steps ++ up⟩ ∧
        rebuild (.node l k r) (steps ++ up) = rebuild sub up ∧
        AVLTree._F_insert.loop t k sub up =
          .ok ({ t with root := rebuild (.node l k r) (steps ++ up) },
            path_of (steps ++ up)) := by
  induction sub with
  | absent => intro _ h; simp [TreeNode.inorder] at h
  | node l x r ihl ihr =>
    intro ho hm up
    obtain ⟨o1, o2, o3, o4⟩ := ho
    rw [insert_loop_node]
    by_cases c0 : Compare k x = 0
    · have hk : k = x := (Compare_eq_zero k x).1 c0
      subst hk
      rw [if_pos c0]
      exact ⟨l, r, [], rfl, rfl, rfl⟩
    · rw [if_neg c0]
      have hne : k ≠ x := fun e => c0 ((Compare_eq_zero k x).2 e)
      by_cases c1 : Compare k x > 0
      · have hlt : k < x := (Compare_pos k x).1 c1
        rw [if_pos c1]
        have hml : k ∈ l.inorder := (mem_left_part k x _ _ hlt o4).1 hm
        cases l with
        | absent => simp [TreeNode.inorder] at hml
        | node a y b =>
          obtain ⟨l2, r2, steps, h1, h2, h3⟩ := ihl o1 hml (Step.left x r :: up)
          refine ⟨l2, r2, steps ++ [Step.left x r], ?_, ?_, ?_⟩
          · rw [path_of_append]
            simpa [path_of, Step.dir, tree_node] using h1
          · simpa [rebuild, Step.attach] using h2
          · simpa using h3
      · rw [if_neg c1]
        have hgt : x < k := by
          rcases lt_trichotomy k x with h | h | h
          · exact absurd ((Compare_pos k x).2 h) c1
          · exact absurd h hne
          · exact h
        have hmr : k ∈ r.inorder := (mem_right_part k x _ _ hgt o3).1 hm
        cases r with
        | absent => simp [TreeNode.inorder] at hmr
        | node a y b =>
          obtain ⟨l2, r2, steps, h1, h2, h3⟩ := ihr o2 hmr (Step.right l x :: up)
          refine ⟨l2, r2, steps ++ [Step.right l x], ?_, ?_, ?_⟩
          · rw [path_of_append]
            simpa [path_of, Step.dir, tree_node] using h1
          · simpa [rebuild, Step.attach] using h2
          · simpa using h3

/-- What `_F_insert` does for a value whose key is in the tree. -/
theorem insert_present_spec [LinearOrder α] (t : BinaryTree α) (v : α) (hc : Counted t)
    (ho : Ordered t.root) (hm : v ∈ t.root.inorder) :
    ∃ it l r up, tree_node t.root it [] = some ⟨l, v, r, up⟩ ∧
      rebuild (.node l v r) up = t.root ∧
      AVLTree._F_insert t v = .ok ({ root := rebuild (.node l v r) up, count := t.count }, it) := by
  obtain ⟨l, r, steps, h1, h2, h3⟩ := insert_loop_present t v t.root ho hm []
  simp only [List.append_nil] at h1 h2 h3
  refine ⟨path_of steps, l, r, steps, h1, h2, ?_⟩
  have hpos : 0 < t.root.nodes := by
    rw [← length_inorder]; exact List.length_pos_of_mem hm
  have he : ¬ (AVLTree.empty t = true) := by
    unfold Counted at hc
    simp only [AVLTree.empty, AVLTree.size, BinaryTree.size, beq_iff_eq]
    omega
  rw [insert_unfold, if_neg he, h3]

/-- C15. The iterator returned by `insert(v)` on an ordered tree with the right
stored count refers to the node of the resulting tree whose payload is `v`, of
which there is one: the new root when the tree was empty; the overwritten node,
in the unchanged tree, when the key was there; and otherwise the node that was
attached as a leaf, in a tree with one node more, wherever the rotations of the
rebalance walk have moved it. -/
theorem insert_returns_handle [LinearOrder α] (t : BinaryTree α) (v : α) (hc : Counted t)
    (ho : Ordered t.root) :
    ∃ res n, AVLTree.insert t v = .ok res ∧
      tree_node res.1.root res.2 [] = some n ∧ n.data = v ∧ n.rebuild = res.1.root ∧
      res.1.root.inorder.count v = 1 ∧
      (t.root = .absent → res.2 = [] ∧ res.1.root = .node .absent v .absent) ∧
      (v ∈ t.root.inorder →
        res.1.root = t.root ∧ ∃ m, tree_node t.root res.2 [] = some m ∧ m.data = v) ∧
      (v ∉ t.root.inorder → res.1.root.nodes = t.root.nodes + 1) := by
  obtain ⟨res, e, c, _, i, n⟩ := insert_spec t v hc
  obtain ⟨nd, h1, h2⟩ := insert_handle t v res e
  have hp : res.1.root.inorder.Pairwise (· < ·) := by
    rw [i ho]; exact pairwise_put v _ ((ordered_iff _).1 ho)
  have hm : v ∈ res.1.root.inorder := by
    rw [i ho, mem_put]; exact Or.inl rfl
  refine ⟨res, nd, e, h1, h2, tree_node_rebuild _ _ _ _ h1,
    List.count_eq_one_of_mem (nodup_of_pairwise_lt _ hp) hm, ?_, ?_, ?_⟩
  · intro hr
    have h0 : t.count = 0 := by rw [hc, hr]; rfl
    have he : AVLTree.empty t = true := by
      simp [AVLTree.empty, AVLTree.size, BinaryTree.size, h0]
    have e2 : AVLTree._F_insert t v = .ok res := e
    rw [insert_unfold, if_pos he] at e2
    cases e2
    exact ⟨rfl, rfl⟩
  · intro hv
    obtain ⟨it, l, r, up, g1, g2, g3⟩ := insert_present_spec t v hc ho hv
    have e2 : AVLTree._F_insert t v = .ok res := e
    rw [g3] at e2
    cases e2
    exact ⟨g2, ⟨l, v, r, up⟩, g1, rfl⟩
  · intro hv
    have hn := n ho
    rw [if_neg hv] at hn
    unfold Counted at hc c
    omega

theorem insert_returns_handle_witness :
    (Counted (built keys12) ∧ Ordered (built keys12).root) ∧
    ∃ res n, AVLTree.insert (built keys12) 41 = .ok res ∧
      tree_node res.1.root res.2 [] = some n ∧ n.data = 41 ∧ n.rebuild = res.1.root ∧
      res.1.root.inorder.count 41 = 1 ∧
      ((built keys12).root = .absent → res.2 = [] ∧ res.1.root = .node .absent 41 .absent) ∧
      ((41 : Int) ∈ (built keys12).root.inorder →
        res.1.root = (built keys12).root ∧
        ∃ m, tree_node (built keys12).root res.2 [] = some m ∧ m.data = 41) ∧
      ((41 : Int) ∉ (built keys12).root.inorder →
        res.1.root.nodes = (built keys12).root.nodes + 1) :=
  ⟨by decide, insert_returns_handle (built keys12) 41 (by decide) (by decide)⟩


/-! ## Reachable states -/

/-- `erase(iterator)` at a node of a counted, ordered, balanced tree returns a
tree that is counted, ordered and balanced again. -/
theorem erase_at_valid [LinearOrder α] (t : BinaryTree α) (it : iterator)
    (res : BinaryTree α) (hc : Counted t) (ho : Ordered t.root) (hb : Balanced t.root)
    (h : AVLTree.erase_at t it = .ok res) :
    Counted res ∧ Ordered res.root ∧ Balanced res.root := by
  unfold AVLTree.erase_at at h
  cases hn : tree_node t.root it [] with
  | none => rw [hn] at h; cases h
  | some n =>
    rw [hn] at h
    simp only [] at h
    have hroot : n.rebuild = t.root := tree_node_rebuild _ _ _ _ hn
    obtain ⟨res2, e, i1, i2, i3, i4⟩ := erase_at_spec t n
    rw [e] at h
    cases h
    refine ⟨?_, ?_, i4 (hroot ▸ hb)⟩
    · unfold Counted at hc ⊢
      rw [hroot] at i2
      omega
    · have hin : t.root.inorder =
          before n.up ++ ((n.left.inorder ++ n.data :: n.right.inorder) ++ after n.up) := by
        rw [← hroot]
        simp [Loc.rebuild, Loc.sub, inorder_rebuild, TreeNode.inorder]
      have hp : t.root.inorder.Pairwise (· < ·) := (ordered_iff _).1 ho
      rw [ordered_iff, i1]
      rw [hin] at hp
      refine hp.sublist ?_
      refine List.Sublist.append (List.Sublist.refl _) (List.Sublist.append ?_ (List.Sublist.refl _))
      exact List.Sublist.append (List.Sublist.refl _) (List.sublist_cons_self _ _)

/-- Every call of the public interface that returns keeps a tree counted,
ordered and balanced. -/
theorem run_valid [LinearOrder α] (ops : List (Op α)) :
    ∀ (t res : BinaryTree α), Counted t → Ordered t.root → Balanced t.root →
      run t ops = .ok res → Counted res ∧ Ordered res.root ∧ Balanced res.root := by
  induction ops with
  | nil =>
    intro t res hc ho hb h
    cases h
    exact ⟨hc, ho, hb⟩
  | cons op ops ih =>
    intro t res hc ho hb h
    simp only [run] at h
    cases hop : op.apply t with
    | error e => rw [hop] at h; cases h
    | ok t2 =>
      rw [hop] at h
      have h2 : run t2 ops = .ok res := h
      have hv : Counted t2 ∧ Ordered t2.root ∧ Balanced t2.root := by
        cases op with
        | insert arg =>
          obtain ⟨r, e, c, b, i, _⟩ := insert_spec t arg hc
          simp only [Op.apply, AVLTree.insert, e] at hop
          cases hop
          refine ⟨c, ?_, b hb⟩
          rw [ordered_iff, i ho]
          exact pairwise_put arg _ ((ordered_iff _).1 ho)
        | erase arg =>
          by_cases hm : arg ∈ t.root.inorder
          · obtain ⟨r, e, c, b, _, _, o, _⟩ := erase_key_spec t arg hc ho hm
            simp only [Op.apply, e] at hop
            cases hop
            exact ⟨c, o, b hb⟩
          · have hf : AVLTree.find t arg = .error Fault.NullDereference :=
              find_loop_missing arg t.root hm
            simp only [Op.apply, AVLTree.erase, hf] at hop
            cases hop
        | erase_at it => exact erase_at_valid t it t2 hc ho hb hop
      exact ih t2 res hv.1 hv.2.1 hv.2.2 h2

theorem reachable_valid [LinearOrder α] (t : BinaryTree α) (h : Reachable t) :
    Counted t ∧ Ordered t.root ∧ Balanced t.root := by
  obtain ⟨ops, e⟩ := h
  exact run_valid ops AVLTree.new t rfl trivial trivial e

/-- A balanced tree of height `h` has at least `fib (h + 2) - 1` nodes. -/
theorem fib_le_nodes (t : TreeNode α) (hb : Balanced t) :
    Nat.fib (depth t + 2) ≤ t.nodes + 1 := by
  induction t with
  | absent => simp [depth, TreeNode.nodes]
  | node l x r ihl ihr =>
    obtain ⟨b1, b2, b3, b4⟩ := hb
    have h1 := ihl b1
    have h2 := ihr b2
    simp only [depth, TreeNode.nodes]
    by_cases c : depth l ≤ depth r
    · have e : 1 + max (depth l) (depth r) + 2 = depth r + 1 + 2 := by omega
      have key : Nat.fib (depth r + 1 + 2) = Nat.fib (depth r + 1) + Nat.fib (depth r + 2) :=
        Nat.fib_add_two
      rw [e, key]
      have m : Nat.fib (depth r + 1) ≤ Nat.fib (depth l + 2) := Nat.fib_mono (by omega)
      omega
    · have e : 1 + max (depth l) (depth r) + 2 = depth l + 1 + 2 := by omega
      have key : Nat.fib (depth l + 1 + 2) = Nat.fib (depth l + 1) + Nat.fib (depth l + 2) :=
        Nat.fib_add_two
      rw [e, key]
      have m : Nat.fib (depth l + 1) ≤ Nat.fib (depth r + 2) := Nat.fib_mono (by omega)
      omega

/-- C12. Size consistency.  In every state reachable from the empty tree by
insert and erase calls, `size()` is the number of payloads of the in-order
traversal; `insert` returns, raises `size()` by exactly one for a key that is
not in the tree and leaves it as it is for a key that is, and `size()` is again
the number of payloads of the in-order traversal. -/
theorem size_is_count [LinearOrder α] (t : BinaryTree α) (k : α) (h : Reachable t) :
    AVLTree.size t = t.root.inorder.length ∧
    AVLTree.size t = (middle_order t.root).length ∧
    ∃ res, AVLTree.insert t k = .ok res ∧
      AVLTree.size res.1 = (if k ∈ t.root.inorder then AVLTree.size t
        else AVLTree.size t + 1) ∧
      AVLTree.size res.1 = res.1.root.inorder.length := by
  obtain ⟨hc, ho, _⟩ := reachable_valid t h
  have hlen : ∀ s : TreeNode α, (middle_order s).length = s.nodes := by
    intro s
    induction s with
    | absent => rfl
    | node l x r ihl ihr =>
      simp only [middle_order, List.length_append, List.length_map, List.length_cons, ihl, ihr,
        TreeNode.nodes]
      omega
  obtain ⟨res, e, c, _, _, n⟩ := insert_spec t k hc
  refine ⟨?_, ?_, res, e, n ho, ?_⟩
  · rw [length_inorder]; exact hc
  · rw [hlen]; exact hc
  · rw [length_inorder]; exact c

theorem size_is_count_witness :
    Reachable (erased (built keys24) [100, 48]) ∧
    (AVLTree.size (erased (built keys24) [100, 48])
        = (erased (built keys24) [100, 48]).root.inorder.length ∧
    AVLTree.size (erased (built keys24) [100, 48])
        = (middle_order (erased (built keys24) [100, 48]).root).length ∧
    ∃ res, AVLTree.insert (erased (built keys24) [100, 48]) 41 = .ok res ∧
      AVLTree.size res.1 = (if (41 : Int) ∈ (erased (built keys24) [100, 48]).root.inorder
        then AVLTree.size (erased (built keys24) [100, 48])
        else AVLTree.size (erased (built keys24) [100, 48]) + 1) ∧
      AVLTree.size res.1 = res.1.root.inorder.length) :=
  ⟨⟨keys24.map Op.insert ++ [Op.erase 100, Op.erase 48], by decide⟩,
   size_is_count (erased (built keys24) [100, 48]) 41
    ⟨keys24.map Op.insert ++ [Op.erase 100, Op.erase 48], by decide⟩⟩

/-- C14. Logarithmic height.  In every state reachable from the empty tree by
insert and erase calls, with `h = depth()` and `n = size()`, `n` is at least
`fib (h + 2) - 1`; and after the twelve keys of the test are inserted one at a
time into an empty tree, `depth()` is at most 6. -/
theorem height_is_logarithmic [LinearOrder α] (t : BinaryTree α) (h : Reachable t) :
    Nat.fib (AVLTree.depth t + 2) - 1 ≤ AVLTree.size t ∧
    ∃ t12, AVLTree.insert_each AVLTree.new keys12 = .ok t12 ∧ AVLTree.depth t12 ≤ 6 := by
  obtain ⟨hc, _, hb⟩ := reachable_valid t h
  constructor
  · have := fib_le_nodes t.root hb
    unfold Counted at hc
    simp only [AVLTree.depth, AVLTree.size, BinaryTree.size]
    omega
  · exact ⟨_, rfl, by decide⟩

theorem height_is_logarithmic_witness :
    Reachable (erased (built keys24) [100, 48]) ∧
    (Nat.fib (AVLTree.depth (erased (built keys24) [100, 48]) + 2) - 1
        ≤ AVLTree.size (erased (built keys24) [100, 48]) ∧
    ∃ t12, AVLTree.insert_each AVLTree.new keys12 = .ok t12 ∧ AVLTree.depth t12 ≤ 6) :=
  ⟨⟨keys24.map Op.insert ++ [Op.erase 100, Op.erase 48], by decide⟩,
   height_is_logarithmic (erased (built keys24) [100, 48])
    ⟨keys24.map Op.insert ++ [Op.erase 100, Op.erase 48], by decide⟩⟩


/-! ## Traversals -/

theorem payloads_left (l : TreeNode α) (x : α) (r : TreeNode α) (A : List iterator) :
    payloads (.node l x r) (A.map (fun p => Dir.L :: p)) = payloads l A := by
  induction A with
  | nil => rfl
  | cons p A ih =>
    simp only [payloads, List.map_cons, List.filterMap_cons] at ih ⊢
    rw [ih]
    rfl

theorem payloads_right (l : TreeNode α) (x : α) (r : TreeNode α) (A : List iterator) :
    payloads (.node l x r) (A.map (fun p => Dir.R :: p)) = payloads r A := by
  induction A with
  | nil => rfl
  | cons p A ih =>
    simp only [payloads, List.map_cons, List.filterMap_cons] at ih ⊢
    rw [ih]
    rfl

theorem payloads_append (t : TreeNode α) (A B : List iterator) :
    payloads t (A ++ B) = payloads t A ++ payloads t B := by
  simp [payloads, List.filterMap_append]

theorem payloads_root (l : TreeNode α) (x : α) (r : TreeNode α) (A : List iterator) :
    payloads (.node l x r) ([] :: A) = x :: payloads (.node l x r) A := by
  simp [payloads, List.filterMap_cons, payload_at]

theorem payloads_former (t : TreeNode α) : payloads t (former_order t) = t.preorder := by
  induction t with
  | absent => rfl
  | node l x r ihl ihr =>
    rw [former_order, payloads_root, payloads_append, payloads_left, payloads_right, ihl, ihr]
    rfl

theorem payloads_middle (t : TreeNode α) : payloads t (middle_order t) = t.inorder := by
  induction t with
  | absent => rfl
  | node l x r ihl ihr =>
    rw [middle_order, payloads_append, payloads_root, payloads_left, payloads_right, ihl, ihr]
    rfl

theorem payloads_after (t : TreeNode α) : payloads t (after_order t) = t.postorder := by
  induction t with
  | absent => rfl
  | node l x r ihl ihr =>
    rw [after_order, payloads_append, payloads_append, payloads_left, payloads_right,
      payloads_root, ihl, ihr]
    rfl

theorem middle_perm_former (t : TreeNode α) : (middle_order t).Perm (former_order t) := by
  induction t with
  | absent => exact List.Perm.refl _
  | node l x r ihl ihr =>
    simp only [middle_order, former_order]
    refine List.perm_middle.trans (List.Perm.cons _ ?_)
    exact List.Perm.append (ihl.map _) (ihr.map _)

theorem after_perm_former (t : TreeNode α) : (after_order t).Perm (former_order t) := by
  induction t with
  | absent => exact List.Perm.refl _
  | node l x r ihl ihr =>
    simp only [after_order, former_order]
    rw [← List.append_assoc]
    refine (List.perm_append_comm).trans ?_
    simp only [List.singleton_append]
    exact List.Perm.cons _ (List.Perm.append (ihl.map _) (ihr.map _))

theorem mem_former_iff (t : TreeNode α) :
    ∀ p : iterator, p ∈ former_order t ↔ (payload_at t p).isSome = true := by
  induction t with
  | absent => intro p; simp [former_order, payload_at]
  | node l x r ihl ihr =>
    intro p
    cases p with
    | nil => simp [former_order, payload_at]
    | cons d q =>
      cases d with
      | L => simp [former_order, payload_at, ihl q]
      | R => simp [former_order, payload_at, ihr q]

theorem nodup_former (t : TreeNode α) : (former_order t).Nodup := by
  induction t with
  | absent => exact List.nodup_nil
  | node l x r ihl ihr =>
    simp only [former_order]
    rw [List.nodup_cons]
    constructor
    · simp
    · rw [List.nodup_append]
      refine ⟨ihl.map (fun a b h => by injection h), ihr.map (fun a b h => by injection h), ?_⟩
      intro p h1 h2
      simp only [List.mem_map] at h1 h2
      obtain ⟨a, _, rfl⟩ := h1
      obtain ⟨b, _, hb⟩ := h2
      cases hb

theorem length_former (t : TreeNode α) : (former_order t).length = t.nodes := by
  induction t with
  | absent => rfl
  | node l x r ihl ihr =>
    simp only [former_order, List.length_cons, List.length_append, List.length_map, ihl, ihr,
      TreeNode.nodes]
    omega

/-- C13. Traversal completeness.  On an ordered tree with the right stored
count, each of the pre-order, in-order and post-order traversals visits every
node of the tree and no node twice, so each has `size()` elements; the three
visit the same nodes and yield the same payloads up to their order; the
in-order payloads are strictly increasing; pre-order is node, left subtree,
right subtree and post-order is left subtree, right subtree, node. -/
theorem traversals_complete [LinearOrder α] (t : BinaryTree α) (hc : Counted t)
    (ho : Ordered t.root) :
    ((former_order t.root).Nodup ∧ (middle_order t.root).Nodup ∧
      (after_order t.root).Nodup) ∧
    (∀ it : iterator,
      (it ∈ former_order t.root ↔ (tree_node t.root it []).isSome = true) ∧
      (it ∈ middle_order t.root ↔ (tree_node t.root it []).isSome = true) ∧
      (it ∈ after_order t.root ↔ (tree_node t.root it []).isSome = true)) ∧
    ((former_order t.root).length = AVLTree.size t ∧
      (middle_order t.root).length = AVLTree.size t ∧
      (after_order t.root).length = AVLTree.size t) ∧
    ((former_order t.root).Perm (middle_order t.root) ∧
      (after_order t.root).Perm (middle_order t.root)) ∧
    (payloads t.root (former_order t.root) = t.root.preorder ∧
      payloads t.root (middle_order t.root) = t.root.inorder ∧
      payloads t.root (after_order t.root) = t.root.postorder) ∧
    (t.root.preorder.Perm t.root.inorder ∧ t.root.postorder.Perm t.root.inorder) ∧
    StrictlyIncreasing t.root.inorder ∧
    (∀ (l : TreeNode α) (x : α) (r : TreeNode α),
      (TreeNode.node l x r).preorder = x :: (l.preorder ++ r.preorder) ∧
      (TreeNode.node l x r).inorder = l.inorder ++ x :: r.inorder ∧
      (TreeNode.node l x r).postorder = l.postorder ++ (r.postorder ++ [x])) := by
  have pm := middle_perm_former t.root
  have pa := after_perm_former t.root
  have hsome : ∀ it : iterator,
      (payload_at t.root it).isSome = (tree_node t.root it []).isSome := by
    intro it
    rw [payload_at_tree_node t.root it []]
    cases tree_node t.root it [] <;> rfl
  refine ⟨⟨nodup_former _, pm.nodup_iff.2 (nodup_former _), pa.nodup_iff.2 (nodup_former _)⟩,
    fun it => ⟨?_, ?_, ?_⟩, ⟨?_, ?_, ?_⟩, ⟨pm.symm, pa.trans pm.symm⟩,
    ⟨payloads_former _, payloads_middle _, payloads_after _⟩, ⟨?_, ?_⟩, ?_,
    fun l x r => ⟨rfl, rfl, rfl⟩⟩
  · rw [mem_former_iff, hsome]
  · rw [pm.mem_iff, mem_former_iff, hsome]
  · rw [pa.mem_iff, mem_former_iff, hsome]
  · rw [length_former]; exact hc.symm
  · rw [pm.length_eq, length_former]; exact hc.symm
  · rw [pa.length_eq, length_former]; exact hc.symm
  · rw [← payloads_former, ← payloads_middle]
    exact (pm.symm).filterMap _
  · rw [← payloads_after, ← payloads_middle]
    exact (pa.trans pm.symm).filterMap _
  · exact (strictlyIncreasing_iff _).2 ((ordered_iff _).1 ho)

theorem traversals_complete_witness :
    (Counted (built keys24) ∧ Ordered (built keys24).root) ∧
    (payloads (built keys24).root (former_order (built keys24).root)
        = (built keys24).root.preorder ∧
      payloads (built keys24).root (middle_order (built keys24).root)
        = (built keys24).root.inorder ∧
      payloads (built keys24).root (after_order (built keys24).root)
        = (built keys24).root.postorder) ∧
    ((former_order (built keys24).root).length = AVLTree.size (built keys24) ∧
      (middle_order (built keys24).root).length = AVLTree.size (built keys24) ∧
      (after_order (built keys24).root).length = AVLTree.size (built keys24)) :=
  ⟨by decide,
   (traversals_complete (built keys24) (by decide) (by decide)).2.2.2.2.1,
   (traversals_complete (built keys24) (by decide) (by decide)).2.2.1⟩


/-! ## Unsigned tests, the comparator, the stack -/

theorem usub_exact (w a b : Nat) (ha : a < 2 ^ w) (h : b ≤ a) : usub w a b = a - b := by
  unfold usub
  have e : a + 2 ^ w - b = (a - b) + 2 ^ w := by omega
  rw [e, Nat.add_mod_right, Nat.mod_eq_of_lt (by omega)]

/-- C26. The imbalance tests of `_F_adjust` on unsigned values of `w` bits are
exact: `left_dep > right_dep && left_dep - right_dep > 1` holds exactly when
`left_dep - right_dep > 1` as integers, and likewise with the two exchanged; the
two tests never hold together; where the first operand of `&&` holds the
unsigned difference is the true difference, so the wrap-around is not seen; and
the tests are the ones the embedding of `_F_adjust` makes on natural numbers. -/
theorem imbalance_tests_exact (w a b : Nat) (ha : a < 2 ^ w) (hb : b < 2 ^ w) :
    (left_heavy w a b = true ↔ (a : Int) - (b : Int) > 1) ∧
    (right_heavy w a b = true ↔ (b : Int) - (a : Int) > 1) ∧
    ¬ (left_heavy w a b = true ∧ right_heavy w a b = true) ∧
    (a > b → usub w a b = a - b) ∧
    (b > a → usub w b a = b - a) ∧
    (left_heavy w a b = true ↔ a > b ∧ a - b > 1) ∧
    (right_heavy w a b = true ↔ b > a ∧ b - a > 1) := by
  have l : left_heavy w a b = true ↔ a > b ∧ a - b > 1 := by
    unfold left_heavy
    simp only [Bool.and_eq_true, decide_eq_true_eq]
    constructor
    · rintro ⟨h1, h2⟩
      rw [usub_exact w a b ha (by omega)] at h2
      exact ⟨h1, h2⟩
    · rintro ⟨h1, h2⟩
      rw [usub_exact w a b ha (by omega)]
      exact ⟨h1, h2⟩
  have r : right_heavy w a b = true ↔ b > a ∧ b - a > 1 := by
    unfold right_heavy
    simp only [Bool.and_eq_true, decide_eq_true_eq]
    constructor
    · rintro ⟨h1, h2⟩
      rw [usub_exact w b a hb (by omega)] at h2
      exact ⟨h1, h2⟩
    · rintro ⟨h1, h2⟩
      rw [usub_exact w b a hb (by omega)]
      exact ⟨h1, h2⟩
  refine ⟨?_, ?_, ?_, fun h => usub_exact w a b ha (by omega),
    fun h => usub_exact w b a hb (by omega), l, r⟩
  · rw [l]; omega
  · rw [r]; omega
  · rw [l, r]; omega

theorem imbalance_tests_exact_witness :
    ((1 : Nat) < 2 ^ 64 ∧ (3 : Nat) < 2 ^ 64) ∧
    ((left_heavy 64 1 3 = true ↔ ((1 : Nat) : Int) - ((3 : Nat) : Int) > 1) ∧
    (right_heavy 64 1 3 = true ↔ ((3 : Nat) : Int) - ((1 : Nat) : Int) > 1) ∧
    ¬ (left_heavy 64 1 3 = true ∧ right_heavy 64 1 3 = true) ∧
    (1 > 3 → usub 64 1 3 = 1 - 3) ∧
    (3 > 1 → usub 64 3 1 = 3 - 1) ∧
    (left_heavy 64 1 3 = true ↔ 1 > 3 ∧ 1 - 3 > 1) ∧
    (right_heavy 64 1 3 = true ↔ 3 > 1 ∧ 3 - 1 > 1)) :=
  ⟨by decide, imbalance_tests_exact 64 1 3 (by decide) (by decide)⟩

theorem Compare_neg [LinearOrder α] (a b : α) : Compare a b < 0 ↔ b < a := by
  unfold Compare
  split_ifs with h1 h2
  · simp [not_lt_of_gt h1]
  · simp [h2]
  · simp [h2]

theorem Compare_cases [LinearOrder α] (a b : α) :
    (a < b ∧ Compare a b = 1) ∨ (b < a ∧ Compare a b = -1) ∨
      (¬ a < b ∧ ¬ b < a ∧ Compare a b = 0) := by
  unfold Compare
  by_cases h1 : a < b
  · exact Or.inl ⟨h1, by rw [if_pos h1]⟩
  · by_cases h2 : b < a
    · exact Or.inr (Or.inl ⟨h2, by rw [if_neg h1, if_pos h2]⟩)
    · exact Or.inr (Or.inr ⟨h1, h2, by rw [if_neg h1, if_neg h2]⟩)

/-- C27. The default comparator is a consistent three-way comparison: for a
linearly ordered type, `Compare(a, b)` is 1 exactly when `a < b`, -1 exactly
when `b < a` and 0 exactly when neither holds; `Compare(a, b) = -Compare(b, a)`;
and the descents of `_F_find` and `_F_insert` take the left child exactly when
the searched key is less than the payload of the node (the result is positive)
and the right child exactly when it is greater. -/
theorem comparator_three_way [LinearOrder α] (a b : α) :
    (Compare a b = 1 ↔ a < b) ∧ (Compare a b = -1 ↔ b < a) ∧
    (Compare a b = 0 ↔ ¬ a < b ∧ ¬ b < a) ∧
    Compare a b = - Compare b a ∧
    (Compare a b > 0 ↔ a < b) ∧
    (∀ l r : TreeNode α,
      (a < b → AVLTree._F_find.loop a (.node l b r) =
        AVLTree._F_find.loop a l >>= fun it => pure (Dir.L :: it)) ∧
      (b < a → AVLTree._F_find.loop a (.node l b r) =
        AVLTree._F_find.loop a r >>= fun it => pure (Dir.R :: it)) ∧
      (¬ a < b → ¬ b < a → AVLTree._F_find.loop a (.node l b r) = .ok [])) ∧
    (∀ (t : BinaryTree α) (l r : TreeNode α) (up : List (Step α)),
      (a < b → AVLTree._F_insert.loop t a (.node l b r) up =
        match l with
        | .absent => AVLTree._F_adjust (t.append_left ⟨l, b, r, up⟩ a).1
            (some (t.append_left ⟨l, b, r, up⟩ a).2)
        | .node _ _ _ => AVLTree._F_insert.loop t a l (Step.left b r :: up)) ∧
      (b < a → AVLTree._F_insert.loop t a (.node l b r) up =
        match r with
        | .absent => AVLTree._F_adjust (t.append_right ⟨l, b, r, up⟩ a).1
            (some (t.append_right ⟨l, b, r, up⟩ a).2)
        | .node _ _ _ => AVLTree._F_insert.loop t a r (Step.right l b :: up))) := by
  have hz := Compare_eq_zero a b
  have hp := Compare_pos a b
  have hn := Compare_neg a b
  refine ⟨?_, ?_, ?_, ?_, hp, fun l r => ⟨fun h => ?_, fun h => ?_, fun h1 h2 => ?_⟩,
    fun t l r up => ⟨fun h => ?_, fun h => ?_⟩⟩
  · rcases Compare_cases a b with ⟨h, e⟩ | ⟨h, e⟩ | ⟨h1, h2, e⟩
    · simp [e, h]
    · simp [e, not_lt_of_gt h]
    · simp [e, h1]
  · rcases Compare_cases a b with ⟨h, e⟩ | ⟨h, e⟩ | ⟨h1, h2, e⟩
    · simp [e, not_lt_of_gt h]
    · simp [e, h]
    · simp [e, h2]
  · rcases Compare_cases a b with ⟨h, e⟩ | ⟨h, e⟩ | ⟨h1, h2, e⟩
    · simp [e, h]
    · simp [e, h]
    · simp [e, h1, h2]
  · rcases Compare_cases a b with ⟨h, e⟩ | ⟨h, e⟩ | ⟨h1, h2, e⟩
    · rcases Compare_cases b a with ⟨g, f⟩ | ⟨g, f⟩ | ⟨g1, g2, f⟩
      · exact absurd g (not_lt_of_gt h)
      · rw [e, f]; rfl
      · exact absurd h g2
    · rcases Compare_cases b a with ⟨g, f⟩ | ⟨g, f⟩ | ⟨g1, g2, f⟩
      · rw [e, f]
      · exact absurd g (not_lt_of_gt h)
      · exact absurd h g1
    · rcases Compare_cases b a with ⟨g, f⟩ | ⟨g, f⟩ | ⟨g1, g2, f⟩
      · exact absurd g h2
      · exact absurd g h1
      · rw [e, f]; rfl
  · have c1 : Compare a b > 0 := hp.2 h
    rw [find_loop_node, if_neg (by omega), if_pos c1]
  · have c1 : Compare a b < 0 := hn.2 h
    rw [find_loop_node, if_neg (by omega), if_neg (by omega)]
  · have c0 : Compare a b = 0 := hz.2 (le_antisymm (not_lt.1 h2) (not_lt.1 h1))
    rw [find_loop_node, if_pos c0]
    rfl
  · have c1 : Compare a b > 0 := hp.2 h
    rw [insert_loop_node, if_neg (by omega), if_pos c1]
  · have c1 : Compare a b < 0 := hn.2 h
    rw [insert_loop_node, if_neg (by omega), if_neg (by omega)]


theorem stack_calls_number (cs : List (Stack.Call α)) :
    ∀ (s : Stack α) (g : Nat), s.number = (g + s.topNode.length) % 2 ^ 32 →
      (Stack.calls s cs).number = (g + (Stack.calls s cs).topNode.length) % 2 ^ 32 := by
  induction cs with
  | nil => intro s g h; exact h
  | cons c cs ih =>
    intro s g h
    cases c with
    | push x =>
      refine ih (s.push x) g ?_
      simp only [Stack.push, List.length_cons, h]
      norm_num
      omega
    | pop =>
      refine ih s.pop g ?_
      unfold Stack.pop
      cases hn : s.topNode with
      | nil => simp only []; rw [h, hn]
      | cons y rest =>
        simp only []
        rw [h, hn]
        simp only [List.length_cons]
        norm_num
        omega

/-- C28. `Stack`.  A newly constructed stack has no linked node, but `size()`
returns whatever the storage of `number` held, because `number` has no
initializer: with 7 there, `size()` is 7 and `empty()` is false on a stack
without nodes.  From then on the counter follows the calls: after any `push`
and `pop` calls `size()` is the initial value plus the number of linked nodes,
modulo `2 ^ 32`, so from a zeroed counter it is the number of linked nodes
modulo `2 ^ 32`; `push(x)` then `top()` returns `x`; `push(x)` then `pop()`
gives the stack back; `pop()` on a stack without nodes changes nothing and
`top()` on it returns the default value. -/
theorem stack_bookkeeping [Inhabited α] (x : α) (s : Stack α) (g : Nat)
    (cs : List (Stack.Call α)) :
    (Stack.new g : Stack α).topNode = [] ∧
    (Stack.new g : Stack α).size = g % 2 ^ 32 ∧
    ((Stack.new 7 : Stack α).size = 7 ∧ (Stack.new 7 : Stack α).empty = false) ∧
    ((Stack.new 0 : Stack α).size = 0 ∧ (Stack.new 0 : Stack α).empty = true) ∧
    (Stack.calls (Stack.new g) cs).size
      = (g + (Stack.calls (Stack.new g : Stack α) cs).topNode.length) % 2 ^ 32 ∧
    (Stack.calls (Stack.new 0) cs).size
      = (Stack.calls (Stack.new 0 : Stack α) cs).topNode.length % 2 ^ 32 ∧
    (s.empty = true ↔ s.size = 0) ∧
    (s.push x).top = x ∧
    (s.number < 2 ^ 32 → (s.push x).pop = s) ∧
    (s.topNode = [] → s.pop = s ∧ s.top = default) := by
  refine ⟨rfl, rfl, ⟨rfl, rfl⟩, ⟨rfl, rfl⟩, ?_, ?_, ?_, rfl, ?_, ?_⟩
  · exact stack_calls_number cs (Stack.new g) g (by simp [Stack.new])
  · have := stack_calls_number cs (Stack.new 0 : Stack α) 0 (by simp [Stack.new])
    simpa [Stack.size] using this
  · unfold Stack.empty Stack.size
    split_ifs with h
    · simp; omega
    · simp; omega
  · intro h
    obtain ⟨n, l⟩ := s
    simp only [Stack.push, Stack.pop, Stack.mk.injEq, and_true]
    simp only [] at h
    norm_num at h ⊢
    omega
  · intro h
    obtain ⟨n, l⟩ := s
    simp only [] at h
    subst h
    exact ⟨rfl, rfl⟩

/-! ## The walk as a loop and the start of the walk of insert -/

/-- The subtree an iteration of the walk returns does not depend on the node
that is tracked. -/
theorem visit_tree (l : TreeNode α) (x : α) (r : TreeNode α) (p q : Path) :
    (AVLTree._F_adjust.visit (.node l x r) p).map Prod.fst =
      (AVLTree._F_adjust.visit (.node l x r) q).map Prod.fst := by
  by_cases c1 : depth l > depth r + 1
  · cases l with
    | absent => simp [depth] at c1
    | node tl ty tr =>
      rw [visit_left_heavy tl ty tr x r p c1, visit_left_heavy tl ty tr x r q c1]
      split_ifs with c3
      · cases tr with
        | absent => rfl
        | node a z b => rfl
      · rfl
  · by_cases c2 : depth r > depth l + 1
    · cases r with
      | absent => simp [depth] at c2
      | node tl ty tr =>
        rw [visit_right_heavy l x tl ty tr p c2, visit_right_heavy l x tl ty tr q c2]
        split_ifs with c3
        · cases tl with
          | absent => rfl
          | node a z b => rfl
        · rfl
    · rw [visit_unchanged l x r p (by omega) (by omega),
        visit_unchanged l x r q (by omega) (by omega)]
      rfl

/-- The tree the walk returns does not depend on the node that is tracked. -/
theorem loop_tree (up : List (Step α)) :
    ∀ (l : TreeNode α) (x : α) (r : TreeNode α) (p q : Path),
      (AVLTree._F_adjust.loop (.node l x r) p up).map Prod.fst =
        (AVLTree._F_adjust.loop (.node l x r) q up).map Prod.fst := by
  induction up with
  | nil => intro l x r p q; exact visit_tree l x r p q
  | cons s up ih =>
    intro l x r p q
    obtain ⟨v1, q1, e1, _⟩ := visit_total l x r p
    obtain ⟨v2, q2, e2, _⟩ := visit_total l x r q
    have h := visit_tree l x r p q
    rw [e1, e2] at h
    simp only [Except.map, Except.ok.injEq] at h
    subst h
    simp only [AVLTree._F_adjust.loop, e1, e2]
    show (AVLTree._F_adjust.loop (s.attach v1) (s.dir :: q1) up).map Prod.fst =
      (AVLTree._F_adjust.loop (s.attach v1) (s.dir :: q2) up).map Prod.fst
    cases s with
    | left sx sr => exact ih v1 sx sr _ _
    | right sl sx => exact ih sl sx v1 _ _

theorem parent_sub (s : Step α) (c : TreeNode α) (up : List (Step α)) :
    (s.parent c up).sub = s.attach c ∧ (s.parent c up).up = up := by
  cases s <;> exact ⟨rfl, rfl⟩

/-- The walk started at a leaf and the walk started at the parent of the leaf
leave the same tree. -/
theorem adjust_from_parent (t : BinaryTree α) (k : α) (s : Step α) (up : List (Step α)) :
    (AVLTree._F_adjust t (some ⟨.absent, k, .absent, s :: up⟩)).map Prod.fst =
      (AVLTree._F_adjust t (parent ⟨.absent, k, .absent, s :: up⟩)).map Prod.fst := by
  have hv : AVLTree._F_adjust.visit (.node .absent k .absent) ([] : Path)
      = .ok (.node .absent k .absent, []) :=
    visit_unchanged .absent k .absent [] (by simp) (by simp)
  have e1 : AVLTree._F_adjust.loop (.node .absent k .absent) [] (s :: up) =
      AVLTree._F_adjust.loop (s.attach (.node .absent k .absent)) [s.dir] up := by
    simp only [AVLTree._F_adjust.loop, hv]
    rfl
  have hp : parent (⟨.absent, k, .absent, s :: up⟩ : Loc α) =
      some (s.parent (.node .absent k .absent) up) := rfl
  rw [hp]
  simp only [AVLTree._F_adjust, Loc.sub, e1]
  have e2 : (s.parent (.node .absent k .absent) up).sub = s.attach (.node .absent k .absent) :=
    (parent_sub s _ up).1
  have e3 : (s.parent (.node .absent k .absent) up).up = up := (parent_sub s _ up).2
  rw [show TreeNode.node (s.parent (TreeNode.node TreeNode.absent k TreeNode.absent) up).left
      (s.parent (TreeNode.node TreeNode.absent k TreeNode.absent) up).data
      (s.parent (TreeNode.node TreeNode.absent k TreeNode.absent) up).right =
      s.attach (.node .absent k .absent) from e2, e3]
  have h : (AVLTree._F_adjust.loop (s.attach (.node .absent k .absent)) [s.dir] up).map Prod.fst
      = (AVLTree._F_adjust.loop (s.attach (.node .absent k .absent)) [] up).map Prod.fst := by
    cases s with
    | left sx sr => exact loop_tree up _ sx sr _ _
    | right sl sx => exact loop_tree up sl sx _ _ _
  cases h1 : AVLTree._F_adjust.loop (s.attach (.node .absent k .absent)) [s.dir] up with
  | error e =>
    rw [h1] at h
    cases h2 : AVLTree._F_adjust.loop (s.attach (.node .absent k .absent)) [] up with
    | error e2 => rw [h2] at h; simp only [Except.map, Except.error.injEq] at h; subst h; rfl
    | ok r2 => rw [h2] at h; simp [Except.map] at h
  | ok r1 =>
    rw [h1] at h
    cases h2 : AVLTree._F_adjust.loop (s.attach (.node .absent k .absent)) [] up with
    | error e2 => rw [h2] at h; simp [Except.map] at h
    | ok r2 =>
      rw [h2] at h
      simp only [Except.map, Except.ok.injEq] at h
      show Except.ok _ = Except.ok _
      simp only [h]


theorem insert_from_parent_node [LinearOrder α] (t : BinaryTree α) (k : α) (l : TreeNode α)
    (x : α) (r : TreeNode α) (up : List (Step α)) :
    AVLTree.insert_from_parent.loop t k (.node l x r) up =
      if Compare k x = 0 then
        pure ({ t with root := rebuild (.node l k r) up }, path_of up)
      else if Compare k x > 0 then
        match l with
        | .absent => AVLTree._F_adjust (t.append_left ⟨l, x, r, up⟩ k).1
            (parent (t.append_left ⟨l, x, r, up⟩ k).2)
        | .node _ _ _ => AVLTree.insert_from_parent.loop t k l (Step.left x r :: up)
      else
        match r with
        | .absent => AVLTree._F_adjust (t.append_right ⟨l, x, r, up⟩ k).1
            (parent (t.append_right ⟨l, x, r, up⟩ k).2)
        | .node _ _ _ => AVLTree.insert_from_parent.loop t k r (Step.right l x :: up) := by
  cases l <;> cases r <;> rfl

theorem insert_loop_from_parent [LinearOrder α] (t : BinaryTree α) (k : α)
    (sub : TreeNode α) :
    ∀ up : List (Step α),
      (AVLTree._F_insert.loop t k sub up).map Prod.fst =
        (AVLTree.insert_from_parent.loop t k sub up).map Prod.fst := by
  induction sub with
  | absent => intro up; rfl
  | node l x r ihl ihr =>
    intro up
    rw [insert_loop_node, insert_from_parent_node]
    split_ifs with c0 c1
    · rfl
    · cases l with
      | absent => exact adjust_from_parent _ k (Step.left x r) up
      | node a y b => exact ihl _
    · cases r with
      | absent => exact adjust_from_parent _ k (Step.right l x) up
      | node a y b => exact ihr _

/-- C25. The start of the rebalance walk of insert.  The tree `insert(k)`
produces, the walk starting at the node `append_left` or `append_right` returns
(the new leaf), is the tree produced by attaching the leaf and starting the walk
at the parent of the leaf, as the specification words it: the pass over the
leaf changes nothing.  This holds for every tree and key, and for the walk
alone from every leaf that has a parent. -/
theorem insert_walk_start [LinearOrder α] (t : BinaryTree α) (k : α) :
    (AVLTree.insert t k).map Prod.fst = (AVLTree.insert_from_parent t k).map Prod.fst ∧
    (∀ (s : Step α) (up : List (Step α)),
      (AVLTree._F_adjust t (some ⟨.absent, k, .absent, s :: up⟩)).map Prod.fst =
        (AVLTree._F_adjust t (parent ⟨.absent, k, .absent, s :: up⟩)).map Prod.fst) ∧
    (∀ p : Path, AVLTree._F_adjust.visit (.node .absent k .absent) p
      = .ok (.node .absent k .absent, p)) := by
  refine ⟨?_, fun s up => adjust_from_parent t k s up,
    fun p => visit_unchanged .absent k .absent p (by simp) (by simp)⟩
  unfold AVLTree.insert AVLTree.insert_from_parent
  rw [insert_unfold]
  split_ifs with h
  · rfl
  · exact insert_loop_from_parent t k t.root []

theorem passes_end (up : List (Step α)) :
    ∀ (l : TreeNode α) (x : α) (r : TreeNode α) (root0 : TreeNode α) (extra : Nat),
      ∃ root, (AVLTree._F_adjust.loop (.node l x r) [] up).map Prod.fst = .ok root ∧
        AVLTree._F_adjust.passes (up.length + 1 + extra) (some ⟨l, x, r, up⟩) root0
          = .ok (none, root) := by
  induction up with
  | nil =>
    intro l x r root0 extra
    obtain ⟨v, q, e, _⟩ := visit_total l x r []
    refine ⟨v, by simp only [AVLTree._F_adjust.loop, e]; rfl, ?_⟩
    have e0 : AVLTree._F_adjust.visit (Loc.sub ⟨l, x, r, []⟩) [] = .ok (v, q) := e
    have hi : AVLTree._F_adjust.iteration ⟨l, x, r, []⟩ = .ok (none, v) := by
      simp only [AVLTree._F_adjust.iteration, e0]
      rfl
    rw [show ([] : List (Step α)).length + 1 + extra = extra + 1 from by simp; omega]
    simp only [AVLTree._F_adjust.passes, hi]
    cases extra <;> rfl
  | cons s up ih =>
    intro l x r root0 extra
    obtain ⟨v, q, e, _⟩ := visit_total l x r []
    have e0 : AVLTree._F_adjust.visit (Loc.sub ⟨l, x, r, s :: up⟩) [] = .ok (v, q) := e
    have hi : AVLTree._F_adjust.iteration ⟨l, x, r, s :: up⟩ =
        .ok (some (s.parent v up), rebuild (s.attach v) up) := by
      simp only [AVLTree._F_adjust.iteration, e0]
      rfl
    have hl : AVLTree._F_adjust.loop (.node l x r) [] (s :: up) =
        AVLTree._F_adjust.loop (s.attach v) (s.dir :: q) up := by
      simp only [AVLTree._F_adjust.loop, e]
      rfl
    rw [show (s :: up).length + 1 + extra = (up.length + 1 + extra) + 1 from by
      simp only [List.length_cons]; omega]
    simp only [AVLTree._F_adjust.passes, hi, hl]
    cases s with
    | left sx sr =>
      obtain ⟨root, h1, h2⟩ := ih v sx sr (rebuild (.node v sx sr) up) extra
      refine ⟨root, ?_, h2⟩
      rw [← h1]
      exact loop_tree up v sx sr _ _
    | right sl sx =>
      obtain ⟨root, h1, h2⟩ := ih sl sx v (rebuild (.node sl sx v) up) extra
      refine ⟨root, ?_, h2⟩
      rw [← h1]
      exact loop_tree up sl sx v _ _

/-- C21. The rebalance walk terminates.  From a start node with `a` ancestors
the `while` loop of `_F_adjust` has ended after `a + 1` passes (and stays ended
with more), leaving the tree `_F_adjust` returns; from the null pointer it makes
no pass; and one pass from a node, with or without rotation, leaves `visit` at
the position of the parent of the node, with one ancestor fewer, or null when
the node was at the root. -/
theorem walk_terminates (t : BinaryTree α) (n : Loc α) (extra : Nat) :
    (∃ res, AVLTree._F_adjust t (some n) = .ok res ∧
      AVLTree._F_adjust.passes (n.up.length + 1 + extra) (some n) t.root
        = .ok (none, res.1.root)) ∧
    AVLTree._F_adjust.passes extra none t.root = .ok (none, t.root) ∧
    AVLTree._F_adjust.passes 0 (some n) t.root = .ok (some n, t.root) ∧
    (∃ v root, AVLTree._F_adjust.iteration n = .ok (v, root) ∧
      v.map Loc.up = (parent n).map Loc.up ∧
      (n.up = [] → v = none) ∧
      (∀ m, v = some m → m.up.length + 1 = n.up.length ∧ m.rebuild = root)) := by
  obtain ⟨l, x, r, up⟩ := n
  refine ⟨?_, ?_, rfl, ?_⟩
  · obtain ⟨root, h1, h2⟩ := passes_end up l x r t.root extra
    obtain ⟨root2, q, e1, e2⟩ := adjust_some t ⟨l, x, r, up⟩
    have e3 : AVLTree._F_adjust.loop (.node l x r) [] up = .ok (root2, q) := e2
    rw [e3] at h1
    simp only [Except.map, Except.ok.injEq] at h1
    subst h1
    exact ⟨_, e1, h2⟩
  · cases extra <;> rfl
  · obtain ⟨v, q, e, _⟩ := visit_total l x r []
    have e0 : AVLTree._F_adjust.visit (Loc.sub ⟨l, x, r, up⟩) [] = .ok (v, q) := e
    cases up with
    | nil =>
      refine ⟨none, v, ?_, rfl, fun _ => rfl, fun m h => by cases h⟩
      simp only [AVLTree._F_adjust.iteration, e0]
      rfl
    | cons s up =>
      refine ⟨some (s.parent v up), rebuild (s.attach v) up, ?_, ?_, (fun h => by cases h), ?_⟩
      · simp only [AVLTree._F_adjust.iteration, e0]
        rfl
      · simp only [parent, Option.map_some', (parent_sub s _ up).2]
      · intro m hm
        simp only [Option.some.injEq] at hm
        subst hm
        refine ⟨by simp [(parent_sub s v up).2], ?_⟩
        simp only [Loc.rebuild, (parent_sub s v up).1, (parent_sub s v up).2]


/-! ## Parent links and the in-order step -/

theorem tree_node_up (sub : TreeNode α) :
    ∀ (it : iterator) (up : List (Step α)) (n : Loc α), tree_node sub it up = some n →
      ∃ steps, n.up = steps ++ up ∧ path_of steps = it := by
  induction sub with
  | absent => intro it up n h; simp [tree_node] at h
  | node l x r ihl ihr =>
    intro it up n h
    cases it with
    | nil =>
      simp only [tree_node, Option.some.injEq] at h
      subst h
      exact ⟨[], rfl, rfl⟩
    | cons d p =>
      cases d with
      | L =>
        obtain ⟨steps, h1, h2⟩ := ihl p _ n h
        refine ⟨steps ++ [Step.left x r], by rw [h1]; simp, ?_⟩
        rw [path_of_append, h2]; rfl
      | R =>
        obtain ⟨steps, h1, h2⟩ := ihr p _ n h
        refine ⟨steps ++ [Step.right l x], by rw [h1]; simp, ?_⟩
        rw [path_of_append, h2]; rfl

theorem tree_node_append (sub : TreeNode α) :
    ∀ (it : iterator) (up : List (Step α)) (n : Loc α), tree_node sub it up = some n →
      ∀ p : Path, tree_node sub (it ++ p) up = tree_node n.sub p n.up := by
  induction sub with
  | absent => intro it up n h; simp [tree_node] at h
  | node l x r ihl ihr =>
    intro it up n h p
    cases it with
    | nil =>
      simp only [tree_node, Option.some.injEq] at h
      subst h
      rfl
    | cons d q =>
      cases d with
      | L => exact ihl q _ n h p
      | R => exact ihr q _ n h p

theorem path_of_eq_nil (up : List (Step α)) : path_of up = [] ↔ up = [] := by
  cases up with
  | nil => simp [path_of]
  | cons s up => simp [path_of]

theorem inorder_loc (n : Loc α) : n.rebuild.inorder = n.earlier ++ n.data :: n.later := by
  simp [Loc.rebuild, Loc.sub, Loc.earlier, Loc.later, inorder_rebuild, TreeNode.inorder]

theorem leftmost_full (sub : TreeNode α) (up : List (Step α)) (h : sub ≠ .absent) :
    ∃ m, leftmost sub up = some m ∧ m.left = .absent ∧ m.rebuild = rebuild sub up ∧
      m.earlier = before up ∧ m.data :: m.later = sub.inorder ++ after up := by
  obtain ⟨d, c, steps, h1, h2, h3⟩ := leftmost_spec sub up h
  refine ⟨_, h1, rfl, ?_, ?_, ?_⟩
  · simp only [Loc.rebuild, Loc.sub, rebuild_append, h2]
  · simp [Loc.earlier, before_append, h3, TreeNode.inorder]
  · have hi : sub.inorder = d :: c.inorder ++ after steps := by
      rw [← h2, inorder_rebuild, h3]; simp [TreeNode.inorder]
    simp [Loc.later, after_append, hi]

theorem climb_spec (up : List (Step α)) :
    ∀ c : TreeNode α, (climb c up = none ∧ after up = []) ∨
      ∃ m, climb c up = some m ∧ m.rebuild = rebuild c up ∧
        m.earlier = before up ++ c.inorder ∧ m.data :: m.later = after up := by
  induction up with
  | nil => intro c; exact Or.inl ⟨rfl, rfl⟩
  | cons s up ih =>
    intro c
    cases s with
    | left x r =>
      refine Or.inr ⟨⟨c, x, r, up⟩, rfl, rfl, ?_, ?_⟩
      · simp [Loc.earlier, before]
      · simp [Loc.later, after]
    | right l x =>
      rcases ih (.node l x c) with ⟨h1, h2⟩ | ⟨m, h1, h2, h3, h4⟩
      · exact Or.inl ⟨h1, h2⟩
      · refine Or.inr ⟨m, h1, h2, ?_, h4⟩
        rw [h3]
        simp [before, TreeNode.inorder]

/-- The in-order step from a node: the end when nothing comes after the node
in the in-order traversal, else the node of the same tree that comes next. -/
theorem successor_spec (n : Loc α) :
    (structural_successor n = none ∧ n.later = []) ∨
      ∃ m, structural_successor n = some m ∧ m.rebuild = n.rebuild ∧
        m.earlier = n.earlier ++ [n.data] ∧ m.data :: m.later = n.later := by
  obtain ⟨l, x, r, up⟩ := n
  cases r with
  | absent =>
    rcases climb_spec up (.node l x .absent) with ⟨h1, h2⟩ | ⟨m, h1, h2, h3, h4⟩
    · exact Or.inl ⟨h1, by simp [Loc.later, h2, TreeNode.inorder]⟩
    · refine Or.inr ⟨m, h1, h2, ?_, ?_⟩
      · rw [h3]; simp [Loc.earlier, TreeNode.inorder]
      · rw [h4]; simp [Loc.later, TreeNode.inorder]
  | node a y b =>
    obtain ⟨m, h1, _, h3, h4, h5⟩ :=
      leftmost_full (.node a y b) (Step.right l x :: up) (by simp)
    refine Or.inr ⟨m, h1, h3, ?_, ?_⟩
    · rw [h4]; simp [Loc.earlier, before]
    · rw [h5]; simp [Loc.later, after]

theorem collect_spec (k : Nat) :
    ∀ n : Loc α, n.later.length < k →
      collect k (some n) = n.data :: n.later ∧ advance k (some n) = none := by
  induction k with
  | zero => intro n h; omega
  | succ k ih =>
    intro n h
    rcases successor_spec n with ⟨h1, h2⟩ | ⟨m, h1, _, _, h4⟩
    · simp only [collect, advance, h1, h2]
      cases k <;> exact ⟨rfl, rfl⟩
    · have hl : m.later.length < k := by
        rw [← h4] at h
        simp only [List.length_cons] at h
        omega
      obtain ⟨c1, c2⟩ := ih m hl
      simp only [collect, advance, h1, c1, c2, h4, and_self]

theorem advance_some (k : Nat) :
    ∀ n : Loc α, k ≤ n.later.length → (advance k (some n)).isSome = true := by
  induction k with
  | zero => intro n _; rfl
  | succ k ih =>
    intro n h
    rcases successor_spec n with ⟨_, h2⟩ | ⟨m, h1, _, _, h4⟩
    · rw [h2] at h; simp at h
    · simp only [advance, h1]
      refine ih m ?_
      rw [← h4] at h
      simp only [List.length_cons] at h
      omega


/-- C23. The in-order forward step.  In an ordered tree with the right stored
count, the step from a node `n` (the leftmost node of the right subtree if `n`
has a right child, else the nearest ancestor reached from its left child, else
the end) yields the node of the tree that holds the smallest payload greater
than the one of `n`, and the end when `n` holds the greatest payload; so the
iteration from `begin()` yields the payloads of the tree in strictly increasing
order and reaches the end after exactly `size()` steps. -/
theorem inorder_step [LinearOrder α] (t : BinaryTree α) (it : iterator) (n : Loc α)
    (hc : Counted t) (ho : Ordered t.root) (h : tree_node t.root it [] = some n) :
    (structural_successor n =
      match n.right with
      | .absent => climb n.sub n.up
      | .node a y b => leftmost (.node a y b) (Step.right n.left n.data :: n.up)) ∧
    (structural_successor n = none → ∀ y ∈ t.root.inorder, y ≤ n.data) ∧
    (∀ m, structural_successor n = some m →
      m.rebuild = t.root ∧ n.data < m.data ∧
      ∀ y ∈ t.root.inorder, n.data < y → m.data ≤ y) ∧
    collect (AVLTree.size t) t.begin = t.root.inorder ∧
    StrictlyIncreasing (collect (AVLTree.size t) t.begin) ∧
    advance (AVLTree.size t) t.begin = none ∧
    (∀ k, k < AVLTree.size t → (advance k t.begin).isSome = true) := by
  have hroot : n.rebuild = t.root := tree_node_rebuild _ _ _ _ h
  have hin : t.root.inorder = n.earlier ++ n.data :: n.later := by
    rw [← hroot]; exact inorder_loc n
  have hp : (n.earlier ++ n.data :: n.later).Pairwise (· < ·) := by
    rw [← hin]; exact (ordered_iff _).1 ho
  obtain ⟨p1, p2, p3⟩ := List.pairwise_append.1 hp
  obtain ⟨p4, p5⟩ := List.pairwise_cons.1 p2
  have hne : t.root ≠ .absent := by
    intro e; rw [e] at h; simp [tree_node] at h
  obtain ⟨b, b1, _, _, b4, b5⟩ := leftmost_full t.root [] hne
  have hb : b.data :: b.later = t.root.inorder := by simpa [after] using b5
  have hlen : b.later.length + 1 = AVLTree.size t := by
    have := congrArg List.length hb
    rw [length_inorder] at this
    simp only [List.length_cons] at this
    rw [this]
    exact hc.symm
  have hcol := collect_spec (AVLTree.size t) b (by omega)
  have hbeg : t.begin = some b := b1
  refine ⟨rfl, ?_, ?_, ?_, ?_, ?_, ?_⟩
  · intro hs y hy
    rcases successor_spec n with ⟨_, h2⟩ | ⟨m, h1, _⟩
    · rw [hin, h2] at hy
      rcases List.mem_append.1 hy with hy | hy
      · exact le_of_lt (p3 y hy n.data (List.mem_cons_self _ _))
      · rw [List.mem_singleton.1 hy]
    · rw [hs] at h1; cases h1
  · intro m hs
    rcases successor_spec n with ⟨h1, _⟩ | ⟨m2, h1, h2, _, h4⟩
    · rw [hs] at h1; cases h1
    · rw [hs] at h1
      simp only [Option.some.injEq] at h1
      subst h1
      have hm : m.data ∈ n.later := by rw [← h4]; exact List.mem_cons_self _ _
      refine ⟨h2.trans hroot, p4 _ hm, ?_⟩
      intro y hy hlt
      rw [hin] at hy
      rcases List.mem_append.1 hy with hy | hy
      · exact absurd (p3 y hy n.data (List.mem_cons_self _ _)) (not_lt_of_gt hlt)
      · rcases List.mem_cons.1 hy with hy | hy
        · rw [hy] at hlt; exact absurd hlt (lt_irrefl _)
        · rw [← h4] at hy p5
          rcases List.mem_cons.1 hy with hy | hy
          · rw [hy]
          · exact le_of_lt ((List.pairwise_cons.1 p5).1 y hy)
  · rw [hbeg, hcol.1, hb]
  · rw [hbeg, hcol.1, hb]
    exact (strictlyIncreasing_iff _).2 ((ordered_iff _).1 ho)
  · rw [hbeg, hcol.2]
  · intro k hk
    rw [hbeg]
    exact advance_some k b (by omega)

theorem inorder_step_witness :
    (Counted (built keys12) ∧ Ordered (built keys12).root ∧
      tree_node (built keys12).root [Dir.L, Dir.R] [] = some node43) ∧
    collect (AVLTree.size (built keys12)) (built keys12).begin
      = (built keys12).root.inorder ∧
    advance (AVLTree.size (built keys12)) (built keys12).begin = none :=
  ⟨by decide,
   (inorder_step (built keys12) [Dir.L, Dir.R] node43 (by decide) (by decide)
      (by decide)).2.2.2.1,
   (inorder_step (built keys12) [Dir.L, Dir.R] node43 (by decide) (by decide)
      (by decide)).2.2.2.2.2.1⟩

/-! ## Erase of a node with two children -/

theorem leftmost_context (sub : TreeNode α) :
    ∀ a b : List (Step α), leftmost sub (a ++ b) =
      (leftmost sub a).map (fun s => ⟨s.left, s.data, s.right, s.up ++ b⟩) := by
  induction sub with
  | absent => intro a b; rfl
  | node l x r ihl _ =>
    intro a b
    rw [leftmost_node, leftmost_node]
    have := ihl (Step.left x r :: a) b
    rw [List.cons_append] at this
    rw [this]
    cases leftmost l (Step.left x r :: a) <;> rfl

theorem splice_root (t : BinaryTree α) (c : TreeNode α) (up : List (Step α)) :
    (t.splice c up).1.root = rebuild c up := by
  cases up with
  | nil => rfl
  | cons s up =>
    simp only [BinaryTree.splice, Loc.rebuild, (parent_sub s c up).1, (parent_sub s c up).2]
    rfl

/-- C22. Erase of a node with two children.  In an ordered tree, the structural
successor of a node with two children is the leftmost node of its right
subtree, reached from there by left links only; it has no left child; it holds
the smallest payload greater than the one of the node.  `erase` puts that
payload into the node, which keeps its place and its left subtree, and takes
the successor out of the right subtree, its right child taking its place; after
the rebalance walk the in-order sequence is the old one without the erased
payload, and one node is gone. -/
theorem erase_two_children [LinearOrder α] (t : BinaryTree α) (l : TreeNode α) (x : α)
    (r : TreeNode α) (up : List (Step α)) (hl : l ≠ .absent) (hr : r ≠ .absent)
    (ho : Ordered (rebuild (.node l x r) up)) :
    ∃ d c steps,
      structural_successor ⟨l, x, r, up⟩
        = some ⟨.absent, d, c, steps ++ Step.right l x :: up⟩ ∧
      leftmost r [] = some ⟨.absent, d, c, steps⟩ ∧
      rebuild (.node .absent d c) steps = r ∧
      (∀ s ∈ steps, s.dir = Dir.L) ∧
      x < d ∧ (∀ y ∈ (rebuild (.node l x r) up).inorder, x < y → d ≤ y) ∧
      t.erase ⟨l, x, r, up⟩ = t.splice c (steps ++ Step.right l d :: up) ∧
      (t.erase ⟨l, x, r, up⟩).1.root = rebuild (.node l d (rebuild c steps)) up ∧
      ∃ res, AVLTree._F_erase t ⟨l, x, r, up⟩ = .ok res ∧
        res.root.inorder = (rebuild (.node l x r) up).inorder.erase x ∧
        res.root.nodes + 1 = (rebuild (.node l x r) up).nodes := by
  obtain ⟨d, c, steps, h1, h2, h3⟩ := leftmost_spec r [] hr
  simp only [List.append_nil] at h1
  have hleft : ∀ (st : List (Step α)), before st = [] → ∀ s ∈ st, s.dir = Dir.L := by
    intro st
    induction st with
    | nil => intro _ s hs; cases hs
    | cons a st ih =>
      intro hb s hs
      cases a with
      | left ax ar =>
        rcases List.mem_cons.1 hs with e | e
        · rw [e]; rfl
        · exact ih hb s e
      | right al ax => simp [before] at hb
  have hri : r.inorder = d :: (c.inorder ++ after steps) := by
    rw [← h2, inorder_rebuild, h3]; simp [TreeNode.inorder]
  have hin : (rebuild (.node l x r) up).inorder =
      (before up ++ l.inorder) ++ x :: (r.inorder ++ after up) := by
    simp [inorder_rebuild, TreeNode.inorder]
  have hp : ((before up ++ l.inorder) ++ x :: (r.inorder ++ after up)).Pairwise (· < ·) := by
    rw [← hin]; exact (ordered_iff _).1 ho
  obtain ⟨_, p2, p3⟩ := List.pairwise_append.1 hp
  obtain ⟨p4, p5⟩ := List.pairwise_cons.1 p2
  have herase : t.erase ⟨l, x, r, up⟩ = t.splice c (steps ++ Step.right l d :: up) := by
    cases l with
    | absent => exact absurd rfl hl
    | node a y b =>
      cases r with
      | absent => exact absurd rfl hr
      | node c2 z d2 => simp only [BinaryTree.erase, h1]
  refine ⟨d, c, steps, ?_, h1, h2, hleft steps h3, ?_, ?_, herase, ?_, ?_⟩
  · cases r with
    | absent => exact absurd rfl hr
    | node c2 z d2 =>
      have := leftmost_context (.node c2 z d2) [] (Step.right l x :: up)
      simp only [List.nil_append] at this
      simp only [structural_successor, this, h1]
      rfl
  · exact p4 d (by rw [hri]; simp)
  · intro y hy hlt
    rw [hin] at hy
    rcases List.mem_append.1 hy with hy | hy
    · exact absurd (p3 y hy x (List.mem_cons_self _ _)) (not_lt_of_gt hlt)
    · rcases List.mem_cons.1 hy with hy | hy
      · rw [hy] at hlt; exact absurd hlt (lt_irrefl _)
      · rw [hri] at hy p5
        simp only [List.cons_append] at hy p5
        rcases List.mem_cons.1 hy with hy | hy
        · rw [hy]
        · exact le_of_lt ((List.pairwise_cons.1 p5).1 y hy)
  · rw [herase, splice_root, rebuild_append]
    rfl
  · obtain ⟨res, e, i1, i2, _⟩ := erase_at_spec t ⟨l, x, r, up⟩
    refine ⟨res, e, ?_, i2⟩
    rw [i1, hin, erase_middle x _ _ hp]
    simp

theorem erase_two_children_witness :
    (node43.left ≠ .absent ∧ node43.right ≠ .absent ∧
      Ordered (rebuild (.node node43.left 43 node43.right) node43.up)) ∧
    ∃ d c steps,
      structural_successor ⟨node43.left, 43, node43.right, node43.up⟩
        = some ⟨.absent, d, c, steps ++ Step.right node43.left 43 :: node43.up⟩ ∧
      leftmost node43.right [] = some ⟨.absent, d, c, steps⟩ ∧
      rebuild (.node .absent d c) steps = node43.right ∧
      (∀ s ∈ steps, s.dir = Dir.L) ∧
      43 < d ∧
      (∀ y ∈ (rebuild (.node node43.left 43 node43.right) node43.up).inorder,
        43 < y → d ≤ y) ∧
      (built keys12).erase ⟨node43.left, 43, node43.right, node43.up⟩
        = (built keys12).splice c (steps ++ Step.right node43.left d :: node43.up) ∧
      ((built keys12).erase ⟨node43.left, 43, node43.right, node43.up⟩).1.root
        = rebuild (.node node43.left d (rebuild c steps)) node43.up ∧
      ∃ res, AVLTree._F_erase (built keys12) ⟨node43.left, 43, node43.right, node43.up⟩
          = .ok res ∧
        res.root.inorder
          = (rebuild (.node node43.left 43 node43.right) node43.up).inorder.erase 43 ∧
        res.root.nodes + 1 = (rebuild (.node node43.left 43 node43.right) node43.up).nodes :=
  ⟨by decide,
   erase_two_children (built keys12) node43.left 43 node43.right node43.up (by decide)
     (by decide) (by decide)⟩

/-! ## Payloads that carry a key: the operations commute with `map` -/

theorem depth_map {β : Type} (f : α → β) (t : TreeNode α) : depth (t.map f) = depth t := by
  induction t with
  | absent => rfl
  | node l x r ihl ihr => simp [TreeNode.map, depth, ihl, ihr]

theorem inorder_map {β : Type} (f : α → β) (t : TreeNode α) :
    (t.map f).inorder = t.inorder.map f := by
  induction t with
  | absent => rfl
  | node l x r ihl ihr => simp [TreeNode.map, TreeNode.inorder, ihl, ihr]

theorem nodes_map {β : Type} (f : α → β) (t : TreeNode α) : (t.map f).nodes = t.nodes := by
  induction t with
  | absent => rfl
  | node l x r ihl ihr => simp [TreeNode.map, TreeNode.nodes, ihl, ihr]

theorem left_rotate_map {β : Type} (f : α → β) (t : TreeNode α) :
    left_rotate (t.map f) = (left_rotate t).map (TreeNode.map f) := by
  cases t with
  | absent => rfl
  | node a x r => cases r <;> rfl

theorem right_rotate_map {β : Type} (f : α → β) (t : TreeNode α) :
    right_rotate (t.map f) = (right_rotate t).map (TreeNode.map f) := by
  cases t with
  | absent => rfl
  | node l x c => cases l <;> rfl

theorem rebuild_map {β : Type} (f : α → β) (up : List (Step α)) :
    ∀ sub : TreeNode α, (rebuild sub up).map f = rebuild (sub.map f) (up.map (Step.map f)) := by
  induction up with
  | nil => intro sub; rfl
  | cons s up ih =>
    intro sub
    cases s <;> simp [rebuild, Step.attach, Step.map, ih, TreeNode.map]

theorem path_of_map {β : Type} (f : α → β) (up : List (Step α)) :
    path_of (up.map (Step.map f)) = path_of up := by
  induction up with
  | nil => rfl
  | cons s up ih => cases s <;> simp [path_of, Step.map, Step.dir, ih]

theorem visit_map {β : Type} (f : α → β) (t : TreeNode α) (p : Path) :
    AVLTree._F_adjust.visit (t.map f) p =
      (AVLTree._F_adjust.visit t p).map (fun v => (v.1.map f, v.2)) := by
  cases t with
  | absent => rfl
  | node l x r =>
    simp only [TreeNode.map]
    unfold AVLTree._F_adjust.visit
    simp only [depth_map]
    split_ifs with h1 h2
    · cases l with
      | absent => rfl
      | node tl ty tr =>
        simp only [TreeNode.map, depth_map]
        split_ifs with h3
        · have e1 := left_rotate_map f (.node tl ty tr)
          simp only [TreeNode.map] at e1
          rw [e1]
          cases left_rotate (.node tl ty tr) with
          | error e => rfl
          | ok temp =>
            have e2 := right_rotate_map f (.node temp x r)
            simp only [TreeNode.map] at e2
            show (right_rotate (.node (temp.map f) (f x) (r.map f)) >>= _) =
              Except.map _ (right_rotate (.node temp x r) >>= _)
            rw [e2]
            cases right_rotate (.node temp x r) <;> rfl
        · have e2 := right_rotate_map f (.node (.node tl ty tr) x r)
          simp only [TreeNode.map] at e2
          rw [e2]
          cases right_rotate (.node (.node tl ty tr) x r) <;> rfl
    · cases r with
      | absent => rfl
      | node tl ty tr =>
        simp only [TreeNode.map, depth_map]
        split_ifs with h3
        · have e1 := right_rotate_map f (.node tl ty tr)
          simp only [TreeNode.map] at e1
          rw [e1]
          cases right_rotate (.node tl ty tr) with
          | error e => rfl
          | ok temp =>
            have e2 := left_rotate_map f (.node l x temp)
            simp only [TreeNode.map] at e2
            show (left_rotate (.node (l.map f) (f x) (temp.map f)) >>= _) =
              Except.map _ (left_rotate (.node l x temp) >>= _)
            rw [e2]
            cases left_rotate (.node l x temp) <;> rfl
        · have e2 := left_rotate_map f (.node l x (.node tl ty tr))
          simp only [TreeNode.map] at e2
          rw [e2]
          cases left_rotate (.node l x (.node tl ty tr)) <;> rfl
    · rfl

theorem loop_map {β : Type} (f : α → β) (up : List (Step α)) :
    ∀ (visit : TreeNode α) (p : Path),
      AVLTree._F_adjust.loop (visit.map f) p (up.map (Step.map f)) =
        (AVLTree._F_adjust.loop visit p up).map (fun v => (v.1.map f, v.2)) := by
  induction up with
  | nil => intro visit p; exact visit_map f visit p
  | cons s up ih =>
    intro visit p
    simp only [List.map_cons, AVLTree._F_adjust.loop]
    rw [visit_map]
    cases AVLTree._F_adjust.visit visit p with
    | error e => rfl
    | ok v =>
      have e : (Step.map f s).attach (v.1.map f) = (s.attach v.1).map f := by
        cases s <;> rfl
      have d : (Step.map f s).dir = s.dir := by cases s <;> rfl
      show AVLTree._F_adjust.loop ((Step.map f s).attach (v.1.map f))
        ((Step.map f s).dir :: v.2) (up.map (Step.map f)) = _
      rw [e, d, ih]
      rfl

/-- One unfolding of the loop of `_F_insert` for a comparator. -/
theorem insert_by_loop_node (cmp : α → α → Int) (t : BinaryTree α) (k : α)
    (l : TreeNode α) (x : α) (r : TreeNode α) (up : List (Step α)) :
    AVLTree._F_insert_by.loop cmp t k (.node l x r) up =
      if cmp k x = 0 then
        pure ({ t with root := rebuild (.node l k r) up }, path_of up)
      else if cmp k x > 0 then
        match l with
        | .absent =>
          AVLTree._F_adjust (t.append_left ⟨l, x, r, up⟩ k).1
            (some (t.append_left ⟨l, x, r, up⟩ k).2)
        | .node _ _ _ => AVLTree._F_insert_by.loop cmp t k l (Step.left x r :: up)
      else
        match r with
        | .absent =>
          AVLTree._F_adjust (t.append_right ⟨l, x, r, up⟩ k).1
            (some (t.append_right ⟨l, x, r, up⟩ k).2)
        | .node _ _ _ => AVLTree._F_insert_by.loop cmp t k r (Step.right l x :: up) := by
  cases l <;> cases r <;> rfl

/-- The descent and the rebalance walk of `_F_insert` look at the keys only: on
payloads compared by their keys they do to the tree of keys what `_F_insert`
with the default comparator does to it. -/
theorem insert_by_loop_map {κ : Type} [LinearOrder κ] (key : α → κ) (t : BinaryTree α)
    (v : α) (sub : TreeNode α) :
    ∀ up : List (Step α),
      AVLTree._F_insert.loop (t.map key) (key v) (sub.map key) (up.map (Step.map key)) =
        (AVLTree._F_insert_by.loop (Compare_on key) t v sub up).map
          (fun r => (r.1.map key, r.2)) := by
  induction sub with
  | absent => intro up; rfl
  | node l x r ihl ihr =>
    intro up
    simp only [TreeNode.map]
    rw [insert_loop_node, insert_by_loop_node]
    have hc : Compare (key v) (key x) = Compare_on key v x := rfl
    rw [hc]
    split_ifs with c0 c1
    · simp only [pure, Except.pure, Except.map, BinaryTree.map]
      have e := rebuild_map key up (.node l v r)
      simp only [TreeNode.map] at e
      rw [e, path_of_map]
    · cases l with
      | absent =>
        show (AVLTree._F_adjust.loop ((TreeNode.node .absent v .absent).map key) []
            ((Step.left x r :: up).map (Step.map key)) >>= _) =
          Except.map _ (AVLTree._F_adjust.loop (.node .absent v .absent) []
            (Step.left x r :: up) >>= _)
        rw [loop_map]
        cases AVLTree._F_adjust.loop (.node .absent v .absent) [] (Step.left x r :: up) <;> rfl
      | node a y b => exact ihl (Step.left x r :: up)
    · cases r with
      | absent =>
        show (AVLTree._F_adjust.loop ((TreeNode.node .absent v .absent).map key) []
            ((Step.right l x :: up).map (Step.map key)) >>= _) =
          Except.map _ (AVLTree._F_adjust.loop (.node .absent v .absent) []
            (Step.right l x :: up) >>= _)
        rw [loop_map]
        cases AVLTree._F_adjust.loop (.node .absent v .absent) [] (Step.right l x :: up) <;> rfl
      | node a y b => exact ihr (Step.right l x :: up)

theorem insert_by_map {κ : Type} [LinearOrder κ] (key : α → κ) (t : BinaryTree α) (v : α) :
    AVLTree.insert (t.map key) (key v) =
      (AVLTree.insert_by (Compare_on key) t v).map (fun r => (r.1.map key, r.2)) := by
  show AVLTree._F_insert (t.map key) (key v) = Except.map _ (AVLTree._F_insert_by _ t v)
  rw [insert_unfold, AVLTree._F_insert_by]
  have he : AVLTree.empty (t.map key) = AVLTree.empty t := rfl
  rw [he]
  split_ifs with h
  · rfl
  · exact insert_by_loop_map key t v t.root []

theorem orderedBy_map {κ : Type} [LinearOrder κ] (key : α → κ) (t : TreeNode α) :
    OrderedBy (Compare_on key) t ↔ Ordered (t.map key) := by
  induction t with
  | absent => simp [OrderedBy, Ordered, TreeNode.map]
  | node l x r ihl ihr =>
    have hc : ∀ a b, Compare_on key a b > 0 ↔ key a < key b :=
      fun a b => Compare_pos (key a) (key b)
    simp only [OrderedBy, Ordered, TreeNode.map, ihl, ihr, inorder_map, List.forall_mem_map, hc]

theorem Compare_on_eq_zero {κ : Type} [LinearOrder κ] (key : α → κ) (a b : α) :
    Compare_on key a b = 0 ↔ key a = key b :=
  Compare_eq_zero (key a) (key b)

theorem tree_node_path_of (steps : List (Step α)) :
    ∀ (sub : TreeNode α) (q : Path),
      tree_node (rebuild sub steps) (path_of steps ++ q) [] = tree_node sub q steps := by
  induction steps with
  | nil => intro sub q; rfl
  | cons s steps ih =>
    intro sub q
    simp only [rebuild, path_of, List.append_assoc, List.singleton_append]
    rw [ih]
    cases s <;> rfl

/-- The descent of `_F_insert` for a payload `v` whose key is the key of a
payload `y` of the ordered subtree below `node` ends at the node that holds `y`,
puts `v` there and returns the iterator of that node; nothing else changes. -/
theorem insert_by_loop_present {κ : Type} [LinearOrder κ] (key : α → κ) (t : BinaryTree α)
    (v y : α) (he : key v = key y) (sub : TreeNode α) :
    OrderedBy (Compare_on key) sub → y ∈ sub.inorder →
      ∀ up : List (Step α), ∃ l r steps,
        tree_node sub (path_of steps) up = some ⟨l, y, r, steps ++ up⟩ ∧
        rebuild (.node l y r) (steps ++ up) = rebuild sub up ∧
        AVLTree._F_insert_by.loop (Compare_on key) t v sub up =
          .ok ({ t with root := rebuild (.node l v r) (steps ++ up) },
            path_of (steps ++ up)) := by
  have hpos : ∀ a b, Compare_on key a b > 0 ↔ key a < key b :=
    fun a b => Compare_pos (key a) (key b)
  induction sub with
  | absent => intro _ h; simp [TreeNode.inorder] at h
  | node l x r ihl ihr =>
    intro ho hm up
    obtain ⟨o1, o2, o3, o4⟩ := ho
    rw [insert_by_loop_node]
    simp only [TreeNode.inorder, List.mem_append, List.mem_cons] at hm
    by_cases c0 : Compare_on key v x = 0
    · have hk : key v = key x := (Compare_on_eq_zero key v x).1 c0
      have hyx : y = x := by
        rcases hm with h | h | h
        · have := (hpos y x).1 (o3 y h)
          rw [← he, hk] at this
          exact absurd this (lt_irrefl _)
        · exact h
        · have := (hpos x y).1 (o4 y h)
          rw [← he, hk] at this
          exact absurd this (lt_irrefl _)
      subst hyx
      rw [if_pos c0]
      exact ⟨l, r, [], rfl, rfl, rfl⟩
    · rw [if_neg c0]
      have hne : key v ≠ key x := fun e => c0 ((Compare_on_eq_zero key v x).2 e)
      by_cases c1 : Compare_on key v x > 0
      · have hlt : key v < key x := (hpos v x).1 c1
        rw [if_pos c1]
        have hml : y ∈ l.inorder := by
          rcases hm with h | h | h
          · exact h
          · rw [h] at he; exact absurd he hne
          · have := (hpos x y).1 (o4 y h)
            rw [← he] at this
            exact absurd (lt_trans this hlt) (lt_irrefl _)
        cases l with
        | absent => simp [TreeNode.inorder] at hml
        | node a z b =>
          obtain ⟨l2, r2, steps, h1, h2, h3⟩ := ihl o1 hml (Step.left x r :: up)
          refine ⟨l2, r2, steps ++ [Step.left x r], ?_, ?_, ?_⟩
          · rw [path_of_append]
            simpa [path_of, Step.dir, tree_node] using h1
          · simpa [rebuild, Step.attach] using h2
          · simpa using h3
      · rw [if_neg c1]
        have hgt : key x < key v := by
          rcases lt_trichotomy (key v) (key x) with h | h | h
          · exact absurd ((hpos v x).2 h) c1
          · exact absurd h hne
          · exact h
        have hmr : y ∈ r.inorder := by
          rcases hm with h | h | h
          · have := (hpos y x).1 (o3 y h)
            rw [← he] at this
            exact absurd (lt_trans this hgt) (lt_irrefl _)
          · rw [h] at he; exact absurd he hne
          · exact h
        cases r with
        | absent => simp [TreeNode.inorder] at hmr
        | node a z b =>
          obtain ⟨l2, r2, steps, h1, h2, h3⟩ := ihr o2 hmr (Step.right l x :: up)
          refine ⟨l2, r2, steps ++ [Step.right l x], ?_, ?_, ?_⟩
          · rw [path_of_append]
            simpa [path_of, Step.dir, tree_node] using h1
          · simpa [rebuild, Step.attach] using h2
          · simpa using h3

/-- What `insert` does for a payload whose key is the key of a payload of the
tree. -/
theorem insert_by_present {κ : Type} [LinearOrder κ] (key : α → κ) (t : BinaryTree α)
    (v y : α) (hc : Counted t) (ho : OrderedBy (Compare_on key) t.root)
    (hy : y ∈ t.root.inorder) (he : key v = key y) :
    ∃ it l r up, tree_node t.root it [] = some ⟨l, y, r, up⟩ ∧
      rebuild (.node l y r) up = t.root ∧
      AVLTree.insert_by (Compare_on key) t v =
        .ok ({ root := rebuild (.node l v r) up, count := t.count }, it) ∧
      tree_node (rebuild (.node l v r) up) it [] = some ⟨l, v, r, up⟩ ∧
      OrderedBy (Compare_on key) (rebuild (.node l v r) up) := by
  obtain ⟨l, r, steps, h1, h2, h3⟩ := insert_by_loop_present key t v y he t.root ho hy []
  simp only [List.append_nil] at h1 h2 h3
  refine ⟨path_of steps, l, r, steps, h1, h2, ?_, ?_, ?_⟩
  · have hpos : 0 < t.root.nodes := by
      rw [← length_inorder]; exact List.length_pos_of_mem hy
    have hne : ¬ (AVLTree.empty t = true) := by
      unfold Counted at hc
      simp only [AVLTree.empty, AVLTree.size, BinaryTree.size, beq_iff_eq]
      omega
    rw [AVLTree.insert_by, AVLTree._F_insert_by, if_neg hne, h3]
  · have e := tree_node_path_of steps (.node l v r) []
    simpa [tree_node] using e
  · rw [orderedBy_map, rebuild_map]
    have e : (TreeNode.node l v r).map key = (TreeNode.node l y r).map key := by
      simp [TreeNode.map, he]
    rw [e, ← rebuild_map, h2, ← orderedBy_map]
    exact ho

/-- C11. Idempotent overwrite.  The payloads are compared by their keys
(`Compare_on key`), so that two payloads with the same key compare equal
(0) and may still differ.  On an ordered tree with the right stored count that
has a node whose payload `y` compares equal to `v`, `insert(v)` returns the
iterator of that node and the same tree with `v` in the place of `y`: the same
count, the same subtrees `l` and `r` below the node and the same ancestors `up`
above it (the same shape, every other payload as before, no rotation), and the
tree is still ordered.  Hence on every ordered tree `insert(p1)` followed by
`insert(p2)`, with `p2` comparing equal to `p1`, returns twice; the second call
leaves `size()` and the keys of all nodes as they are, the node it returns holds
`p2`, and no other node has that key. -/
theorem insert_overwrites {κ : Type} [LinearOrder κ] (key : α → κ) (t : BinaryTree α)
    (v y : α) (hc : Counted t) (ho : OrderedBy (Compare_on key) t.root)
    (hy : y ∈ t.root.inorder) (he : Compare_on key v y = 0) :
    (∃ it l r up, tree_node t.root it [] = some ⟨l, y, r, up⟩ ∧
      rebuild (.node l y r) up = t.root ∧
      AVLTree.insert_by (Compare_on key) t v =
        .ok ({ root := rebuild (.node l v r) up, count := t.count }, it) ∧
      tree_node (rebuild (.node l v r) up) it [] = some ⟨l, v, r, up⟩ ∧
      OrderedBy (Compare_on key) (rebuild (.node l v r) up)) ∧
    (∀ (t0 : BinaryTree α) (p1 p2 : α), Counted t0 → OrderedBy (Compare_on key) t0.root →
      Compare_on key p2 p1 = 0 →
      ∃ r1 r2 n, AVLTree.insert_by (Compare_on key) t0 p1 = .ok r1 ∧
        AVLTree.insert_by (Compare_on key) r1.1 p2 = .ok r2 ∧
        AVLTree.size r2.1 = AVLTree.size r1.1 ∧
        r2.1.root.map key = r1.1.root.map key ∧
        tree_node r2.1.root r2.2 [] = some n ∧ n.data = p2 ∧
        (r2.1.root.inorder.map key).count (key p2) = 1) := by
  refine ⟨insert_by_present key t v y hc ho hy ((Compare_on_eq_zero key v y).1 he), ?_⟩
  intro t0 p1 p2 hc0 ho0 he0
  have hk : key p2 = key p1 := (Compare_on_eq_zero key p2 p1).1 he0
  have hcm : Counted (t0.map key) := by
    simp only [Counted, BinaryTree.map, nodes_map]; exact hc0
  have hom : Ordered (t0.map key).root := (orderedBy_map key t0.root).1 ho0
  obtain ⟨res, e1, c1, _, i1, _⟩ := insert_spec (t0.map key) (key p1) hcm
  have e2 : AVLTree.insert (t0.map key) (key p1) = .ok res := e1
  rw [insert_by_map] at e2
  cases e3 : AVLTree.insert_by (Compare_on key) t0 p1 with
  | error e => rw [e3] at e2; cases e2
  | ok r1 =>
    rw [e3] at e2
    have e4 : (r1.1.map key, r1.2) = res := Except.ok.inj e2
    have hroot : res.1.root = r1.1.root.map key := by rw [← e4]; rfl
    have hcount : res.1.count = r1.1.count := by rw [← e4]; rfl
    have hp1 : (r1.1.root.map key).inorder.Pairwise (· < ·) := by
      rw [← hroot, i1 hom]; exact pairwise_put _ _ ((ordered_iff _).1 hom)
    have ho1 : OrderedBy (Compare_on key) r1.1.root :=
      (orderedBy_map key _).2 ((ordered_iff _).2 hp1)
    have hc1 : Counted r1.1 := by
      have := c1
      simp only [Counted, hroot, hcount, nodes_map] at this
      exact this
    have hm1 : key p1 ∈ (r1.1.root.map key).inorder := by
      rw [← hroot, i1 hom, mem_put]; exact Or.inl rfl
    rw [inorder_map, List.mem_map] at hm1
    obtain ⟨y1, hy1, hky⟩ := hm1
    obtain ⟨it, l, r, up, g1, g2, g3, g4, g5⟩ :=
      insert_by_present key r1.1 p2 y1 hc1 ho1 hy1 (by rw [hk, hky])
    refine ⟨r1, _, ⟨l, p2, r, up⟩, rfl, g3, rfl, ?_, g4, rfl, ?_⟩
    · show (rebuild (.node l p2 r) up).map key = _
      rw [← g2, rebuild_map, rebuild_map]
      simp [TreeNode.map, hk, hky]
    · show ((rebuild (.node l p2 r) up).inorder.map key).count (key p2) = 1
      have e : (rebuild (.node l p2 r) up).map key = r1.1.root.map key := by
        rw [← g2, rebuild_map, rebuild_map]
        simp [TreeNode.map, hk, hky]
      rw [← inorder_map, e]
      apply List.count_eq_one_of_mem (nodup_of_pairwise_lt _ hp1)
      rw [inorder_map, List.mem_map]
      exact ⟨y1, hy1, by rw [hk, hky]⟩

theorem insert_overwrites_witness :
    (Counted keyed24 ∧ OrderedBy (Compare_on Prod.fst) keyed24.root ∧
      ((47, 0) : Int × Int) ∈ keyed24.root.inorder ∧
      Compare_on Prod.fst ((47, 1) : Int × Int) (47, 0) = 0) ∧
    ((∃ it l r up, tree_node keyed24.root it [] = some ⟨l, (47, 0), r, up⟩ ∧
      rebuild (.node l (47, 0) r) up = keyed24.root ∧
      AVLTree.insert_by (Compare_on Prod.fst) keyed24 (47, 1) =
        .ok ({ root := rebuild (.node l (47, 1) r) up, count := keyed24.count }, it) ∧
      tree_node (rebuild (.node l (47, 1) r) up) it [] = some ⟨l, (47, 1), r, up⟩ ∧
      OrderedBy (Compare_on Prod.fst) (rebuild (.node l (47, 1) r) up)) ∧
    (∀ (t0 : BinaryTree (Int × Int)) (p1 p2 : Int × Int), Counted t0 →
      OrderedBy (Compare_on Prod.fst) t0.root → Compare_on Prod.fst p2 p1 = 0 →
      ∃ r1 r2 n, AVLTree.insert_by (Compare_on Prod.fst) t0 p1 = .ok r1 ∧
        AVLTree.insert_by (Compare_on Prod.fst) r1.1 p2 = .ok r2 ∧
        AVLTree.size r2.1 = AVLTree.size r1.1 ∧
        r2.1.root.map Prod.fst = r1.1.root.map Prod.fst ∧
        tree_node r2.1.root r2.2 [] = some n ∧ n.data = p2 ∧
        (r2.1.root.inorder.map Prod.fst).count (Prod.fst p2) = 1)) :=
  ⟨by decide, insert_overwrites Prod.fst keyed24 (47, 1) (47, 0) (by decide) (by decide)
    (by decide) (by decide)⟩

/-! ## Nodes with stored links: the parent back-references -/

theorem below_reparent (p q : Option Nat) (t : TreeNode (Cell α)) (h : Linked.Below q t) :
    Linked.Below p (Linked.reparent p t) := by
  cases t with
  | absent => trivial
  | node l c r => exact ⟨rfl, h.2.1, h.2.2⟩

theorem left_rotate_below (p : Option Nat) (t v : TreeNode (Cell α)) (h : Linked.Below p t)
    (e : Linked.left_rotate t = .ok v) : Linked.Below p v := by
  cases t with
  | absent => cases e
  | node a x r =>
    cases r with
    | absent => cases e
    | node b y c =>
      cases e
      obtain ⟨h1, h2, h3, h4, h5⟩ := h
      exact ⟨h1, ⟨rfl, h2, below_reparent _ _ b h4⟩, h5⟩

theorem right_rotate_below (p : Option Nat) (t v : TreeNode (Cell α)) (h : Linked.Below p t)
    (e : Linked.right_rotate t = .ok v) : Linked.Below p v := by
  cases t with
  | absent => cases e
  | node l x c =>
    cases l with
    | absent => cases e
    | node a y b =>
      cases e
      obtain ⟨h1, ⟨h3, h4, h5⟩, h2⟩ := h
      exact ⟨h1, h4, ⟨rfl, below_reparent _ _ b h5, h2⟩⟩

/-- One iteration of the walk keeps the parent back-references right below the
position, and the node it leaves at the position stores the parent of the
position. -/
theorem linked_visit_below (p : Option Nat) (t : TreeNode (Cell α)) (q : Path)
    (v : TreeNode (Cell α) × Path) (h : Linked.Below p t)
    (e : Linked._F_adjust.visit t q = .ok v) : Linked.Below p v.1 := by
  cases t with
  | absent => cases e
  | node l x r =>
    unfold Linked._F_adjust.visit at e
    simp only [] at e
    split_ifs at e with h1 h2
    · cases l with
      | absent => cases e
      | node tl ty tr =>
        simp only [] at e
        split_ifs at e with h3
        · cases e1 : Linked.left_rotate (.node tl ty tr) with
          | error f => rw [e1] at e; cases e
          | ok temp =>
            rw [e1] at e
            cases e2 : Linked.right_rotate (.node temp x r) with
            | error f =>
              have e3 : (Linked.right_rotate (.node temp x r) >>= fun v =>
                (pure (v, rapid.right_rotate.moved
                  (moved_below Dir.L rapid.left_rotate.moved q)) :
                  Except Fault (TreeNode (Cell α) × Path))) = .ok v := e
              rw [e2] at e3; cases e3
            | ok w =>
              have e3 : (Linked.right_rotate (.node temp x r) >>= fun v =>
                (pure (v, rapid.right_rotate.moved
                  (moved_below Dir.L rapid.left_rotate.moved q)) :
                  Except Fault (TreeNode (Cell α) × Path))) = .ok v := e
              rw [e2] at e3
              cases e3
              have ht := left_rotate_below _ _ _ h.2.1 e1
              exact right_rotate_below p (.node temp x r) w ⟨h.1, ht, h.2.2⟩ e2
        · cases e2 : Linked.right_rotate (.node (.node tl ty tr) x r) with
          | error f => rw [e2] at e; cases e
          | ok w =>
            rw [e2] at e
            cases e
            exact right_rotate_below p _ _ h e2
    · cases r with
      | absent => cases e
      | node tl ty tr =>
        simp only [] at e
        split_ifs at e with h3
        · cases e1 : Linked.right_rotate (.node tl ty tr) with
          | error f => rw [e1] at e; cases e
          | ok temp =>
            rw [e1] at e
            cases e2 : Linked.left_rotate (.node l x temp) with
            | error f =>
              have e3 : (Linked.left_rotate (.node l x temp) >>= fun v =>
                (pure (v, rapid.left_rotate.moved
                  (moved_below Dir.R rapid.right_rotate.moved q)) :
                  Except Fault (TreeNode (Cell α) × Path))) = .ok v := e
              rw [e2] at e3; cases e3
            | ok w =>
              have e3 : (Linked.left_rotate (.node l x temp) >>= fun v =>
                (pure (v, rapid.left_rotate.moved
                  (moved_below Dir.R rapid.right_rotate.moved q)) :
                  Except Fault (TreeNode (Cell α) × Path))) = .ok v := e
              rw [e2] at e3
              cases e3
              have ht := right_rotate_below _ _ _ h.2.2 e1
              exact left_rotate_below p (.node l x temp) w ⟨h.1, h.2.1, ht⟩ e2
        · cases e2 : Linked.left_rotate (.node l x (.node tl ty tr)) with
          | error f => rw [e2] at e; cases e
          | ok w =>
            rw [e2] at e
            cases e
            exact left_rotate_below p _ _ h e2
    · cases e
      exact h

theorem top_append (p : Option Nat) (a b : List (Step (Cell α))) :
    Linked.top p (a ++ b) = Linked.top (Linked.top p b) a := by
  cases a <;> rfl

theorem above_append (p : Option Nat) (a b : List (Step (Cell α))) :
    Linked.Above p (a ++ b) ↔ Linked.Above (Linked.top p b) a ∧ Linked.Above p b := by
  induction a with
  | nil => simp [Linked.Above]
  | cons s a ih =>
    show (s.cell.parent = Linked.top p (a ++ b) ∧ Linked.Below (some s.cell.addr) s.sibling ∧
        Linked.Above p (a ++ b)) ↔
      (s.cell.parent = Linked.top (Linked.top p b) a ∧
        Linked.Below (some s.cell.addr) s.sibling ∧ Linked.Above (Linked.top p b) a) ∧
        Linked.Above p b
    rw [ih, top_append]
    tauto

theorem below_attach (p : Option Nat) (s : Step (Cell α)) (sub : TreeNode (Cell α)) :
    Linked.Below p (s.attach sub) ↔
      s.cell.parent = p ∧ Linked.Below (some s.cell.addr) s.sibling ∧
        Linked.Below (some s.cell.addr) sub := by
  cases s with
  | left x r => simp only [Step.attach, Linked.Below, Step.cell, Step.sibling]; tauto
  | right l x => simp only [Step.attach, Linked.Below, Step.cell, Step.sibling]

/-- The parent back-references of a whole tree are right when they are right in
a subtree and along and beside the chain of its ancestors. -/
theorem below_rebuild (p : Option Nat) (up : List (Step (Cell α))) :
    ∀ sub : TreeNode (Cell α),
      Linked.Below p (rebuild sub up) ↔
        Linked.Below (Linked.top p up) sub ∧ Linked.Above p up := by
  induction up with
  | nil => intro sub; simp [rebuild, Linked.top, Linked.Above]
  | cons s up ih =>
    intro sub
    simp only [rebuild, ih, below_attach, Linked.top, Linked.Above]
    tauto

/-- The rebalance walk keeps the parent back-references right. -/
theorem linked_loop_below (p : Option Nat) (up : List (Step (Cell α))) :
    ∀ (visit : TreeNode (Cell α)) (q : Path) (v : TreeNode (Cell α) × Path),
      Linked.Below (Linked.top p up) visit → Linked.Above p up →
      Linked._F_adjust.loop visit q up = .ok v → Linked.Below p v.1 := by
  induction up with
  | nil =>
    intro visit q v hb _ e
    exact linked_visit_below p visit q v hb e
  | cons s up ih =>
    intro visit q v hb ha e
    simp only [Linked._F_adjust.loop] at e
    cases e1 : Linked._F_adjust.visit visit q with
    | error f => rw [e1] at e; cases e
    | ok w =>
      rw [e1] at e
      have hw := linked_visit_below _ visit q w hb e1
      exact ih (s.attach w.1) (s.dir :: w.2) v
        ((below_attach _ s w.1).2 ⟨ha.1, ha.2.1, hw⟩) ha.2.2 e

theorem linked_adjust_below (t : LinkedTree α) (n : Loc (Cell α))
    (res : LinkedTree α × iterator) (h : Linked.Below none n.rebuild)
    (e : Linked._F_adjust t (some n) = .ok res) : Linked.Below none res.1.root := by
  simp only [Linked._F_adjust] at e
  cases e1 : Linked._F_adjust.loop n.sub [] n.up with
  | error f => rw [e1] at e; cases e
  | ok v =>
    rw [e1] at e
    cases e
    obtain ⟨h1, h2⟩ := (below_rebuild none n.up n.sub).1 h
    exact linked_loop_below none n.up n.sub [] v h1 h2 e1

/-- One unfolding of the loop of `_F_insert` over nodes with stored links. -/
theorem linked_insert_loop_node [LinearOrder α] (t : LinkedTree α) (k : α)
    (l : TreeNode (Cell α)) (x : Cell α) (r : TreeNode (Cell α))
    (up : List (Step (Cell α))) :
    Linked._F_insert.loop t k (.node l x r) up =
      if Compare k x.data = 0 then
        pure ({ t with root := rebuild (.node l { x with data := k } r) up }, path_of up)
      else if Compare k x.data > 0 then
        match l with
        | .absent =>
          Linked._F_adjust (Linked.append_left t ⟨l, x, r, up⟩ k).1
            (some (Linked.append_left t ⟨l, x, r, up⟩ k).2)
        | .node _ _ _ => Linked._F_insert.loop t k l (Step.left x r :: up)
      else
        match r with
        | .absent =>
          Linked._F_adjust (Linked.append_right t ⟨l, x, r, up⟩ k).1
            (some (Linked.append_right t ⟨l, x, r, up⟩ k).2)
        | .node _ _ _ => Linked._F_insert.loop t k r (Step.right l x :: up) := by
  cases l <;> cases r <;> rfl

/-- The descent of insert, the attachment of the leaf and the rebalance walk
keep the parent back-references right. -/
theorem linked_insert_loop_below [LinearOrder α] (t : LinkedTree α) (k : α)
    (sub : TreeNode (Cell α)) :
    ∀ (up : List (Step (Cell α))) (res : LinkedTree α × iterator),
      Linked.Below none (rebuild sub up) → Linked._F_insert.loop t k sub up = .ok res →
      Linked.Below none res.1.root := by
  induction sub with
  | absent => intro up res _ e; simp [Linked._F_insert.loop] at e
  | node l x r ihl ihr =>
    intro up res h e
    rw [linked_insert_loop_node] at e
    obtain ⟨⟨h1, h2, h3⟩, h4⟩ := (below_rebuild none up (.node l x r)).1 h
    split_ifs at e with c0 c1
    · cases e
      exact (below_rebuild none up _).2 ⟨⟨h1, h2, h3⟩, h4⟩
    · cases l with
      | absent =>
        apply linked_adjust_below _ _ res _ e
        exact (below_rebuild none (Step.left x r :: up) _).2
          ⟨⟨rfl, trivial, trivial⟩, h1, h3, h4⟩
      | node a y b => exact ihl (Step.left x r :: up) res h e
    · cases r with
      | absent =>
        apply linked_adjust_below _ _ res _ e
        exact (below_rebuild none (Step.right l x :: up) _).2
          ⟨⟨rfl, trivial, trivial⟩, h1, h2, h4⟩
      | node a y b => exact ihr (Step.right l x :: up) res h e

theorem linked_insert_below [LinearOrder α] (t : LinkedTree α) (k : α)
    (res : LinkedTree α × iterator) (h : Linked.Below none t.root)
    (e : Linked.insert t k = .ok res) : Linked.Below none res.1.root := by
  unfold Linked.insert at e
  split_ifs at e with he
  · cases e
    exact ⟨rfl, trivial, trivial⟩
  · exact linked_insert_loop_below t k t.root [] res h e

theorem linked_splice_root (t : LinkedTree α) (c : TreeNode (Cell α)) (p : Option Nat)
    (up : List (Step (Cell α))) :
    (Linked.splice t c p up).1.root = rebuild (Linked.reparent p c) up ∧
    ∀ q, (Linked.splice t c p up).2 = some q →
      q.rebuild = rebuild (Linked.reparent p c) up := by
  cases up with
  | nil => exact ⟨rfl, fun q h => by cases h⟩
  | cons s up =>
    have e : (s.parent (Linked.reparent p c) up).rebuild =
        rebuild (Linked.reparent p c) (s :: up) := by
      simp only [Loc.rebuild, (parent_sub s _ up).1, (parent_sub s _ up).2]
      rfl
    refine ⟨e, fun q h => ?_⟩
    simp only [Linked.splice, Option.some.injEq] at h
    rw [← h]
    exact e

/-- The tree `erase` leaves has its parent back-references right, and the node
at which the rebalance walk is to start is a node of that tree. -/
theorem linked_erase_below (t : LinkedTree α) (n : Loc (Cell α))
    (h : Linked.Below none n.rebuild) :
    Linked.Below none (Linked.erase t n).1.root ∧
    ∀ q, (Linked.erase t n).2 = some q → q.rebuild = (Linked.erase t n).1.root := by
  obtain ⟨l, x, r, up⟩ := n
  obtain ⟨⟨h1, h2, h3⟩, h4⟩ := (below_rebuild none up (.node l x r)).1 h
  have key : ∀ (c : TreeNode (Cell α)) (p : Option Nat) (ctx : List (Step (Cell α)))
      (q : Option Nat), Linked.Below q c → p = Linked.top none ctx → Linked.Above none ctx →
      Linked.Below none (Linked.splice t c p ctx).1.root ∧
      ∀ m, (Linked.splice t c p ctx).2 = some m → m.rebuild = (Linked.splice t c p ctx).1.root := by
    intro c p ctx q hc hp ha
    obtain ⟨e1, e2⟩ := linked_splice_root t c p ctx
    refine ⟨?_, fun m hm => by rw [e1]; exact e2 m hm⟩
    rw [e1]
    exact (below_rebuild none ctx _).2 ⟨by rw [← hp]; exact below_reparent p q c hc, ha⟩
  cases l with
  | absent => exact key r x.parent up _ h3 h1 h4
  | node a y b =>
    cases r with
    | absent => exact key (.node a y b) x.parent up _ h2 h1 h4
    | node c z d =>
      obtain ⟨sd, sc, steps, g1, g2, _⟩ := leftmost_spec (.node c z d) [] (by simp)
      simp only [List.append_nil] at g1
      have e : Linked.erase t ⟨.node a y b, x, .node c z d, up⟩ =
          Linked.splice t sc sd.parent
            (steps ++ Step.right (.node a y b) { x with data := sd.data } :: up) := by
        simp only [Linked.erase, g1]
      rw [e]
      rw [← g2] at h3
      obtain ⟨⟨k1, _, k3⟩, k4⟩ := (below_rebuild (some x.addr) steps _).1 h3
      apply key sc sd.parent _ _ k3
      · rw [top_append]; exact k1
      · rw [above_append]
        exact ⟨k4, h1, h2, h4⟩

theorem linked_erase_at_below (t : LinkedTree α) (it : iterator) (res : LinkedTree α)
    (h : Linked.Below none t.root) (e : Linked.erase_at t it = .ok res) :
    Linked.Below none res.root := by
  unfold Linked.erase_at at e
  cases hn : tree_node t.root it [] with
  | none => rw [hn] at e; cases e
  | some n =>
    rw [hn] at e
    simp only [Linked._F_erase] at e
    have hroot : n.rebuild = t.root := tree_node_rebuild _ _ _ _ hn
    obtain ⟨b1, b2⟩ := linked_erase_below t n (by rw [hroot]; exact h)
    cases hs : (Linked.erase t n).2 with
    | none =>
      rw [hs] at e
      cases e
      exact b1
    | some q =>
      rw [hs] at e
      cases e1 : Linked._F_adjust (Linked.erase t n).1 (some q) with
      | error f => rw [e1] at e; cases e
      | ok r1 =>
        rw [e1] at e
        cases e
        exact linked_adjust_below _ q r1 (by rw [b2 q hs]; exact b1) e1

/-- Every call of the public interface keeps the parent back-references
right. -/
theorem linked_apply_below [LinearOrder α] (t res : LinkedTree α) (op : Op α)
    (h : Linked.Below none t.root) (e : Linked.apply t op = .ok res) :
    Linked.Below none res.root := by
  cases op with
  | insert arg =>
    simp only [Linked.apply] at e
    cases e1 : Linked.insert t arg with
    | error f => rw [e1] at e; cases e
    | ok r1 =>
      rw [e1] at e
      cases e
      exact linked_insert_below t arg r1 h e1
  | erase arg =>
    simp only [Linked.apply, Linked.erase_key] at e
    cases e1 : Linked.find t arg with
    | error f => rw [e1] at e; cases e
    | ok it =>
      rw [e1] at e
      exact linked_erase_at_below t it res h e
  | erase_at it => exact linked_erase_at_below t it res h e

theorem linked_run_below [LinearOrder α] (ops : List (Op α)) :
    ∀ t res : LinkedTree α, Linked.Below none t.root → Linked.run t ops = .ok res →
      Linked.Below none res.root := by
  induction ops with
  | nil => intro t res h e; cases e; exact h
  | cons op ops ih =>
    intro t res h e
    simp only [Linked.run] at e
    cases e1 : Linked.apply t op with
    | error f => rw [e1] at e; cases e
    | ok t2 =>
      rw [e1] at e
      exact ih t2 res (linked_apply_below t t2 op h e1) e

/-! ## Nodes with stored links: the same trees as without them -/

theorem reparent_map {β : Type} (f : Cell α → β)
    (hf : ∀ (c : Cell α) (p : Option Nat), f { c with parent := p } = f c)
    (p : Option Nat) (t : TreeNode (Cell α)) : (Linked.reparent p t).map f = t.map f := by
  cases t with
  | absent => rfl
  | node l c r => simp [Linked.reparent, TreeNode.map, hf]

theorem linked_left_rotate_map {β : Type} (f : Cell α → β)
    (hf : ∀ (c : Cell α) (p : Option Nat), f { c with parent := p } = f c)
    (t : TreeNode (Cell α)) :
    (Linked.left_rotate t).map (TreeNode.map f) = left_rotate (t.map f) := by
  cases t with
  | absent => rfl
  | node a x r =>
    cases r with
    | absent => rfl
    | node b y c =>
      simp [Linked.left_rotate, left_rotate, TreeNode.map, Except.map, hf, reparent_map f hf]

theorem linked_right_rotate_map {β : Type} (f : Cell α → β)
    (hf : ∀ (c : Cell α) (p : Option Nat), f { c with parent := p } = f c)
    (t : TreeNode (Cell α)) :
    (Linked.right_rotate t).map (TreeNode.map f) = right_rotate (t.map f) := by
  cases t with
  | absent => rfl
  | node l x c =>
    cases l with
    | absent => rfl
    | node a y b =>
      simp [Linked.right_rotate, right_rotate, TreeNode.map, Except.map, hf, reparent_map f hf]

/-- One iteration of the walk over nodes with stored links does to the payloads
and the shape what the iteration over nodes without them does. -/
theorem linked_visit_map {β : Type} (f : Cell α → β)
    (hf : ∀ (c : Cell α) (p : Option Nat), f { c with parent := p } = f c)
    (t : TreeNode (Cell α)) (p : Path) :
    (Linked._F_adjust.visit t p).map (fun v => (v.1.map f, v.2)) =
      AVLTree._F_adjust.visit (t.map f) p := by
  cases t with
  | absent => rfl
  | node l x r =>
    simp only [TreeNode.map]
    unfold Linked._F_adjust.visit AVLTree._F_adjust.visit
    simp only [depth_map]
    split_ifs with h1 h2
    · cases l with
      | absent => rfl
      | node tl ty tr =>
        simp only [TreeNode.map, depth_map]
        split_ifs with h3
        · have e1 := linked_left_rotate_map f hf (.node tl ty tr)
          simp only [TreeNode.map] at e1
          rw [← e1]
          cases Linked.left_rotate (.node tl ty tr) with
          | error e => rfl
          | ok temp =>
            have e2 := linked_right_rotate_map f hf (.node temp x r)
            simp only [TreeNode.map] at e2
            show Except.map _ (Linked.right_rotate (.node temp x r) >>= _) =
              (right_rotate (.node (temp.map f) (f x) (r.map f)) >>= _)
            rw [← e2]
            cases Linked.right_rotate (.node temp x r) <;> rfl
        · have e2 := linked_right_rotate_map f hf (.node (.node tl ty tr) x r)
          simp only [TreeNode.map] at e2
          rw [← e2]
          cases Linked.right_rotate (.node (.node tl ty tr) x r) <;> rfl
    · cases r with
      | absent => rfl
      | node tl ty tr =>
        simp only [TreeNode.map, depth_map]
        split_ifs with h3
        · have e1 := linked_right_rotate_map f hf (.node tl ty tr)
          simp only [TreeNode.map] at e1
          rw [← e1]
          cases Linked.right_rotate (.node tl ty tr) with
          | error e => rfl
          | ok temp =>
            have e2 := linked_left_rotate_map f hf (.node l x temp)
            simp only [TreeNode.map] at e2
            show Except.map _ (Linked.left_rotate (.node l x temp) >>= _) =
              (left_rotate (.node (l.map f) (f x) (temp.map f)) >>= _)
            rw [← e2]
            cases Linked.left_rotate (.node l x temp) <;> rfl
        · have e2 := linked_left_rotate_map f hf (.node l x (.node tl ty tr))
          simp only [TreeNode.map] at e2
          rw [← e2]
          cases Linked.left_rotate (.node l x (.node tl ty tr)) <;> rfl
    · rfl

theorem linked_loop_map {β : Type} (f : Cell α → β)
    (hf : ∀ (c : Cell α) (p : Option Nat), f { c with parent := p } = f c)
    (up : List (Step (Cell α))) :
    ∀ (visit : TreeNode (Cell α)) (p : Path),
      (Linked._F_adjust.loop visit p up).map (fun v => (v.1.map f, v.2)) =
        AVLTree._F_adjust.loop (visit.map f) p (up.map (Step.map f)) := by
  induction up with
  | nil => intro visit p; exact linked_visit_map f hf visit p
  | cons s up ih =>
    intro visit p
    simp only [List.map_cons, AVLTree._F_adjust.loop, Linked._F_adjust.loop]
    rw [← linked_visit_map f hf]
    cases Linked._F_adjust.visit visit p with
    | error e => rfl
    | ok v =>
      have e : (Step.map f s).attach (v.1.map f) = (s.attach v.1).map f := by
        cases s <;> rfl
      have d : (Step.map f s).dir = s.dir := by cases s <;> rfl
      show Except.map _ (Linked._F_adjust.loop (s.attach v.1) (s.dir :: v.2) up) =
        AVLTree._F_adjust.loop ((Step.map f s).attach (v.1.map f))
          ((Step.map f s).dir :: v.2) (up.map (Step.map f))
      rw [e, d, ih]

theorem cell_data_parent (c : Cell α) (p : Option Nat) :
    Cell.data { c with parent := p } = Cell.data c := rfl

theorem cell_addr_parent (c : Cell α) (p : Option Nat) :
    Cell.addr { c with parent := p } = Cell.addr c := rfl

theorem linked_adjust_map (t : LinkedTree α) (node : Option (Loc (Cell α))) :
    (Linked._F_adjust t node).map (fun r => (r.1.plain, r.2)) =
      AVLTree._F_adjust t.plain (node.map (Loc.map Cell.data)) := by
  cases node with
  | none => rfl
  | some n =>
    show Except.map _ (Linked._F_adjust.loop n.sub [] n.up >>= _) =
      (AVLTree._F_adjust.loop (n.sub.map Cell.data) [] (n.up.map (Step.map Cell.data)) >>= _)
    rw [← linked_loop_map Cell.data cell_data_parent]
    cases Linked._F_adjust.loop n.sub [] n.up <;> rfl

/-- The descent of insert over nodes with stored links does to the payloads and
the shape what `_F_insert` does, and returns the same iterator. -/
theorem linked_insert_loop_map [LinearOrder α] (t : LinkedTree α) (k : α)
    (sub : TreeNode (Cell α)) :
    ∀ up : List (Step (Cell α)),
      (Linked._F_insert.loop t k sub up).map (fun r => (r.1.plain, r.2)) =
        AVLTree._F_insert.loop t.plain k (sub.map Cell.data) (up.map (Step.map Cell.data)) := by
  induction sub with
  | absent => intro up; rfl
  | node l x r ihl ihr =>
    intro up
    simp only [TreeNode.map]
    rw [insert_loop_node, linked_insert_loop_node]
    split_ifs with c0 c1
    · simp only [pure, Except.pure, Except.map, LinkedTree.plain]
      have e := rebuild_map Cell.data up (.node l { x with data := k } r)
      simp only [TreeNode.map] at e
      rw [e, path_of_map]
    · cases l with
      | absent =>
        exact linked_adjust_map (Linked.append_left t ⟨.absent, x, r, up⟩ k).1
          (some (Linked.append_left t ⟨.absent, x, r, up⟩ k).2)
      | node a y b => exact ihl (Step.left x r :: up)
    · cases r with
      | absent =>
        exact linked_adjust_map (Linked.append_right t ⟨l, x, .absent, up⟩ k).1
          (some (Linked.append_right t ⟨l, x, .absent, up⟩ k).2)
      | node a y b => exact ihr (Step.right l x :: up)

theorem linked_insert_map [LinearOrder α] (t : LinkedTree α) (k : α) :
    (Linked.insert t k).map (fun r => (r.1.plain, r.2)) = AVLTree.insert t.plain k := by
  show _ = AVLTree._F_insert t.plain k
  rw [insert_unfold, Linked.insert]
  have he : AVLTree.empty t.plain = Linked.empty t := rfl
  rw [he]
  split_ifs with h
  · rfl
  · exact linked_insert_loop_map t k t.root []

theorem linked_find_map [LinearOrder α] (k : α) (sub : TreeNode (Cell α)) :
    Linked._F_find.loop k sub = AVLTree._F_find.loop k (sub.map Cell.data) := by
  induction sub with
  | absent => rfl
  | node l x r ihl ihr =>
    simp only [TreeNode.map, Linked._F_find.loop, AVLTree._F_find.loop, ihl, ihr]

theorem tree_node_map {β : Type} (f : α → β) (sub : TreeNode α) :
    ∀ (it : iterator) (up : List (Step α)),
      tree_node (sub.map f) it (up.map (Step.map f)) =
        (tree_node sub it up).map (Loc.map f) := by
  induction sub with
  | absent => intro it up; rfl
  | node l x r ihl ihr =>
    intro it up
    cases it with
    | nil => rfl
    | cons d p =>
      cases d with
      | L => exact ihl p (Step.left x r :: up)
      | R => exact ihr p (Step.right l x :: up)

theorem leftmost_map {β : Type} (f : α → β) (sub : TreeNode α) :
    ∀ up : List (Step α),
      leftmost (sub.map f) (up.map (Step.map f)) = (leftmost sub up).map (Loc.map f) := by
  induction sub with
  | absent => intro up; rfl
  | node l x r ihl _ =>
    intro up
    simp only [TreeNode.map]
    rw [leftmost_node, leftmost_node]
    have e := ihl (Step.left x r :: up)
    simp only [List.map_cons, Step.map] at e
    rw [e]
    cases leftmost l (Step.left x r :: up) <;> rfl

theorem loc_rebuild_map {β : Type} (f : α → β) (n : Loc α) :
    n.rebuild.map f = (n.map f).rebuild :=
  rebuild_map f n.up n.sub

theorem step_parent_map {β : Type} (f : α → β) (s : Step α) (c : TreeNode α)
    (up : List (Step α)) :
    (s.parent c up).map f = (Step.map f s).parent (c.map f) (up.map (Step.map f)) := by
  cases s <;> rfl

theorem linked_splice_map (t : LinkedTree α) (c : TreeNode (Cell α)) (p : Option Nat)
    (up : List (Step (Cell α))) :
    ((Linked.splice t c p up).1.plain, (Linked.splice t c p up).2.map (Loc.map Cell.data)) =
      t.plain.splice (c.map Cell.data) (up.map (Step.map Cell.data)) := by
  cases up with
  | nil =>
    simp only [Linked.splice, BinaryTree.splice, LinkedTree.plain, List.map_nil, Option.map,
      reparent_map Cell.data cell_data_parent]
  | cons s up =>
    simp only [Linked.splice, BinaryTree.splice, LinkedTree.plain, List.map_cons, Option.map,
      loc_rebuild_map, step_parent_map, reparent_map Cell.data cell_data_parent]

/-- The node `erase` removes and the tree it leaves are, without the stored
links, those of `BinaryTree::erase`. -/
theorem linked_erase_map (t : LinkedTree α) (n : Loc (Cell α)) :
    ((Linked.erase t n).1.plain, (Linked.erase t n).2.map (Loc.map Cell.data)) =
      t.plain.erase (n.map Cell.data) := by
  obtain ⟨l, x, r, up⟩ := n
  cases l with
  | absent => exact linked_splice_map t r x.parent up
  | node a y b =>
    cases r with
    | absent => exact linked_splice_map t (.node a y b) x.parent up
    | node c z d =>
      have e := leftmost_map Cell.data (.node c z d) []
      simp only [TreeNode.map, List.map_nil] at e
      simp only [Linked.erase, BinaryTree.erase, Loc.map, TreeNode.map, e]
      cases leftmost (.node c z d) [] with
      | none => rfl
      | some s =>
        have g := linked_splice_map t s.right s.data.parent
          (s.up ++ Step.right (.node a y b) { x with data := s.data.data } :: up)
        simp only [List.map_append, List.map_cons, Step.map, TreeNode.map] at g
        exact g

theorem linked_erase_at_map (t : LinkedTree α) (it : iterator) :
    (Linked.erase_at t it).map LinkedTree.plain = AVLTree.erase_at t.plain it := by
  unfold Linked.erase_at AVLTree.erase_at
  have e := tree_node_map Cell.data t.root it []
  simp only [List.map_nil] at e
  show _ = match tree_node (t.root.map Cell.data) it [] with
    | none => _
    | some n => _
  rw [e]
  cases tree_node t.root it [] with
  | none => rfl
  | some n =>
    simp only [Option.map, Linked._F_erase, AVLTree._F_erase]
    have g := linked_erase_map t n
    rw [← g]
    have a := linked_adjust_map (Linked.erase t n).1 (Linked.erase t n).2
    simp only [] at a ⊢
    rw [← a]
    cases Linked._F_adjust (Linked.erase t n).1 (Linked.erase t n).2 <;> rfl

/-- A call of the public interface on the tree with stored links does to the
payloads and the shape what the call does on the tree without them. -/
theorem linked_apply_map [LinearOrder α] (t : LinkedTree α) (op : Op α) :
    (Linked.apply t op).map LinkedTree.plain = op.apply t.plain := by
  cases op with
  | insert arg =>
    simp only [Linked.apply, Op.apply]
    rw [← linked_insert_map]
    cases Linked.insert t arg <;> rfl
  | erase arg =>
    simp only [Linked.apply, Op.apply, Linked.erase_key, AVLTree.erase, Linked.find,
      AVLTree.find, AVLTree._F_find]
    rw [linked_find_map]
    show Except.map _ (AVLTree._F_find.loop arg (t.root.map Cell.data) >>= _) =
      (AVLTree._F_find.loop arg (t.root.map Cell.data) >>= _)
    cases AVLTree._F_find.loop arg (t.root.map Cell.data) with
    | error f => rfl
    | ok it => exact linked_erase_at_map t it
  | erase_at it => exact linked_erase_at_map t it

theorem linked_run_map [LinearOrder α] (ops : List (Op α)) :
    ∀ t : LinkedTree α, (Linked.run t ops).map LinkedTree.plain = run t.plain ops := by
  induction ops with
  | nil => intro t; rfl
  | cons op ops ih =>
    intro t
    simp only [Linked.run, run]
    rw [← linked_apply_map]
    cases Linked.apply t op with
    | error f => rfl
    | ok t2 => exact ih t2

/-! ## Nodes with stored links: the addresses -/

theorem addrs_rebuild (up : List (Step (Cell α))) (sub : TreeNode (Cell α)) :
    Linked.addrs (rebuild sub up) =
      (before up).map Cell.addr ++ (Linked.addrs sub ++ (after up).map Cell.addr) := by
  simp [Linked.addrs, inorder_rebuild]

theorem addrs_reparent (p : Option Nat) (t : TreeNode (Cell α)) :
    Linked.addrs (Linked.reparent p t) = Linked.addrs t := by
  cases t <;> simp [Linked.addrs, Linked.reparent, TreeNode.inorder]

/-- The rebalance walk moves the nodes and keeps their addresses. -/
theorem linked_loop_addrs (up : List (Step (Cell α))) (l : TreeNode (Cell α)) (x : Cell α)
    (r : TreeNode (Cell α)) (q : Path) (v : TreeNode (Cell α) × Path)
    (e : Linked._F_adjust.loop (.node l x r) q up = .ok v) :
    Linked.addrs v.1 = Linked.addrs (rebuild (.node l x r) up) := by
  have h := linked_loop_map Cell.addr cell_addr_parent up (.node l x r) q
  rw [e] at h
  obtain ⟨root, q2, e2, i1, _⟩ :=
    loop_total (up.map (Step.map Cell.addr)) (l.map Cell.addr) x.addr (r.map Cell.addr) q
  have e3 : AVLTree._F_adjust.loop ((TreeNode.node l x r).map Cell.addr) q
      (up.map (Step.map Cell.addr)) = .ok (root, q2) := e2
  rw [e3] at h
  have h2 : v.1.map Cell.addr = root := congrArg Prod.fst (Except.ok.inj h)
  have e4 : rebuild ((TreeNode.node l x r).map Cell.addr) (up.map (Step.map Cell.addr)) =
      (rebuild (.node l x r) up).map Cell.addr := (rebuild_map Cell.addr up _).symm
  have i2 : root.inorder = ((rebuild (.node l x r) up).map Cell.addr).inorder := by
    rw [← e4]; exact i1
  simp only [Linked.addrs, ← inorder_map, h2, i2]

theorem linked_adjust_addrs (t : LinkedTree α) (n : Loc (Cell α))
    (res : LinkedTree α × iterator) (e : Linked._F_adjust t (some n) = .ok res) :
    Linked.addrs res.1.root = Linked.addrs n.rebuild ∧ res.1.fresh = t.fresh := by
  simp only [Linked._F_adjust] at e
  cases e1 : Linked._F_adjust.loop n.sub [] n.up with
  | error f => rw [e1] at e; cases e
  | ok v =>
    rw [e1] at e
    cases e
    exact ⟨linked_loop_addrs n.up n.left n.data n.right [] v e1, rfl⟩

/-- What `_F_insert` does to the addresses: none is added when the key was
there, else the one of the new leaf. -/
theorem linked_insert_loop_addrs [LinearOrder α] (t : LinkedTree α) (k : α)
    (sub : TreeNode (Cell α)) :
    ∀ (up : List (Step (Cell α))) (res : LinkedTree α × iterator),
      Linked._F_insert.loop t k sub up = .ok res →
      (Linked.addrs res.1.root = Linked.addrs (rebuild sub up) ∧ res.1.fresh = t.fresh) ∨
      ((Linked.addrs res.1.root).Perm (t.fresh :: Linked.addrs (rebuild sub up)) ∧
        res.1.fresh = t.fresh + 1) := by
  induction sub with
  | absent => intro up res e; simp [Linked._F_insert.loop] at e
  | node l x r ihl ihr =>
    intro up res e
    rw [linked_insert_loop_node] at e
    split_ifs at e with c0 c1
    · cases e
      left
      refine ⟨?_, rfl⟩
      simp [Linked.addrs, inorder_rebuild, TreeNode.inorder]
    · cases l with
      | absent =>
        right
        obtain ⟨a1, a2⟩ := linked_adjust_addrs _ _ res e
        refine ⟨?_, a2⟩
        rw [a1]
        simp only [Linked.append_left, Loc.rebuild, Loc.sub, Linked.addrs, inorder_rebuild,
          before, after, TreeNode.inorder, List.map_append, List.map_cons, List.map_nil,
          List.nil_append, List.append_assoc, List.cons_append]
        exact List.perm_middle
      | node a y b => exact ihl (Step.left x r :: up) res e
    · cases r with
      | absent =>
        right
        obtain ⟨a1, a2⟩ := linked_adjust_addrs _ _ res e
        refine ⟨?_, a2⟩
        rw [a1]
        simp only [Linked.append_right, Loc.rebuild, Loc.sub, Linked.addrs, inorder_rebuild,
          before, after, TreeNode.inorder, List.map_append, List.map_cons, List.map_nil,
          List.nil_append, List.append_nil, List.append_assoc, List.cons_append]
        have := @List.perm_middle _ t.fresh
          ((before up).map Cell.addr ++ (l.inorder.map Cell.addr ++ [x.addr]))
          ((after up).map Cell.addr)
        simpa using this
      | node a y b => exact ihr (Step.right l x :: up) res e

theorem linked_insert_distinct [LinearOrder α] (t : LinkedTree α) (k : α)
    (res : LinkedTree α × iterator) (h : Linked.Distinct t)
    (e : Linked.insert t k = .ok res) : Linked.Distinct res.1 := by
  unfold Linked.insert at e
  split_ifs at e with he
  · cases e
    constructor
    · simp [Linked.append_root, Linked.addrs, TreeNode.inorder]
    · intro a ha
      simp only [Linked.append_root, Linked.addrs, TreeNode.inorder, List.nil_append,
        List.map_cons, List.map_nil, List.mem_singleton] at ha
      rw [ha]
      exact Nat.lt_succ_self _
  · rcases linked_insert_loop_addrs t k t.root [] res e with ⟨a1, a2⟩ | ⟨a1, a2⟩
    · simp only [rebuild] at a1
      exact ⟨by rw [a1]; exact h.1, fun a ha => by rw [a2]; rw [a1] at ha; exact h.2 a ha⟩
    · simp only [rebuild] at a1
      constructor
      · rw [a1.nodup_iff, List.nodup_cons]
        exact ⟨fun hm => lt_irrefl _ (h.2 _ hm), h.1⟩
      · intro a ha
        rw [a2]
        rw [a1.mem_iff, List.mem_cons] at ha
        rcases ha with ha | ha
        · rw [ha]; exact Nat.lt_succ_self _
        · exact Nat.lt_succ_of_lt (h.2 a ha)

theorem linked_splice_addrs (t : LinkedTree α) (c : TreeNode (Cell α)) (p : Option Nat)
    (up : List (Step (Cell α))) :
    Linked.addrs (Linked.splice t c p up).1.root =
      (before up).map Cell.addr ++ (Linked.addrs c ++ (after up).map Cell.addr) ∧
    (Linked.splice t c p up).1.fresh = t.fresh := by
  constructor
  · rw [(linked_splice_root t c p up).1, addrs_rebuild, addrs_reparent]
  · cases up <;> rfl

/-- The addresses of the tree `erase` leaves are those of the tree before, one
of them left out; no address is handed out. -/
theorem linked_erase_addrs (t : LinkedTree α) (n : Loc (Cell α)) :
    (Linked.addrs (Linked.erase t n).1.root).Sublist (Linked.addrs n.rebuild) ∧
    (Linked.erase t n).1.fresh = t.fresh := by
  obtain ⟨l, x, r, up⟩ := n
  cases l with
  | absent =>
    obtain ⟨a1, a2⟩ := linked_splice_addrs t r x.parent up
    refine ⟨?_, a2⟩
    show (Linked.addrs (Linked.splice t r x.parent up).1.root).Sublist _
    rw [a1]
    simp only [Loc.rebuild, Loc.sub, addrs_rebuild]
    apply List.Sublist.append_left
    apply List.Sublist.append_right
    simp [Linked.addrs, TreeNode.inorder]
  | node a y b =>
    cases r with
    | absent =>
      obtain ⟨a1, a2⟩ := linked_splice_addrs t (.node a y b) x.parent up
      refine ⟨?_, a2⟩
      show (Linked.addrs (Linked.splice t (.node a y b) x.parent up).1.root).Sublist _
      rw [a1]
      simp only [Loc.rebuild, Loc.sub, addrs_rebuild]
      apply List.Sublist.append_left
      apply List.Sublist.append_right
      simp [Linked.addrs, TreeNode.inorder]
    | node c z d =>
      obtain ⟨sd, sc, steps, g1, g2, g3⟩ := leftmost_spec (.node c z d) [] (by simp)
      simp only [List.append_nil] at g1
      have e : Linked.erase t ⟨.node a y b, x, .node c z d, up⟩ =
          Linked.splice t sc sd.parent
            (steps ++ Step.right (.node a y b) { x with data := sd.data } :: up) := by
        simp only [Linked.erase, g1]
      rw [e]
      obtain ⟨a1, a2⟩ := linked_splice_addrs t sc sd.parent
        (steps ++ Step.right (.node a y b) { x with data := sd.data } :: up)
      refine ⟨?_, a2⟩
      rw [a1]
      simp only [Loc.rebuild, Loc.sub, addrs_rebuild, before_append, after_append, before, after,
        g3]
      have hr : Linked.addrs (TreeNode.node (.node a y b) x (.node c z d)) =
          Linked.addrs (.node a y b) ++ x.addr ::
            (sd.addr :: (Linked.addrs sc ++ (after steps).map Cell.addr)) := by
        have := congrArg Linked.addrs g2
        rw [addrs_rebuild, g3] at this
        simp only [Linked.addrs, TreeNode.inorder, List.map_append, List.map_cons, List.map_nil,
          List.nil_append, List.append_assoc, List.cons_append] at this ⊢
        rw [← this]
      rw [hr]
      simp only [Linked.addrs, TreeNode.inorder, List.map_append, List.map_cons, List.map_nil,
        List.nil_append, List.append_nil, List.append_assoc, List.cons_append]
      apply List.Sublist.append_left
      apply List.Sublist.append_left
      apply List.Sublist.cons₂
      apply List.Sublist.append_left
      apply List.Sublist.cons₂
      exact List.sublist_cons_self _ _

theorem linked_erase_at_distinct (t : LinkedTree α) (it : iterator) (res : LinkedTree α)
    (h : Linked.Distinct t) (e : Linked.erase_at t it = .ok res) : Linked.Distinct res := by
  unfold Linked.erase_at at e
  cases hn : tree_node t.root it [] with
  | none => rw [hn] at e; cases e
  | some n =>
    rw [hn] at e
    simp only [Linked._F_erase] at e
    have hroot : n.rebuild = t.root := tree_node_rebuild _ _ _ _ hn
    obtain ⟨s1, s2⟩ := linked_erase_addrs t n
    rw [hroot] at s1
    have base : Linked.Distinct (Linked.erase t n).1 :=
      ⟨h.1.sublist s1, fun a ha => by rw [s2]; exact h.2 a (s1.subset ha)⟩
    cases hs : (Linked.erase t n).2 with
    | none =>
      rw [hs] at e
      cases e
      exact base
    | some q =>
      rw [hs] at e
      cases e1 : Linked._F_adjust (Linked.erase t n).1 (some q) with
      | error f => rw [e1] at e; cases e
      | ok r1 =>
        rw [e1] at e
        cases e
        obtain ⟨a1, a2⟩ := linked_adjust_addrs _ q r1 e1
        have hq : q.rebuild = (Linked.erase t n).1.root := by
          cases hl : n.left with
          | absent =>
            have := (linked_splice_root t n.right n.data.parent n.up)
            have e0 : Linked.erase t n = Linked.splice t n.right n.data.parent n.up := by
              obtain ⟨l, x, r, up⟩ := n
              simp only [] at hl
              subst hl
              rfl
            rw [e0] at hs ⊢
            rw [this.1]
            exact this.2 q hs
          | node a y b =>
            cases hr : n.right with
            | absent =>
              have := (linked_splice_root t (.node a y b) n.data.parent n.up)
              have e0 : Linked.erase t n = Linked.splice t (.node a y b) n.data.parent n.up := by
                obtain ⟨l, x, r, up⟩ := n
                simp only [] at hl hr
                subst hl hr
                rfl
              rw [e0] at hs ⊢
              rw [this.1]
              exact this.2 q hs
            | node c z d =>
              obtain ⟨sd, sc, steps, g1, _, _⟩ := leftmost_spec (.node c z d) [] (by simp)
              simp only [List.append_nil] at g1
              have e0 : Linked.erase t n = Linked.splice t sc sd.parent
                  (steps ++ Step.right (.node a y b) { n.data with data := sd.data } :: n.up) := by
                obtain ⟨l, x, r, up⟩ := n
                simp only [] at hl hr
                subst hl hr
                simp only [Linked.erase, g1]
              have := linked_splice_root t sc sd.parent
                (steps ++ Step.right (.node a y b) { n.data with data := sd.data } :: n.up)
              rw [e0] at hs ⊢
              rw [this.1]
              exact this.2 q hs
        rw [hq] at a1
        exact ⟨by rw [a1]; exact base.1, fun a ha => by rw [a2]; rw [a1] at ha; exact base.2 a ha⟩

theorem linked_apply_distinct [LinearOrder α] (t res : LinkedTree α) (op : Op α)
    (h : Linked.Distinct t) (e : Linked.apply t op = .ok res) : Linked.Distinct res := by
  cases op with
  | insert arg =>
    simp only [Linked.apply] at e
    cases e1 : Linked.insert t arg with
    | error f => rw [e1] at e; cases e
    | ok r1 =>
      rw [e1] at e
      cases e
      exact linked_insert_distinct t arg r1 h e1
  | erase arg =>
    simp only [Linked.apply, Linked.erase_key] at e
    cases e1 : Linked.find t arg with
    | error f => rw [e1] at e; cases e
    | ok it =>
      rw [e1] at e
      exact linked_erase_at_distinct t it res h e
  | erase_at it => exact linked_erase_at_distinct t it res h e

theorem linked_run_distinct [LinearOrder α] (ops : List (Op α)) :
    ∀ t res : LinkedTree α, Linked.Distinct t → Linked.run t ops = .ok res →
      Linked.Distinct res := by
  induction ops with
  | nil => intro t res h e; cases e; exact h
  | cons op ops ih =>
    intro t res h e
    simp only [Linked.run] at e
    cases e1 : Linked.apply t op with
    | error f => rw [e1] at e; cases e
    | ok t2 =>
      rw [e1] at e
      exact ih t2 res (linked_apply_distinct t t2 op h e1) e

/-- The parent back-references are stored data that a rotation has to write:
the rotation that only moves the nodes leaves them wrong, the one that writes
them leaves them right. -/
theorem links_need_writing :
    Linked.Below none threeCells ∧
    (∃ v, left_rotate threeCells = .ok v ∧ ¬ Linked.Below none v) ∧
    (∃ v, Linked.left_rotate threeCells = .ok v ∧ Linked.Below none v) :=
  ⟨by decide, ⟨_, rfl, by decide⟩, ⟨_, rfl, by decide⟩⟩

/-- What right parent back-references say about a node of the tree: it stores
the address of the node its chain of ancestors starts with, and each of its
children stores its address. -/
theorem below_node (root : TreeNode (Cell α)) (it : iterator) (n : Loc (Cell α))
    (hb : Linked.Below none root) (h : tree_node root it [] = some n) :
    (∀ c, left_child n = some c → c.data.parent = some n.data.addr) ∧
    (∀ c, right_child n = some c → c.data.parent = some n.data.addr) ∧
    (∀ m, parent n = some m → n.data.parent = some m.data.addr) ∧
    (n.data.parent = none ↔ it = []) := by
  have hroot : n.rebuild = root := tree_node_rebuild _ _ _ _ h
  rw [← hroot] at hb
  obtain ⟨⟨h1, h2, h3⟩, h4⟩ := (below_rebuild none n.up n.sub).1 hb
  obtain ⟨steps, k1, k2⟩ := tree_node_up root it [] n h
  simp only [List.append_nil] at k1
  obtain ⟨l, x, r, up⟩ := n
  simp only [] at h1 h2 h3 h4 k1
  subst k1
  refine ⟨?_, ?_, ?_, ?_⟩
  · intro c hc
    cases l with
    | absent => simp [left_child] at hc
    | node a y b =>
      simp only [left_child, Option.some.injEq] at hc
      subst hc
      exact h2.1
  · intro c hc
    cases r with
    | absent => simp [right_child] at hc
    | node a y b =>
      simp only [right_child, Option.some.injEq] at hc
      subst hc
      exact h3.1
  · intro m hm
    cases up with
    | nil => simp [parent] at hm
    | cons s up =>
      simp only [parent, Option.some.injEq] at hm
      subst hm
      rw [h1]
      cases s <;> rfl
  · rw [← k2, path_of_eq_nil, h1]
    cases up with
    | nil => simp [Linked.top]
    | cons s up => simp [Linked.top]

/-- C24. The parent back-reference invariant.  Take any sequence of insert and
erase calls that, started on the empty tree, returns the tree `b`.  The same
calls on the tree whose nodes store their links (every rotation, attachment and
removal writing the parent back-references it has to) return too, with a tree
`t` that has the payloads and the shape of `b`.  In `t`, for every node `n`:
each present left or right child of `n` stores the address of `n` as its parent;
`n` stores the address of the node above it; `n` stores no parent exactly when
it is the root, so exactly one node of a tree that is not empty has no parent.
No two nodes have the same address, so the stored address names one node. -/
theorem parent_links [LinearOrder α] (ops : List (Op α)) (b : BinaryTree α)
    (h : run AVLTree.new ops = .ok b) :
    ∃ t : LinkedTree α, Linked.run Linked.new ops = .ok t ∧ t.plain = b ∧
      (∀ (it : iterator) (n : Loc (Cell α)), tree_node t.root it [] = some n →
        (∀ c, left_child n = some c → c.data.parent = some n.data.addr) ∧
        (∀ c, right_child n = some c → c.data.parent = some n.data.addr) ∧
        (∀ m, parent n = some m → n.data.parent = some m.data.addr) ∧
        (n.data.parent = none ↔ it = [])) ∧
      (Linked.addrs t.root).Nodup := by
  have e := linked_run_map ops (Linked.new : LinkedTree α)
  have hn : (Linked.new : LinkedTree α).plain = AVLTree.new := rfl
  rw [hn, h] at e
  cases e1 : Linked.run (Linked.new : LinkedTree α) ops with
  | error f => rw [e1] at e; cases e
  | ok t =>
    rw [e1] at e
    have hp : t.plain = b := Except.ok.inj e
    have hb : Linked.Below none t.root :=
      linked_run_below ops Linked.new t trivial e1
    have hd : Linked.Distinct t :=
      linked_run_distinct ops Linked.new t
        ⟨List.nodup_nil, fun a ha => by simp [Linked.addrs, Linked.new, TreeNode.inorder] at ha⟩ e1
    exact ⟨t, rfl, hp, fun it n hn => below_node t.root it n hb hn, hd.1⟩

theorem parent_links_witness :
    run AVLTree.new test_calls = .ok (erased (built keys24) [100, 48]) ∧
    ∃ t : LinkedTree Int, Linked.run Linked.new test_calls = .ok t ∧
      t.plain = erased (built keys24) [100, 48] ∧
      (∀ (it : iterator) (n : Loc (Cell Int)), tree_node t.root it [] = some n →
        (∀ c, left_child n = some c → c.data.parent = some n.data.addr) ∧
        (∀ c, right_child n = some c → c.data.parent = some n.data.addr) ∧
        (∀ m, parent n = some m → n.data.parent = some m.data.addr) ∧
        (n.data.parent = none ↔ it = [])) ∧
      (Linked.addrs t.root).Nodup :=
  ⟨by decide, parent_links test_calls (erased (built keys24) [100, 48]) (by decide)⟩

end rapid
